import Mathlib

/-!
# Verification development for the SME benchmark harness

Embedded sources:

* `src/src/benchmarks/bench.c` — `run_benchmark`, the concurrent benchmark
  execution engine (Grand Central Dispatch queues, a spin barrier, a relaxed
  atomic accumulator of `double`s);
* `src/src/capabilities.c` — `sysctl_get_int`;
* `src/sme-utils.c` — `supports_hw_feature`.

`run_benchmark` is embedded as a small-step transition system: the calling
thread and every dispatched block are threads of a machine whose steps are
chosen by an arbitrary schedule, so a statement over all schedules is a
statement over all interleavings.  The C type `double` is embedded as IEEE-754
binary64 with round-to-nearest-even, computed on integers.
-/

namespace SME

set_option linter.unnecessarySeqFocus false
set_option linter.unusedTactic false
set_option linter.unreachableTactic false
set_option linter.unusedVariables false
set_option exponentiation.threshold 3000
set_option maxRecDepth 10000

/-! ## IEEE-754 binary64 (`double`) -/

/-- A binary64 datum.  `fin neg m e` is the finite number `(-1)^neg * m * 2^e`
in the canonical form of the encoding: either `2^52 ≤ m < 2^53` and
`-1074 ≤ e ≤ 971` (normal), or `m < 2^52` and `e = -1074` (subnormal or zero).
NaN payloads are not distinguished. -/
inductive F64 where
  | nan
  | inf (neg : Bool)
  | fin (neg : Bool) (m : Nat) (e : Int)
deriving DecidableEq

/-- Position of the highest set bit by halving, `fuel` bounding the number of
halvings. -/
def log2Aux : Nat → Nat → Nat
  | 0, _ => 0
  | fuel + 1, n => if n < 2 then 0 else log2Aux fuel (n / 2) + 1

/-- Floor of the binary logarithm of `n` (`0` for `n = 0`). -/
def ilog2 (n : Nat) : Nat := log2Aux n n

namespace F64

/-- Positive or negative zero. -/
def zero (neg : Bool) : F64 := fin neg 0 (-1074)

/-- Round the exact value `(-1)^neg * n * 2^e` to binary64, to nearest with
ties to even; values that round to `2^1024` or beyond become infinite. -/
def round (neg : Bool) (n : Nat) (e : Int) : F64 :=
  if n = 0 then zero neg else
  let e' : Int := max (e + (ilog2 n : Int) - 52) (-1074)
  let m : Nat :=
    if e' ≤ e then n * 2 ^ (e - e').toNat
    else
      let k := (e' - e).toNat
      let q := n / 2 ^ k
      let r := n % 2 ^ k
      if r * 2 < 2 ^ k then q
      else if 2 ^ k < r * 2 then q + 1
      else if q % 2 = 0 then q else q + 1
  if m = 2 ^ 53 then (if 971 < e' + 1 then inf neg else fin neg (2 ^ 52) (e' + 1))
  else if 971 < e' then inf neg else fin neg m e'

/-- Conversion of an unsigned integer to `double`, as in `(double)(t1 - t0)`. -/
def ofNat (n : Nat) : F64 := round false n 0

/-- The signed integer `(-1)^neg * n`. -/
def signed (neg : Bool) (n : Nat) : Int := if neg then -(n : Int) else (n : Int)

/-- IEEE-754 addition (`+` on `double`, and the read-modify-write of
`atomic_fetch_add_explicit` on an `_Atomic double`). -/
def add : F64 → F64 → F64
  | nan, _ => nan
  | _, nan => nan
  | inf a, inf b => if a = b then inf a else nan
  | inf a, fin _ _ _ => inf a
  | fin _ _ _, inf b => inf b
  | fin s1 m1 e1, fin s2 m2 e2 =>
    let e := min e1 e2
    let sum : Int := signed s1 (m1 * 2 ^ (e1 - e).toNat) + signed s2 (m2 * 2 ^ (e2 - e).toNat)
    if sum = 0 then zero (s1 && s2) else round (decide (sum < 0)) sum.natAbs e

/-- IEEE-754 multiplication. -/
def mul : F64 → F64 → F64
  | nan, _ => nan
  | _, nan => nan
  | inf a, inf b => inf (xor a b)
  | inf a, fin s m _ => if m = 0 then nan else inf (xor a s)
  | fin s m _, inf b => if m = 0 then nan else inf (xor s b)
  | fin s1 m1 e1, fin s2 m2 e2 => round (xor s1 s2) (m1 * m2) (e1 + e2)

/-- IEEE-754 division.  The quotient of the significands is taken with 108
extra bits and a sticky bit, which is more than rounding to 53 bits needs. -/
def div : F64 → F64 → F64
  | nan, _ => nan
  | _, nan => nan
  | inf _, inf _ => nan
  | inf a, fin s _ _ => inf (xor a s)
  | fin s _ _, inf b => zero (xor s b)
  | fin s1 m1 e1, fin s2 m2 e2 =>
    if m2 = 0 then (if m1 = 0 then nan else inf (xor s1 s2))
    else
      let n := m1 * 2 ^ 108
      round (xor s1 s2) (2 * (n / m2) + (if n % m2 = 0 then 0 else 1)) (e1 - e2 - 109)

/-- The C comparison `==` on `double`: NaN equals nothing, `+0 == -0`. -/
def eq : F64 → F64 → Bool
  | inf a, inf b => a == b
  | fin s1 m1 e1, fin s2 m2 e2 => (m1 == 0 && m2 == 0) || (s1 == s2 && m1 == m2 && e1 == e2)
  | _, _ => false

/-- The rational value of a finite datum (`0` for NaN and the infinities). -/
def toRat : F64 → ℚ
  | fin s m e => (if s then -1 else 1) * (m : ℚ) * (2 : ℚ) ^ e
  | _ => 0

/-- The pair `(m, e)` is the canonical form of a finite datum: a normal
significand with an exponent in range, or a subnormal significand (or zero)
with the least exponent. -/
def Canon (m : Nat) (e : Int) : Prop :=
  (2 ^ 52 ≤ m ∧ m < 2 ^ 53 ∧ -1074 ≤ e ∧ e ≤ 971) ∨ (m < 2 ^ 52 ∧ e = -1074)

/-- The IEEE-754 specification of rounding to nearest, ties to even, for a
result in the finite range: `x` is a finite datum in canonical form, no finite
datum is closer to the rational `q` than `x` is, and if a datum of another
value is as close as `x` then the significand of `x` is even. -/
def Nearest (q : ℚ) (x : F64) : Prop :=
  ∃ s m e, x = fin s m e ∧ Canon m e ∧
    ∀ s' m' e', Canon m' e' →
      |(fin s m e).toRat - q| ≤ |(fin s' m' e').toRat - q| ∧
      ((fin s' m' e').toRat ≠ (fin s m e).toRat →
        |(fin s' m' e').toRat - q| = |(fin s m e).toRat - q| → m % 2 = 0)

end F64

/-! ## `sysctl_get_int` and `supports_hw_feature` -/

/-- What one call `sysctlbyname(name, &ret, &size, NULL, 0)` does: its return
code, and the contents of the `int64_t` buffer `ret` after the call. -/
structure sysctl_reply where
  rc : Int
  ret : Int
deriving DecidableEq

/-- The system query `sysctlbyname` as seen by its two callers: given the name
and the contents of the buffer before the call (both callers pass `0`), the
reply of the kernel. -/
abbrev sysctlbyname_t := String → Int → sysctl_reply

/-- The function `sysctl_get_int` of `src/src/capabilities.c`, lines 18-27. -/
def sysctl_get_int (sysctlbyname : sysctlbyname_t) (name : String) : Int :=
  let r := sysctlbyname name 0
  if r.rc = -1 then 0 else r.ret

/-- The function `supports_hw_feature` of `src/sme-utils.c`, lines 19-28. -/
def supports_hw_feature (sysctlbyname : sysctlbyname_t) (name : String) : Bool :=
  let r := sysctlbyname name 0
  if r.rc = -1 then false else decide (r.ret = 1)

/-! ## `run_benchmark` -/

/-- A `void*` handle returned by `setup`; `0` is `NULL`. -/
abbrev Handle := Nat

/-- The `const void* params` argument. -/
abbrev Params := Nat

/-- Width of `size_t` on the arm64 targets of the repository. -/
def SIZE_BITS : Nat := 64

/-- The C expression `a + b` on `size_t`. -/
def size_add (a b : Nat) : Nat := (a + b) % 2 ^ SIZE_BITS

/-- The C expression `a - b` on `uint64_t`. -/
def u64_sub (a b : Nat) : Nat := (a % 2 ^ 64 + 2 ^ 64 - b % 2 ^ 64) % 2 ^ 64

/-- A benchmark definition (`benchmark_t` of `bench.h`), each entry point given
by what the engine can observe of it: `setup params i` is the pointer returned
by the call of `setup(params)` made for worker `i`, and `bench i data` is the
operation count returned by worker `i`'s call of `bench(data)`.  The entry
point `teardown` returns nothing; its calls appear as events. -/
structure benchmark_t where
  setup : Params → Nat → Handle
  bench : Nat → Handle → F64

/-- The result record `benchmark_result_t` of `bench.h`. -/
structure benchmark_result_t where
  elapsed : F64
  total_ops : F64
deriving DecidableEq

/-- Observable actions of one call of `run_benchmark`, tagged by call site. -/
inductive Event where
  /-- The call of `dispatch_queue_create`, lines 25-26. -/
  | queue_create (high : Bool)
  /-- The call of `dispatch_suspend`, lines 27-28. -/
  | queue_suspend (high : Bool)
  /-- The call of `dispatch_group_create`, line 31. -/
  | group_create
  /-- Call and return of `bench->setup(params)` for worker `i`, line 33. -/
  | setup (i : Nat) (params : Params) (data : Handle)
  /-- The call of `dispatch_group_async` for the block of worker `i`, lines 35-43. -/
  | submit (i : Nat) (high : Bool) (data : Handle)
  /-- The call of `dispatch_resume`, lines 47-48. -/
  | queue_resume (high : Bool)
  /-- The clock reading of line 50. -/
  | read_t0 (t : Nat)
  /-- The store `ready = true`, line 51. -/
  | ready_set
  /-- Worker `i` calls `bench->bench(data)`, line 40. -/
  | bench_call (i : Nat) (data : Handle)
  /-- The call of `bench->bench` by worker `i` returns `ops`, line 40. -/
  | bench_ret (i : Nat) (ops : F64)
  /-- Worker `i` executes `atomic_fetch_add_explicit(&total_ops, ops, ...)`, line 41. -/
  | add (i : Nat) (ops : F64)
  /-- The clock reading of line 53. -/
  | read_t1 (t : Nat)
  /-- The call of `dispatch_release`, lines 57-58. -/
  | queue_release (high : Bool)
  /-- Call of `bench->teardown(data)`, line 61. -/
  | teardown (data : Handle)
deriving DecidableEq

/-- Program points of the calling thread. -/
inductive Pc where
  /-- Before the `assert` of line 18. -/
  | entry
  /-- Lines 19-31. -/
  | create
  /-- Head of the loop of line 32, with its index. -/
  | setup_loop (i : Nat)
  /-- Line 47. -/
  | resume_highp
  /-- Line 48. -/
  | resume_lowp
  /-- Line 50. -/
  | read_t0
  /-- Line 51. -/
  | set_ready
  /-- Line 52, `dispatch_group_wait`. -/
  | wait
  /-- Line 53. -/
  | read_t1
  /-- Lines 55-58. -/
  | release
  /-- Head of the loop of line 60, with its index. -/
  | teardown_loop (i : Nat)
  /-- After the `return` of line 64. -/
  | returned
  /-- The `assert` of line 18 failed. -/
  | aborted
deriving DecidableEq

/-- Progress of the block dispatched for one worker (lines 38-42). -/
inductive Block where
  /-- Not submitted. -/
  | absent
  /-- Submitted to a queue, or spinning on `ready`; `data` is the captured handle. -/
  | queued (high : Bool) (data : Handle)
  /-- Inside `bench->bench(data)`. -/
  | running (data : Handle)
  /-- The call of `bench->bench` has returned `ops`, the atomic add is still to come. -/
  | returned (ops : F64)
  /-- The block has completed. -/
  | finished
deriving DecidableEq

/-- The threads of one call: the caller, and the block of each worker. -/
inductive Thread where
  | main
  | worker (i : Nat)
deriving DecidableEq

/-- The arguments of one call of `run_benchmark`, and the clock it reads:
`clock n` is what `clock_gettime_nsec_np(CLOCK_UPTIME_RAW)` returns when read
after `n` events. -/
structure Call where
  bench : benchmark_t
  params : Params
  n_threads_highp : Nat
  n_threads_lowp : Nat
  clock : Nat → Nat

/-- The loop bound `n_threads_highp + n_threads_lowp`, as `size_t`. -/
def Call.n (c : Call) : Nat := size_add c.n_threads_highp c.n_threads_lowp

/-- Local and shared state of one call of `run_benchmark`. -/
structure State where
  pc : Pc
  total_ops : F64
  ready : Bool
  task_data : Nat → Handle
  suspended_highp : Bool
  suspended_lowp : Bool
  block : Nat → Block
  t0 : Nat
  t1 : Nat
  elapsed : F64
  log : List Event
  result : Option benchmark_result_t

/-- State on entry. -/
def State.init : State where
  pc := .entry
  total_ops := F64.zero false
  ready := false
  task_data := fun _ => 0
  suspended_highp := false
  suspended_lowp := false
  block := fun _ => .absent
  t0 := 0
  t1 := 0
  elapsed := F64.zero false
  log := []
  result := none

/-- One step of the calling thread. -/
def stepMain (c : Call) (s : State) : State :=
  match s.pc with
  | .entry => if 0 < c.n then { s with pc := .create } else { s with pc := .aborted }
  | .create =>
    { s with
      pc := .setup_loop 0
      total_ops := F64.zero false
      ready := false
      suspended_highp := true
      suspended_lowp := true
      log := s.log ++ [.queue_create true, .queue_create false, .queue_suspend true,
        .queue_suspend false, .group_create] }
  | .setup_loop i =>
    if i < c.n then
      let data := c.bench.setup c.params i
      { s with
        pc := .setup_loop (i + 1)
        task_data := fun j => if j = i then data else s.task_data j
        block := fun j => if j = i then .queued (decide (i < c.n_threads_highp)) data else s.block j
        log := s.log ++ [.setup i c.params data, .submit i (decide (i < c.n_threads_highp)) data] }
    else { s with pc := .resume_highp }
  | .resume_highp =>
    { s with pc := .resume_lowp, suspended_highp := false, log := s.log ++ [.queue_resume true] }
  | .resume_lowp =>
    { s with pc := .read_t0, suspended_lowp := false, log := s.log ++ [.queue_resume false] }
  | .read_t0 =>
    let t := c.clock s.log.length % 2 ^ 64
    { s with pc := .set_ready, t0 := t, log := s.log ++ [.read_t0 t] }
  | .set_ready => { s with pc := .wait, ready := true, log := s.log ++ [.ready_set] }
  | .wait =>
    if ∀ j, j < c.n → s.block j = .finished then { s with pc := .read_t1 } else s
  | .read_t1 =>
    let t := c.clock s.log.length % 2 ^ 64
    { s with pc := .release, t1 := t, log := s.log ++ [.read_t1 t] }
  | .release =>
    { s with
      pc := .teardown_loop 0
      elapsed := F64.div (F64.ofNat (u64_sub s.t1 s.t0)) (F64.ofNat 1000000000)
      log := s.log ++ [.queue_release true, .queue_release false] }
  | .teardown_loop i =>
    if i < c.n then
      { s with pc := .teardown_loop (i + 1), log := s.log ++ [.teardown (s.task_data i)] }
    else
      { s with pc := .returned, result := some { elapsed := s.elapsed, total_ops := s.total_ops } }
  | .returned => s
  | .aborted => s

/-- One step of the block of worker `i` (lines 38-42).  A block whose queue is
suspended does not start; a started block spins until `ready` is set. -/
def stepWorker (c : Call) (i : Nat) (s : State) : State :=
  match s.block i with
  | .absent => s
  | .queued high data =>
    if (if high then s.suspended_highp else s.suspended_lowp) then s
    else if s.ready then
      { s with
        block := fun j => if j = i then .running data else s.block j
        log := s.log ++ [.bench_call i data] }
    else s
  | .running data =>
    { s with
      block := fun j => if j = i then .returned (c.bench.bench i data) else s.block j
      log := s.log ++ [.bench_ret i (c.bench.bench i data)] }
  | .returned ops =>
    { s with
      total_ops := F64.add s.total_ops ops
      block := fun j => if j = i then .finished else s.block j
      log := s.log ++ [.add i ops] }
  | .finished => s

/-- One step of the machine, taken by thread `t`. -/
def step (c : Call) (s : State) : Thread → State
  | .main => stepMain c s
  | .worker i => stepWorker c i s

/-- Run the threads in the order given by `sched`, from state `s`. -/
def exec (c : Call) (sched : List Thread) (s : State) : State :=
  sched.foldl (step c) s

/-- The state `run_benchmark(bench, params, n_threads_highp, n_threads_lowp)`
is in after the steps of `sched`, reading the clock `clock`. -/
def run_benchmark (bench : benchmark_t) (params : Params) (n_threads_highp n_threads_lowp : Nat)
    (clock : Nat → Nat) (sched : List Thread) : State :=
  exec ⟨bench, params, n_threads_highp, n_threads_lowp, clock⟩ sched State.init

/-! ## Observations on the event log -/

/-- Position of an event in the text of `run_benchmark`: events of a lower
phase come from earlier statements of the calling thread. -/
def Event.phase : Event → Nat
  | .queue_create _ => 0
  | .queue_suspend _ => 0
  | .group_create => 0
  | .setup _ _ _ => 1
  | .submit _ _ _ => 1
  | .queue_resume _ => 2
  | .read_t0 _ => 3
  | .ready_set => 4
  | .bench_call _ _ => 5
  | .bench_ret _ _ => 5
  | .add _ _ => 5
  | .read_t1 _ => 6
  | .queue_release _ => 7
  | .teardown _ => 8

/-- The calls of `setup` in a log, in order: worker, argument, returned handle. -/
def setups (log : List Event) : List (Nat × Params × Handle) :=
  log.filterMap fun e => match e with
    | .setup i p d => some (i, p, d)
    | _ => none

/-- The blocks submitted in a log, in order: worker, high-priority queue or
not, captured handle. -/
def submits (log : List Event) : List (Nat × Bool × Handle) :=
  log.filterMap fun e => match e with
    | .submit i h d => some (i, h, d)
    | _ => none

/-- The handles passed to `teardown` in a log, in order. -/
def teardowns (log : List Event) : List Handle :=
  log.filterMap fun e => match e with
    | .teardown d => some d
    | _ => none

/-- The handles on which worker `j` called `bench` in a log. -/
def calls (j : Nat) (log : List Event) : List Handle :=
  log.filterMap fun e => match e with
    | .bench_call i d => if i = j then some d else none
    | _ => none

/-- All calls of `bench` in a log, in order: worker and handle. -/
def callPairs (log : List Event) : List (Nat × Handle) :=
  log.filterMap fun e => match e with
    | .bench_call i d => some (i, d)
    | _ => none

/-- The operation counts returned to worker `j` by `bench` in a log. -/
def rets (j : Nat) (log : List Event) : List F64 :=
  log.filterMap fun e => match e with
    | .bench_ret i ops => if i = j then some ops else none
    | _ => none

/-- The atomic additions to `total_ops` in a log, in order: worker and addend. -/
def adds (log : List Event) : List (Nat × F64) :=
  log.filterMap fun e => match e with
    | .add i ops => some (i, ops)
    | _ => none

/-- The stores to `ready` in a log. -/
def readySets (log : List Event) : List Unit :=
  log.filterMap fun e => match e with
    | .ready_set => some ()
    | _ => none

/-- The clock readings of line 50 in a log. -/
def t0s (log : List Event) : List Nat :=
  log.filterMap fun e => match e with
    | .read_t0 t => some t
    | _ => none

/-- The clock readings of line 53 in a log. -/
def t1s (log : List Event) : List Nat :=
  log.filterMap fun e => match e with
    | .read_t1 t => some t
    | _ => none

/-- The left-to-right `double` sum of a list of addends, from `0.0`. -/
def fsum (l : List F64) : F64 := l.foldl F64.add (F64.zero false)

/-- Number of blocks submitted when the calling thread is at a program point. -/
@[simp] def Pc.submitted (n : Nat) : Pc → Nat
  | .entry => 0
  | .create => 0
  | .aborted => 0
  | .setup_loop i => i
  | _ => n

/-- Number of handles torn down when the calling thread is at a program point. -/
@[simp] def Pc.torn (n : Nat) : Pc → Nat
  | .teardown_loop i => i
  | .returned => n
  | _ => 0

/-- The store `ready = true` of line 51 has been executed. -/
@[simp] def Pc.started : Pc → Bool
  | .wait => true
  | .read_t1 => true
  | .release => true
  | .teardown_loop _ => true
  | .returned => true
  | _ => false

/-- The wait of line 52 has returned. -/
@[simp] def Pc.joined : Pc → Bool
  | .read_t1 => true
  | .release => true
  | .teardown_loop _ => true
  | .returned => true
  | _ => false

/-- The high-priority queue exists and is suspended. -/
@[simp] def Pc.suspHigh : Pc → Bool
  | .setup_loop _ => true
  | .resume_highp => true
  | _ => false

/-- The low-priority queue exists and is suspended. -/
@[simp] def Pc.suspLow : Pc → Bool
  | .setup_loop _ => true
  | .resume_highp => true
  | .resume_lowp => true
  | _ => false

/-- The reading of line 50 has been taken. -/
@[simp] def Pc.hasT0 : Pc → Bool
  | .set_ready => true
  | pc => pc.started

/-- The reading of line 53 has been taken. -/
@[simp] def Pc.hasT1 : Pc → Bool
  | .release => true
  | .teardown_loop _ => true
  | .returned => true
  | _ => false

/-- The highest phase of an event the calling thread or a worker can have
logged when the calling thread is at a program point. -/
@[simp] def Pc.bound : Pc → Nat
  | .entry => 0
  | .create => 0
  | .aborted => 0
  | .setup_loop _ => 1
  | .resume_highp => 1
  | .resume_lowp => 2
  | .read_t0 => 2
  | .set_ready => 3
  | .wait => 5
  | .read_t1 => 5
  | .release => 6
  | .teardown_loop _ => 8
  | .returned => 8

/-- The block has called `bench`. -/
def Block.started : Block → Bool
  | .running _ => true
  | .returned _ => true
  | .finished => true
  | _ => false

/-- The call of `bench` made by the block has returned. -/
def Block.done : Block → Bool
  | .returned _ => true
  | .finished => true
  | _ => false

/-- The elapsed time computed at line 55 from the two readings. -/
def elapsedOf (t0 t1 : Nat) : F64 := F64.div (F64.ofNat (u64_sub t1 t0)) (F64.ofNat 1000000000)

/-- The operation count worker `j` obtains: `bench` applied to the handle its
`setup` returned. -/
def Call.ops (c : Call) (j : Nat) : F64 := c.bench.bench j (c.bench.setup c.params j)

/-- Every clock reading in the log is the value of the clock at the moment of
the reading, as a `uint64_t`. -/
def ClockOk (clock : Nat → Nat) (log : List Event) : Prop :=
  ∀ n t, (log[n]? = some (.read_t0 t) ∨ log[n]? = some (.read_t1 t)) → t = clock n % 2 ^ 64

/-- What the invariant says of the block of worker `j` when the calling thread
is at `pc`. -/
def Block.ok (c : Call) (pc : Pc) (j : Nat) : Block → Prop
  | .absent => pc.submitted c.n ≤ j
  | .queued h d =>
    j < pc.submitted c.n ∧ h = decide (j < c.n_threads_highp) ∧ d = c.bench.setup c.params j
  | .running d => j < c.n ∧ d = c.bench.setup c.params j ∧ pc = .wait
  | .returned ops => j < c.n ∧ ops = c.ops j ∧ pc = .wait
  | .finished => j < c.n ∧ pc.started = true

/-- The invariant of `run_benchmark`: it relates the program point of the
calling thread, the state of the blocks, the shared variables and the log. -/
structure Inv (c : Call) (s : State) : Prop where
  loop_le : ∀ i, s.pc = .setup_loop i → i ≤ c.n
  tear_le : ∀ i, s.pc = .teardown_loop i → i ≤ c.n
  aborted : s.pc = .aborted → c.n = 0
  pos : s.pc ≠ .entry → s.pc ≠ .aborted → 0 < c.n
  blocks : ∀ j, (s.block j).ok c s.pc j
  data : ∀ j, j < s.pc.submitted c.n → s.task_data j = c.bench.setup c.params j
  ready : s.ready = s.pc.started
  joined : s.pc.joined = true → ∀ j, j < c.n → s.block j = .finished
  susp_h : s.suspended_highp = s.pc.suspHigh
  susp_l : s.suspended_lowp = s.pc.suspLow
  nolog : s.pc.bound = 0 → s.log = []
  setups : setups s.log =
    (List.range (s.pc.submitted c.n)).map fun i => (i, c.params, c.bench.setup c.params i)
  submits : submits s.log =
    (List.range (s.pc.submitted c.n)).map fun i =>
      (i, decide (i < c.n_threads_highp), c.bench.setup c.params i)
  teardowns : teardowns s.log =
    (List.range (s.pc.torn c.n)).map fun i => c.bench.setup c.params i
  calls : ∀ j, calls j s.log = if (s.block j).started then [c.bench.setup c.params j] else []
  rets : ∀ j, rets j s.log = if (s.block j).done then [c.ops j] else []
  adds_mem : ∀ j ops, (j, ops) ∈ adds s.log ↔ (s.block j = .finished ∧ ops = c.ops j)
  adds_nodup : ((adds s.log).map Prod.fst).Nodup
  total : s.total_ops = fsum ((adds s.log).map Prod.snd)
  flag : readySets s.log = if s.ready then [()] else []
  clock0 : t0s s.log = if s.pc.hasT0 then [s.t0] else []
  clock1 : t1s s.log = if s.pc.hasT1 then [s.t1] else []
  sorted : s.log.Pairwise fun a b => a.phase ≤ b.phase
  bound : ∀ e, e ∈ s.log → e.phase ≤ s.pc.bound
  clocks : ClockOk c.clock s.log
  elapsed : s.pc.torn c.n ≠ 0 ∨ s.pc = .teardown_loop 0 → s.elapsed = elapsedOf s.t0 s.t1
  result : s.result =
    if s.pc = .returned then some { elapsed := elapsedOf s.t0 s.t1, total_ops := s.total_ops }
    else none

/-- Steps a block still has to take. -/
def Block.rem : Block → Nat
  | .absent => 3
  | .queued _ _ => 3
  | .running _ => 2
  | .returned _ => 1
  | .finished => 0

/-- Steps the blocks of the first `n` workers still have to take. -/
def pending (block : Nat → Block) : Nat → Nat
  | 0 => 0
  | n + 1 => pending block n + (block n).rem

/-- Steps the calling thread still has to take when it is never blocked. -/
def Pc.dist (n : Nat) : Pc → Nat
  | .entry => 2 * n + 11
  | .create => 2 * n + 10
  | .setup_loop i => (n - i) + n + 9
  | .resume_highp => n + 8
  | .resume_lowp => n + 7
  | .read_t0 => n + 6
  | .set_ready => n + 5
  | .wait => n + 4
  | .read_t1 => n + 3
  | .release => n + 2
  | .teardown_loop i => (n - i) + 1
  | .returned => 0
  | .aborted => 0

/-- Steps left in a state: a variant of the machine. -/
def State.measure (c : Call) (s : State) : Nat := s.pc.dist c.n + pending s.block c.n

/-- The call is over: it has returned, or the assertion has failed. -/
def State.final (s : State) : Prop := s.pc = .returned ∨ s.pc = .aborted


/-! ## Concrete benchmarks and schedules -/

/-- A `setup` failure as the engine could observe it: the type
`void* (*)(const void*)` of `setup` leaves a null handle as the only failure
signal. -/
def setup_failed (d : Handle) : Bool := d == 0

/-- The schedule that lets the calling thread run up to the wait, then each
worker of `order` run its block to completion in turn, then the calling thread
run to the return.  -/
def orderedSchedule (n : Nat) (order : List Nat) : List Thread :=
  List.replicate (n + 7) Thread.main ++
    order.flatMap (fun i => [Thread.worker i, Thread.worker i, Thread.worker i]) ++
    List.replicate (n + 4) Thread.main

/-- The schedule of `orderedSchedule` with the workers in index order. -/
def fairSchedule (n : Nat) : List Thread := orderedSchedule n (List.range n)

/-- The no-op benchmark of the concrete scenario: `setup` returns the null
handle, `bench` returns `1.0`. -/
def noop_bench : benchmark_t := ⟨fun _ _ => 0, fun _ _ => F64.ofNat 1⟩

/-- A benchmark whose `setup` returns a distinct non-null handle for every
worker and whose `bench` returns `1.0`. -/
def demo_bench : benchmark_t := ⟨fun _ i => i + 7, fun _ _ => F64.ofNat 1⟩

/-- A benchmark whose `setup` fails for worker `1` and succeeds for the others. -/
def failing_bench : benchmark_t :=
  ⟨fun _ i => if i = 1 then 0 else i + 7, fun _ _ => F64.ofNat 1⟩

/-- The `double` nearest to `0.1`. -/
def tenth : F64 := F64.fin false 7205759403792794 (-56)

/-- A benchmark whose `bench` returns `0.1` for every worker. -/
def tenth_bench : benchmark_t := ⟨fun _ i => i + 7, fun _ _ => tenth⟩

/-- A benchmark whose `bench` returns `2^53` for worker `0` and `1.0` for the
others. -/
def big_bench : benchmark_t :=
  ⟨fun _ i => i + 7, fun i _ => if i = 0 then F64.ofNat (2 ^ 53) else F64.ofNat 1⟩

/-- A clock that stands still. -/
def frozen_clock : Nat → Nat := fun _ => 0
/-! ## The invariant holds in every reachable state -/

@[simp] theorem setups_nil : setups [] = [] := rfl

@[simp] theorem setups_append (l l' : List Event) : setups (l ++ l') = setups l ++ setups l' := by
  simp [setups]

@[simp] theorem setups_cons (e : Event) (l : List Event) :
    setups (e :: l) = (match e with | .setup i p d => [(i, p, d)] | _ => []) ++ setups l := by
  cases e <;> simp [setups]

@[simp] theorem submits_nil : submits [] = [] := rfl

@[simp] theorem submits_append (l l' : List Event) : submits (l ++ l') = submits l ++ submits l' := by
  simp [submits]

@[simp] theorem submits_cons (e : Event) (l : List Event) :
    submits (e :: l) = (match e with | .submit i h d => [(i, h, d)] | _ => []) ++ submits l := by
  cases e <;> simp [submits]

@[simp] theorem teardowns_nil : teardowns [] = [] := rfl

@[simp] theorem teardowns_append (l l' : List Event) : teardowns (l ++ l') = teardowns l ++ teardowns l' := by
  simp [teardowns]

@[simp] theorem teardowns_cons (e : Event) (l : List Event) :
    teardowns (e :: l) = (match e with | .teardown d => [d] | _ => []) ++ teardowns l := by
  cases e <;> simp [teardowns]

@[simp] theorem readySets_nil : readySets [] = [] := rfl

@[simp] theorem readySets_append (l l' : List Event) : readySets (l ++ l') = readySets l ++ readySets l' := by
  simp [readySets]

@[simp] theorem readySets_cons (e : Event) (l : List Event) :
    readySets (e :: l) = (match e with | .ready_set => [()] | _ => []) ++ readySets l := by
  cases e <;> simp [readySets]

@[simp] theorem t0s_nil : t0s [] = [] := rfl

@[simp] theorem t0s_append (l l' : List Event) : t0s (l ++ l') = t0s l ++ t0s l' := by
  simp [t0s]

@[simp] theorem t0s_cons (e : Event) (l : List Event) :
    t0s (e :: l) = (match e with | .read_t0 t => [t] | _ => []) ++ t0s l := by
  cases e <;> simp [t0s]

@[simp] theorem t1s_nil : t1s [] = [] := rfl

@[simp] theorem t1s_append (l l' : List Event) : t1s (l ++ l') = t1s l ++ t1s l' := by
  simp [t1s]

@[simp] theorem t1s_cons (e : Event) (l : List Event) :
    t1s (e :: l) = (match e with | .read_t1 t => [t] | _ => []) ++ t1s l := by
  cases e <;> simp [t1s]

@[simp] theorem adds_nil : adds [] = [] := rfl

@[simp] theorem adds_append (l l' : List Event) : adds (l ++ l') = adds l ++ adds l' := by
  simp [adds]

@[simp] theorem adds_cons (e : Event) (l : List Event) :
    adds (e :: l) = (match e with | .add i ops => [(i, ops)] | _ => []) ++ adds l := by
  cases e <;> simp [adds]

@[simp] theorem calls_nil (j : Nat) : calls j [] = [] := rfl

@[simp] theorem calls_append (j : Nat) (l l' : List Event) : calls j (l ++ l') = calls j l ++ calls j l' := by
  simp [calls]

@[simp] theorem calls_cons (j : Nat) (e : Event) (l : List Event) :
    calls j (e :: l) = (match e with | .bench_call i d => if i = j then [d] else [] | _ => []) ++ calls j l := by
  cases e <;> simp [calls, List.filterMap_cons] <;> split <;> simp_all

@[simp] theorem rets_nil (j : Nat) : rets j [] = [] := rfl

@[simp] theorem rets_append (j : Nat) (l l' : List Event) : rets j (l ++ l') = rets j l ++ rets j l' := by
  simp [rets]

@[simp] theorem rets_cons (j : Nat) (e : Event) (l : List Event) :
    rets j (e :: l) = (match e with | .bench_ret i ops => if i = j then [ops] else [] | _ => []) ++ rets j l := by
  cases e <;> simp [rets, List.filterMap_cons] <;> split <;> simp_all

@[simp] theorem phase_queue_create (h : Bool) : (Event.queue_create h).phase = 0 := rfl

@[simp] theorem phase_queue_suspend (h : Bool) : (Event.queue_suspend h).phase = 0 := rfl

@[simp] theorem phase_group_create : (Event.group_create).phase = 0 := rfl

@[simp] theorem phase_setup (i : Nat) (p : Params) (d : Handle) : (Event.setup i p d).phase = 1 := rfl

@[simp] theorem phase_submit (i : Nat) (h : Bool) (d : Handle) : (Event.submit i h d).phase = 1 := rfl

@[simp] theorem phase_queue_resume (h : Bool) : (Event.queue_resume h).phase = 2 := rfl

@[simp] theorem phase_read_t0 (t : Nat) : (Event.read_t0 t).phase = 3 := rfl

@[simp] theorem phase_ready_set : (Event.ready_set).phase = 4 := rfl

@[simp] theorem phase_bench_call (i : Nat) (d : Handle) : (Event.bench_call i d).phase = 5 := rfl

@[simp] theorem phase_bench_ret (i : Nat) (o : F64) : (Event.bench_ret i o).phase = 5 := rfl

@[simp] theorem phase_add (i : Nat) (o : F64) : (Event.add i o).phase = 5 := rfl

@[simp] theorem phase_read_t1 (t : Nat) : (Event.read_t1 t).phase = 6 := rfl

@[simp] theorem phase_queue_release (h : Bool) : (Event.queue_release h).phase = 7 := rfl

@[simp] theorem phase_teardown (d : Handle) : (Event.teardown d).phase = 8 := rfl

@[simp] theorem started_absent : (Block.absent).started = false := rfl

@[simp] theorem done_absent : (Block.absent).done = false := rfl

@[simp] theorem started_queued (h : Bool) (d : Handle) : (Block.queued h d).started = false := rfl

@[simp] theorem done_queued (h : Bool) (d : Handle) : (Block.queued h d).done = false := rfl

@[simp] theorem started_running (d : Handle) : (Block.running d).started = true := rfl

@[simp] theorem done_running (d : Handle) : (Block.running d).done = false := rfl

@[simp] theorem started_returned (o : F64) : (Block.returned o).started = true := rfl

@[simp] theorem done_returned (o : F64) : (Block.returned o).done = true := rfl

@[simp] theorem started_finished : (Block.finished).started = true := rfl

@[simp] theorem done_finished : (Block.finished).done = true := rfl

@[simp] theorem ok_absent (c : Call) (pc : Pc) (j : Nat) :
    Block.absent.ok c pc j ↔ pc.submitted c.n ≤ j := Iff.rfl

@[simp] theorem ok_queued (c : Call) (pc : Pc) (j : Nat) (h : Bool) (d : Handle) :
    (Block.queued h d).ok c pc j ↔
      (j < pc.submitted c.n ∧ h = decide (j < c.n_threads_highp) ∧
        d = c.bench.setup c.params j) := Iff.rfl

@[simp] theorem ok_running (c : Call) (pc : Pc) (j : Nat) (d : Handle) :
    (Block.running d).ok c pc j ↔ (j < c.n ∧ d = c.bench.setup c.params j ∧ pc = .wait) :=
  Iff.rfl

@[simp] theorem ok_returned (c : Call) (pc : Pc) (j : Nat) (ops : F64) :
    (Block.returned ops).ok c pc j ↔ (j < c.n ∧ ops = c.ops j ∧ pc = .wait) := Iff.rfl

@[simp] theorem ok_finished (c : Call) (pc : Pc) (j : Nat) :
    Block.finished.ok c pc j ↔ (j < c.n ∧ pc.started = true) := Iff.rfl

theorem clocks_nil (clock : Nat → Nat) : ClockOk clock [] := by
  intro n t h; simp at h

theorem clocks_append_other (clock : Nat → Nat) (log new : List Event) (h : ClockOk clock log)
    (hnew : ∀ t, Event.read_t0 t ∉ new ∧ Event.read_t1 t ∉ new) : ClockOk clock (log ++ new) := by
  intro n t hn
  by_cases hlt : n < log.length
  · rw [List.getElem?_append_left hlt] at hn
    exact h n t hn
  · rw [List.getElem?_append_right (by omega)] at hn
    rcases hn with hn | hn
    · exact absurd (List.getElem?_mem hn) (hnew t).1
    · exact absurd (List.getElem?_mem hn) (hnew t).2

theorem clocks_append_t0 (clock : Nat → Nat) (log : List Event) (h : ClockOk clock log) :
    ClockOk clock (log ++ [Event.read_t0 (clock log.length % 2 ^ 64)]) := by
  intro n t hn
  by_cases hlt : n < log.length
  · rw [List.getElem?_append_left hlt] at hn
    exact h n t hn
  · rw [List.getElem?_append_right (by omega)] at hn
    have : n - log.length = 0 := by
      by_contra h0
      obtain ⟨k, hk⟩ := Nat.exists_eq_succ_of_ne_zero h0
      rw [hk] at hn; simp at hn
    rw [this] at hn
    have hn' : n = log.length := by omega
    subst hn'
    simp at hn
    exact hn.symm

theorem clocks_append_t1 (clock : Nat → Nat) (log : List Event) (h : ClockOk clock log) :
    ClockOk clock (log ++ [Event.read_t1 (clock log.length % 2 ^ 64)]) := by
  intro n t hn
  by_cases hlt : n < log.length
  · rw [List.getElem?_append_left hlt] at hn
    exact h n t hn
  · rw [List.getElem?_append_right (by omega)] at hn
    have : n - log.length = 0 := by
      by_contra h0
      obtain ⟨k, hk⟩ := Nat.exists_eq_succ_of_ne_zero h0
      rw [hk] at hn; simp at hn
    rw [this] at hn
    have hn' : n = log.length := by omega
    subst hn'
    simp at hn
    exact hn.symm

theorem inv_init (c : Call) : Inv c State.init := by
  constructor <;> simp [State.init, fsum, clocks_nil]


theorem inv_stepMain (c : Call) (s : State) (h : Inv c s) : Inv c (stepMain c s) := by
  obtain ⟨pc, total_ops, ready, task_data, sh, sl, block, t0, t1, elapsed, log, result⟩ := s
  obtain ⟨hloop, htear, habort, hpos, hblocks, hdata, hready, hjoined, hsh, hsl, hnolog, hsetups,
    hsubmits, hteardowns, hcalls, hrets, hamem, hanodup, htotal, hflag, hc0, hc1, hsorted, hbound,
    hclocks, helapsed, hresult⟩ := h
  cases pc
  case entry =>
    simp at *
    subst hnolog
    simp at *
    by_cases hn : 0 < c.n
    · simp only [stepMain, hn, if_true]
      constructor <;> simp [fsum] <;> (try assumption) <;> (try omega)
      all_goals first
      | (intro j; have := hblocks j; cases hb : block j <;> simp [hb] at this ⊢ <;>
          first | assumption | omega | exact ⟨by omega, this.2⟩)
      | (simp [List.pairwise_append, hsorted]; intro a ha; have := hbound a ha; omega)
      | (intro e he; rcases he with he | he | he <;>
          first | (have hx := hbound e he; omega) | (subst he; simp))
      | (intro e he; rcases he with he | he <;>
          first | (have hx := hbound e he; omega) | (subst he; simp))
      | (intro e he; have := hbound e he; omega)
      | (simp [hflag, hready]; done)
      | (apply clocks_append_other _ _ _ hclocks; simp; done)
      | exact clocks_append_t0 _ _ hclocks
      | exact clocks_append_t1 _ _ hclocks
      | (intro _; exact helapsed (by omega))
      | exact helapsed (by omega)
    · simp only [stepMain, hn, if_false]
      constructor <;> simp [fsum] <;> (try assumption) <;> (try omega)
      all_goals first
      | (intro j; have := hblocks j; cases hb : block j <;> simp [hb] at this ⊢ <;>
          first | assumption | omega | exact ⟨by omega, this.2⟩)
      | (simp [List.pairwise_append, hsorted]; intro a ha; have := hbound a ha; omega)
      | (intro e he; rcases he with he | he | he <;>
          first | (have hx := hbound e he; omega) | (subst he; simp))
      | (intro e he; rcases he with he | he <;>
          first | (have hx := hbound e he; omega) | (subst he; simp))
      | (intro e he; have := hbound e he; omega)
      | (simp [hflag, hready]; done)
      | (apply clocks_append_other _ _ _ hclocks; simp; done)
      | exact clocks_append_t0 _ _ hclocks
      | exact clocks_append_t1 _ _ hclocks
      | (intro _; exact helapsed (by omega))
      | exact helapsed (by omega)
  case create =>
    simp at *
    subst hnolog
    simp at *
    simp only [stepMain]
    constructor <;> simp [fsum] <;> (try assumption) <;> (try omega)
    all_goals first
      | (intro j; have := hblocks j; cases hb : block j <;> simp [hb] at this ⊢ <;>
          first | assumption | omega | exact ⟨by omega, this.2⟩)
      | (simp [List.pairwise_append, hsorted]; intro a ha; have := hbound a ha; omega)
      | (intro e he; rcases he with he | he | he <;>
          first | (have hx := hbound e he; omega) | (subst he; simp))
      | (intro e he; rcases he with he | he <;>
          first | (have hx := hbound e he; omega) | (subst he; simp))
      | (intro e he; have := hbound e he; omega)
      | (simp [hflag, hready]; done)
      | (apply clocks_append_other _ _ _ hclocks; simp; done)
      | exact clocks_append_t0 _ _ hclocks
      | exact clocks_append_t1 _ _ hclocks
      | (intro _; exact helapsed (by omega))
      | exact helapsed (by omega)
  case setup_loop i =>
    simp at *
    by_cases hn : i < c.n
    · simp only [stepMain, hn, if_true]
      have hbi : block i = .absent := by
        have := hblocks i; cases hb : block i <;> simp [hb] at this ⊢
      constructor <;> simp [fsum, List.range_succ] <;> (try assumption) <;> (try omega)
      · intro j; have := hblocks j
        by_cases hj : j = i
        · subst hj; simp [hn]
        · simp [hj]; cases hb : block j <;> simp [hb] at this ⊢ <;>
            first | assumption | omega | exact ⟨by omega, this.2⟩
      · intro j hj'
        by_cases hj : j = i
        · subst hj; simp
        · simp [hj]; exact hdata j (by omega)
      · intro j
        by_cases hj : j = i
        · subst hj; simpa [hbi] using hcalls j
        · simpa [hj] using hcalls j
      · intro j
        by_cases hj : j = i
        · subst hj; simpa [hbi] using hrets j
        · simpa [hj] using hrets j
      · intro j ops
        by_cases hj : j = i
        · subst hj; simpa [hbi] using hamem j ops
        · simpa [hj] using hamem j ops
      · simp [List.pairwise_append, hsorted]
        intro a ha; have := hbound a ha; omega
      · intro e he
        rcases he with he | he | he
        · exact hbound e he
        · subst he; simp
        · subst he; simp
      · exact clocks_append_other _ _ _ hclocks (by simp)
    · simp only [stepMain, hn, if_false]
      have : i = c.n := by omega
      subst this
      constructor <;> simp [fsum] <;> (try assumption) <;> (try omega)
      all_goals first
      | (intro j; have := hblocks j; cases hb : block j <;> simp [hb] at this ⊢ <;>
          first | assumption | omega | exact ⟨by omega, this.2⟩)
      | (simp [List.pairwise_append, hsorted]; intro a ha; have := hbound a ha; omega)
      | (intro e he; rcases he with he | he | he <;>
          first | (have hx := hbound e he; omega) | (subst he; simp))
      | (intro e he; rcases he with he | he <;>
          first | (have hx := hbound e he; omega) | (subst he; simp))
      | (intro e he; have := hbound e he; omega)
      | (simp [hflag, hready]; done)
      | (apply clocks_append_other _ _ _ hclocks; simp; done)
      | exact clocks_append_t0 _ _ hclocks
      | exact clocks_append_t1 _ _ hclocks
      | (intro _; exact helapsed (by omega))
      | exact helapsed (by omega)
  case wait =>
    simp at *
    by_cases hall : ∀ j, j < c.n → block j = .finished
    · simp only [stepMain]
      rw [if_pos hall]
      constructor <;> simp [fsum] <;> (try assumption) <;> (try omega)
      · intro j; have := hblocks j; have := hall j
        cases hb : block j <;> simp [hb] at * <;>
          first | assumption | omega | exact ⟨by omega, this.2⟩
    · simp only [stepMain]
      rw [if_neg hall]
      constructor <;> simp [fsum] <;> (try assumption) <;> (try omega)
  case teardown_loop i =>
    simp at *
    by_cases hn : i < c.n
    · simp only [stepMain, hn, if_true]
      constructor <;> simp [fsum, List.range_succ, hdata i hn] <;> (try assumption) <;> (try omega)
      all_goals first
      | (intro j; have := hblocks j; cases hb : block j <;> simp [hb] at this ⊢ <;>
          first | assumption | omega | exact ⟨by omega, this.2⟩)
      | (simp [List.pairwise_append, hsorted]; intro a ha; have := hbound a ha; omega)
      | (intro e he; rcases he with he | he | he <;>
          first | (have hx := hbound e he; omega) | (subst he; simp))
      | (intro e he; rcases he with he | he <;>
          first | (have hx := hbound e he; omega) | (subst he; simp))
      | (intro e he; have := hbound e he; omega)
      | (simp [hflag, hready]; done)
      | (apply clocks_append_other _ _ _ hclocks; simp; done)
      | exact clocks_append_t0 _ _ hclocks
      | exact clocks_append_t1 _ _ hclocks
      | (intro _; exact helapsed (by omega))
      | exact helapsed (by omega)
    · simp only [stepMain, hn, if_false]
      have : i = c.n := by omega
      subst this
      constructor <;> simp [fsum] <;> (try assumption) <;> (try omega)
      all_goals first
      | (intro j; have := hblocks j; cases hb : block j <;> simp [hb] at this ⊢ <;>
          first | assumption | omega | exact ⟨by omega, this.2⟩)
      | (simp [List.pairwise_append, hsorted]; intro a ha; have := hbound a ha; omega)
      | (intro e he; rcases he with he | he | he <;>
          first | (have hx := hbound e he; omega) | (subst he; simp))
      | (intro e he; rcases he with he | he <;>
          first | (have hx := hbound e he; omega) | (subst he; simp))
      | (intro e he; have := hbound e he; omega)
      | (simp [hflag, hready]; done)
      | (apply clocks_append_other _ _ _ hclocks; simp; done)
      | exact clocks_append_t0 _ _ hclocks
      | exact clocks_append_t1 _ _ hclocks
      | (intro _; exact helapsed (by omega))
      | exact helapsed (by omega)
  case resume_highp =>
    simp at *
    simp only [stepMain]
    constructor <;> simp [fsum, elapsedOf] <;> (try assumption) <;> (try omega)
    all_goals first
      | (intro j; have := hblocks j; cases hb : block j <;> simp [hb] at this ⊢ <;>
          first | assumption | omega | exact ⟨by omega, this.2⟩)
      | (simp [List.pairwise_append, hsorted]; intro a ha; have := hbound a ha; omega)
      | (intro e he; rcases he with he | he | he <;>
          first | (have hx := hbound e he; omega) | (subst he; simp))
      | (intro e he; rcases he with he | he <;>
          first | (have hx := hbound e he; omega) | (subst he; simp))
      | (intro e he; have := hbound e he; omega)
      | (simp [hflag, hready]; done)
      | (apply clocks_append_other _ _ _ hclocks; simp; done)
      | exact clocks_append_t0 _ _ hclocks
      | exact clocks_append_t1 _ _ hclocks
      | (intro _; exact helapsed (by omega))
      | exact helapsed (by omega)
  case resume_lowp =>
    simp at *
    simp only [stepMain]
    constructor <;> simp [fsum, elapsedOf] <;> (try assumption) <;> (try omega)
    all_goals first
      | (intro j; have := hblocks j; cases hb : block j <;> simp [hb] at this ⊢ <;>
          first | assumption | omega | exact ⟨by omega, this.2⟩)
      | (simp [List.pairwise_append, hsorted]; intro a ha; have := hbound a ha; omega)
      | (intro e he; rcases he with he | he | he <;>
          first | (have hx := hbound e he; omega) | (subst he; simp))
      | (intro e he; rcases he with he | he <;>
          first | (have hx := hbound e he; omega) | (subst he; simp))
      | (intro e he; have := hbound e he; omega)
      | (simp [hflag, hready]; done)
      | (apply clocks_append_other _ _ _ hclocks; simp; done)
      | exact clocks_append_t0 _ _ hclocks
      | exact clocks_append_t1 _ _ hclocks
      | (intro _; exact helapsed (by omega))
      | exact helapsed (by omega)
  case read_t0 =>
    simp at *
    simp only [stepMain]
    constructor <;> simp [fsum, elapsedOf] <;> (try assumption) <;> (try omega)
    all_goals first
      | (intro j; have := hblocks j; cases hb : block j <;> simp [hb] at this ⊢ <;>
          first | assumption | omega | exact ⟨by omega, this.2⟩)
      | (simp [List.pairwise_append, hsorted]; intro a ha; have := hbound a ha; omega)
      | (intro e he; rcases he with he | he | he <;>
          first | (have hx := hbound e he; omega) | (subst he; simp))
      | (intro e he; rcases he with he | he <;>
          first | (have hx := hbound e he; omega) | (subst he; simp))
      | (intro e he; have := hbound e he; omega)
      | (simp [hflag, hready]; done)
      | (apply clocks_append_other _ _ _ hclocks; simp; done)
      | exact clocks_append_t0 _ _ hclocks
      | exact clocks_append_t1 _ _ hclocks
      | (intro _; exact helapsed (by omega))
      | exact helapsed (by omega)
  case set_ready =>
    simp at *
    simp only [stepMain]
    constructor <;> simp [fsum, elapsedOf] <;> (try assumption) <;> (try omega)
    all_goals first
      | (intro j; have := hblocks j; cases hb : block j <;> simp [hb] at this ⊢ <;>
          first | assumption | omega | exact ⟨by omega, this.2⟩)
      | (simp [List.pairwise_append, hsorted]; intro a ha; have := hbound a ha; omega)
      | (intro e he; rcases he with he | he | he <;>
          first | (have hx := hbound e he; omega) | (subst he; simp))
      | (intro e he; rcases he with he | he <;>
          first | (have hx := hbound e he; omega) | (subst he; simp))
      | (intro e he; have := hbound e he; omega)
      | (simp [hflag, hready]; done)
      | (apply clocks_append_other _ _ _ hclocks; simp; done)
      | exact clocks_append_t0 _ _ hclocks
      | exact clocks_append_t1 _ _ hclocks
      | (intro _; exact helapsed (by omega))
      | exact helapsed (by omega)
  case read_t1 =>
    simp at *
    simp only [stepMain]
    constructor <;> simp [fsum, elapsedOf] <;> (try assumption) <;> (try omega)
    all_goals first
      | (intro j; have := hblocks j; cases hb : block j <;> simp [hb] at this ⊢ <;>
          first | assumption | omega | exact ⟨by omega, this.2⟩)
      | (simp [List.pairwise_append, hsorted]; intro a ha; have := hbound a ha; omega)
      | (intro e he; rcases he with he | he | he <;>
          first | (have hx := hbound e he; omega) | (subst he; simp))
      | (intro e he; rcases he with he | he <;>
          first | (have hx := hbound e he; omega) | (subst he; simp))
      | (intro e he; have := hbound e he; omega)
      | (simp [hflag, hready]; done)
      | (apply clocks_append_other _ _ _ hclocks; simp; done)
      | exact clocks_append_t0 _ _ hclocks
      | exact clocks_append_t1 _ _ hclocks
      | (intro _; exact helapsed (by omega))
      | exact helapsed (by omega)
  case release =>
    simp at *
    simp only [stepMain]
    constructor <;> simp [fsum, elapsedOf] <;> (try assumption) <;> (try omega)
    all_goals first
      | (intro j; have := hblocks j; cases hb : block j <;> simp [hb] at this ⊢ <;>
          first | assumption | omega | exact ⟨by omega, this.2⟩)
      | (simp [List.pairwise_append, hsorted]; intro a ha; have := hbound a ha; omega)
      | (intro e he; rcases he with he | he | he <;>
          first | (have hx := hbound e he; omega) | (subst he; simp))
      | (intro e he; rcases he with he | he <;>
          first | (have hx := hbound e he; omega) | (subst he; simp))
      | (intro e he; have := hbound e he; omega)
      | (simp [hflag, hready]; done)
      | (apply clocks_append_other _ _ _ hclocks; simp; done)
      | exact clocks_append_t0 _ _ hclocks
      | exact clocks_append_t1 _ _ hclocks
      | (intro _; exact helapsed (by omega))
      | exact helapsed (by omega)
  case returned =>
    simp at *
    simp only [stepMain]
    constructor <;> simp [fsum, elapsedOf] <;> (try assumption) <;> (try omega)
    all_goals first
      | (intro j; have := hblocks j; cases hb : block j <;> simp [hb] at this ⊢ <;>
          first | assumption | omega | exact ⟨by omega, this.2⟩)
      | (simp [List.pairwise_append, hsorted]; intro a ha; have := hbound a ha; omega)
      | (intro e he; rcases he with he | he | he <;>
          first | (have hx := hbound e he; omega) | (subst he; simp))
      | (intro e he; rcases he with he | he <;>
          first | (have hx := hbound e he; omega) | (subst he; simp))
      | (intro e he; have := hbound e he; omega)
      | (simp [hflag, hready]; done)
      | (apply clocks_append_other _ _ _ hclocks; simp; done)
      | exact clocks_append_t0 _ _ hclocks
      | exact clocks_append_t1 _ _ hclocks
      | (intro _; exact helapsed (by omega))
      | exact helapsed (by omega)
  case aborted =>
    simp at *
    simp only [stepMain]
    constructor <;> simp [fsum, elapsedOf] <;> (try assumption) <;> (try omega)
    all_goals first
      | (intro j; have := hblocks j; cases hb : block j <;> simp [hb] at this ⊢ <;>
          first | assumption | omega | exact ⟨by omega, this.2⟩)
      | (simp [List.pairwise_append, hsorted]; intro a ha; have := hbound a ha; omega)
      | (intro e he; rcases he with he | he | he <;>
          first | (have hx := hbound e he; omega) | (subst he; simp))
      | (intro e he; rcases he with he | he <;>
          first | (have hx := hbound e he; omega) | (subst he; simp))
      | (intro e he; have := hbound e he; omega)
      | (simp [hflag, hready]; done)
      | (apply clocks_append_other _ _ _ hclocks; simp; done)
      | exact clocks_append_t0 _ _ hclocks
      | exact clocks_append_t1 _ _ hclocks
      | (intro _; exact helapsed (by omega))
      | exact helapsed (by omega)

theorem wait_of_started_not_joined (pc : Pc) (h1 : pc.started = true) (h2 : pc.joined = false) :
    pc = .wait := by
  cases pc <;> simp_all

theorem inv_stepWorker (c : Call) (i : Nat) (s : State) (h : Inv c s) :
    Inv c (stepWorker c i s) := by
  cases hb : s.block i
  case absent => simpa [stepWorker, hb] using h
  case finished => simpa [stepWorker, hb] using h
  case queued high data =>
    by_cases hgo : (if high then s.suspended_highp else s.suspended_lowp) = false ∧ s.ready = true
    swap
    · have : stepWorker c i s = s := by
        simp only [stepWorker, hb]
        by_cases h1 : (if high then s.suspended_highp else s.suspended_lowp) = true
        · simp [h1]
        · simp only [h1]; simp at h1 hgo; simp [hgo h1]
      rw [this]; exact h
    · have hi := h.blocks i
      rw [hb] at hi
      simp only [ok_queued] at hi
      have hst : s.pc.started = true := by rw [← h.ready]; exact hgo.2
      have hnj : s.pc.joined = false := by
        by_contra hj
        simp only [Bool.not_eq_false] at hj
        have hN : s.pc.submitted c.n = c.n := by
          revert hst; cases s.pc <;> simp
        have := h.joined hj i (by rw [hN] at hi; omega)
        rw [hb] at this; cases this
      have hpc := wait_of_started_not_joined _ hst hnj
      obtain ⟨pc, total_ops, ready, task_data, sh, sl, block, t0, t1, elapsed, log, result⟩ := s
      obtain ⟨hloop, htear, habort, hpos, hblocks, hdata, hready, hjoined, hsh, hsl, hnolog,
        hsetups, hsubmits, hteardowns, hcalls, hrets, hamem, hanodup, htotal, hflag, hc0, hc1,
        hsorted, hbound, hclocks, helapsed, hresult⟩ := h
      simp only at hpc hb hgo
      subst hpc
      simp at *
      have hstep : stepWorker c i ⟨.wait, total_ops, true, task_data, false, false, block, t0, t1,
          elapsed, log, result⟩ = ⟨.wait, total_ops, true, task_data, false, false,
          (fun j => if j = i then .running data else block j), t0, t1, elapsed,
          log ++ [.bench_call i data], result⟩ := by
        simp [stepWorker, hb]
      subst hready hsh hsl
      rw [hstep]
      constructor <;> simp [fsum] <;> (try assumption) <;> (try omega)
      · intro j; have := hblocks j
        by_cases hj : j = i
        · subst hj; simp [hi]
        · simp [hj]; exact this
      · intro j
        by_cases hj : j = i
        · subst hj; simpa [hb, hi] using hcalls j
        · have := hcalls j; simp [hj]; rw [this]; simp; intro h; exact absurd h.symm hj
      · intro j
        by_cases hj : j = i
        · subst hj; simpa [hb] using hrets j
        · simpa [hj] using hrets j
      · intro j ops
        by_cases hj : j = i
        · subst hj; simpa [hb] using hamem j ops
        · simpa [hj] using hamem j ops
      · simp [List.pairwise_append, hsorted]
        intro a ha; have := hbound a ha; omega
      · intro e he
        rcases he with he | he
        · exact hbound e he
        · subst he; simp
      · exact clocks_append_other _ _ _ hclocks (by simp)
  case running data =>
    have hi := h.blocks i
    rw [hb] at hi
    simp only [ok_running] at hi
    obtain ⟨hiN, hdat, hpc⟩ := hi
    obtain ⟨pc, total_ops, ready, task_data, sh, sl, block, t0, t1, elapsed, log, result⟩ := s
    obtain ⟨hloop, htear, habort, hpos, hblocks, hdata, hready, hjoined, hsh, hsl, hnolog,
      hsetups, hsubmits, hteardowns, hcalls, hrets, hamem, hanodup, htotal, hflag, hc0, hc1,
      hsorted, hbound, hclocks, helapsed, hresult⟩ := h
    simp only at hpc hb
    subst hpc
    simp at *
    have hstep : stepWorker c i ⟨.wait, total_ops, ready, task_data, sh, sl, block, t0, t1,
        elapsed, log, result⟩ = ⟨.wait, total_ops, ready, task_data, sh, sl,
        (fun j => if j = i then .returned (c.bench.bench i data) else block j), t0, t1, elapsed,
        log ++ [.bench_ret i (c.bench.bench i data)], result⟩ := by
      simp [stepWorker, hb]
    rw [hstep]
    constructor <;> simp [fsum] <;> (try assumption) <;> (try omega)
    · intro j; have := hblocks j
      by_cases hj : j = i
      · subst hj; simp [hiN, hdat, Call.ops]
      · simp [hj]; exact this
    · intro j
      by_cases hj : j = i
      · subst hj; simpa [hb] using hcalls j
      · simpa [hj] using hcalls j
    · intro j
      by_cases hj : j = i
      · subst hj; simpa [hb, hdat, Call.ops] using hrets j
      · have := hrets j; simp [hj]; rw [this]; simp; intro h; exact absurd h.symm hj
    · intro j ops
      by_cases hj : j = i
      · subst hj; simpa [hb] using hamem j ops
      · simpa [hj] using hamem j ops
    · simp [List.pairwise_append, hsorted]
      intro a ha; have := hbound a ha; omega
    · intro e he
      rcases he with he | he
      · exact hbound e he
      · subst he; simp
    · exact clocks_append_other _ _ _ hclocks (by simp)
  case returned ops =>
    have hi := h.blocks i
    rw [hb] at hi
    simp only [ok_returned] at hi
    obtain ⟨hiN, hops, hpc⟩ := hi
    obtain ⟨pc, total_ops, ready, task_data, sh, sl, block, t0, t1, elapsed, log, result⟩ := s
    obtain ⟨hloop, htear, habort, hpos, hblocks, hdata, hready, hjoined, hsh, hsl, hnolog,
      hsetups, hsubmits, hteardowns, hcalls, hrets, hamem, hanodup, htotal, hflag, hc0, hc1,
      hsorted, hbound, hclocks, helapsed, hresult⟩ := h
    simp only at hpc hb
    subst hpc
    simp at *
    have hstep : stepWorker c i ⟨.wait, total_ops, ready, task_data, sh, sl, block, t0, t1,
        elapsed, log, result⟩ = ⟨.wait, F64.add total_ops ops, ready, task_data, sh, sl,
        (fun j => if j = i then .finished else block j), t0, t1, elapsed,
        log ++ [.add i ops], result⟩ := by
      simp [stepWorker, hb]
    rw [hstep]
    constructor <;> simp [fsum] <;> (try assumption) <;> (try omega)
    · intro j; have := hblocks j
      by_cases hj : j = i
      · subst hj; simp [hiN]
      · simp [hj]; exact this
    · intro j
      by_cases hj : j = i
      · subst hj; simpa [hb] using hcalls j
      · simpa [hj] using hcalls j
    · intro j
      by_cases hj : j = i
      · subst hj; simpa [hb] using hrets j
      · simpa [hj] using hrets j
    · intro j ops'
      by_cases hj : j = i
      · subst hj; have := hamem j ops'; simp [hb] at this; simp [this, hops]
      · have := hamem j ops'; simp [hj, this]
    · simp [List.nodup_append, hanodup]
      intro x hx; have := (hamem i x).1 hx; simp [hb] at this
    · simp [htotal, fsum, List.foldl_append]
    · simp [List.pairwise_append, hsorted]
      intro a ha; have := hbound a ha; omega
    · intro e he
      rcases he with he | he
      · exact hbound e he
      · subst he; simp
    · exact clocks_append_other _ _ _ hclocks (by simp)

theorem inv_step (c : Call) (s : State) (t : Thread) (h : Inv c s) : Inv c (step c s t) := by
  cases t
  · exact inv_stepMain c s h
  · exact inv_stepWorker c _ s h

theorem inv_exec (c : Call) (sched : List Thread) :
    ∀ s, Inv c s → Inv c (exec c sched s) := by
  induction sched with
  | nil => intro s h; exact h
  | cons t ts ih => intro s h; exact ih _ (inv_step c s t h)

theorem inv_run (bench : benchmark_t) (params : Params) (nh nl : Nat) (clock : Nat → Nat)
    (sched : List Thread) :
    Inv ⟨bench, params, nh, nl, clock⟩ (run_benchmark bench params nh nl clock sched) :=
  inv_exec _ sched _ (inv_init _)

theorem exec_append (c : Call) (a b : List Thread) (s : State) :
    exec c (a ++ b) s = exec c b (exec c a s) := by
  simp [exec, List.foldl_append]

theorem pending_congr (b b' : Nat → Block) (n : Nat) (h : ∀ j, j < n → (b' j).rem = (b j).rem) :
    pending b' n = pending b n := by
  induction n with
  | zero => rfl
  | succ n ih =>
    simp only [pending]
    rw [ih (fun j hj => h j (by omega)), h n (by omega)]

theorem pending_update_lt (b : Nat → Block) (n i : Nat) (x : Block) (hi : i < n)
    (hx : x.rem < (b i).rem) :
    pending (fun j => if j = i then x else b j) n < pending b n := by
  induction n with
  | zero => omega
  | succ n ih =>
    simp only [pending]
    by_cases h : i = n
    · subst h
      have := pending_congr b (fun j => if j = i then x else b j) i (by
        intro j hj; have : j ≠ i := by omega
        simp [this])
      simp [this]; exact hx
    · have := ih (by omega)
      have hn : ¬ n = i := fun h' => h h'.symm
      simp [hn]; omega

theorem progress (c : Call) (s : State) (h : Inv c s) (hf : ¬ s.final) :
    ∃ t, (step c s t).measure c < s.measure c := by
  by_cases hw : s.pc = .wait ∧ ¬ ∀ j, j < c.n → s.block j = .finished
  · obtain ⟨hpc, hnot⟩ := hw
    push_neg at hnot
    obtain ⟨j, hj, hjb⟩ := hnot
    refine ⟨.worker j, ?_⟩
    have hb := h.blocks j
    have hsh := h.susp_h
    have hsl := h.susp_l
    have hr := h.ready
    rw [hpc] at hb hsh hsl hr
    simp at hsh hsl hr
    cases hbj : s.block j with
    | finished => exact absurd hbj hjb
    | absent => rw [hbj] at hb; simp at hb; omega
    | queued hi d =>
      have : step c s (.worker j) = { s with
          block := fun k => if k = j then .running d else s.block k
          log := s.log ++ [.bench_call j d] } := by
        simp [step, stepWorker, hbj, hsh, hsl, hr]
      rw [this]
      simp only [State.measure]
      have := pending_update_lt s.block c.n j (.running d) hj (by simp [hbj, Block.rem])
      omega
    | running d =>
      have : step c s (.worker j) = { s with
          block := fun k => if k = j then .returned (c.bench.bench j d) else s.block k
          log := s.log ++ [.bench_ret j (c.bench.bench j d)] } := by
        simp [step, stepWorker, hbj]
      rw [this]
      simp only [State.measure]
      have := pending_update_lt s.block c.n j (.returned (c.bench.bench j d)) hj
        (by simp [hbj, Block.rem])
      omega
    | returned ops =>
      have : step c s (.worker j) = { s with
          total_ops := F64.add s.total_ops ops
          block := fun k => if k = j then .finished else s.block k
          log := s.log ++ [.add j ops] } := by
        simp [step, stepWorker, hbj]
      rw [this]
      simp only [State.measure]
      have := pending_update_lt s.block c.n j .finished hj (by simp [hbj, Block.rem])
      omega
  · refine ⟨.main, ?_⟩
    have hloop := h.loop_le
    have htear := h.tear_le
    have hblocks := h.blocks
    obtain ⟨pc, total_ops, ready, task_data, sh, sl, block, t0, t1, elapsed, log, result⟩ := s
    simp only [State.final] at hf
    simp only at hw hloop htear hblocks
    cases pc with
    | wait =>
      simp at hw
      simp only [step, stepMain, State.measure]
      rw [if_pos hw]
      simp [Pc.dist]
    | returned => simp at hf
    | aborted => simp at hf
    | entry =>
      by_cases hn : 0 < c.n <;> simp [step, stepMain, State.measure, Pc.dist, hn]
    | setup_loop i =>
      by_cases hn : i < c.n
      · have hbi : block i = .absent := by
          have := hblocks i; cases hb : block i <;> simp [hb] at this ⊢ <;> omega
        have := pending_congr block (fun j => if j = i then
          Block.queued (decide (i < c.n_threads_highp)) (c.bench.setup c.params i) else block j) c.n (by
            intro j hj
            by_cases hji : j = i
            · subst hji; simp [hbi, Block.rem]
            · simp [hji])
        simp [step, stepMain, State.measure, Pc.dist, hn, this]
        omega
      · simp [step, stepMain, State.measure, Pc.dist, hn]
        have := hloop i rfl
        omega
    | teardown_loop i =>
      by_cases hn : i < c.n
      · simp [step, stepMain, State.measure, Pc.dist, hn]
        omega
      · simp [step, stepMain, State.measure, Pc.dist, hn]
    | _ => simp [step, stepMain, State.measure, Pc.dist] <;> omega

theorem terminates (c : Call) : ∀ (k : Nat) (s : State), s.measure c ≤ k → Inv c s →
    ∃ sched, (exec c sched s).final := by
  intro k
  induction k with
  | zero =>
    intro s hk h
    by_cases hf : s.final
    · exact ⟨[], hf⟩
    · obtain ⟨t, ht⟩ := progress c s h hf
      omega
  | succ k ih =>
    intro s hk h
    by_cases hf : s.final
    · exact ⟨[], hf⟩
    · obtain ⟨t, ht⟩ := progress c s h hf
      obtain ⟨sched, hs⟩ := ih (step c s t) (by omega) (inv_step c s t h)
      exact ⟨t :: sched, hs⟩

/-- From every reachable state of a call with at least one worker, some
continuation of the schedule makes `run_benchmark` return. -/
theorem can_return (c : Call) (hn : 0 < c.n) (s : State) (h : Inv c s) :
    ∃ sched, (exec c sched s).pc = .returned := by
  obtain ⟨sched, hs⟩ := terminates c _ s (Nat.le_refl _) h
  refine ⟨sched, ?_⟩
  rcases hs with hs | hs
  · exact hs
  · have := (inv_exec c sched s h).aborted hs
    omega

theorem mem_setups (log : List Event) (i : Nat) (p : Params) (d : Handle) :
    (i, p, d) ∈ setups log ↔ Event.setup i p d ∈ log := by
  induction log with
  | nil => simp
  | cons e l ih => cases e <;> simp [ih] <;> tauto

theorem mem_submits (log : List Event) (i : Nat) (h : Bool) (d : Handle) :
    (i, h, d) ∈ submits log ↔ Event.submit i h d ∈ log := by
  induction log with
  | nil => simp
  | cons e l ih => cases e <;> simp [ih] <;> tauto

theorem mem_teardowns (log : List Event) (d : Handle) :
    d ∈ teardowns log ↔ Event.teardown d ∈ log := by
  induction log with
  | nil => simp
  | cons e l ih => cases e <;> simp [ih]

theorem mem_calls (log : List Event) (j : Nat) (d : Handle) :
    d ∈ calls j log ↔ Event.bench_call j d ∈ log := by
  induction log with
  | nil => simp
  | cons e l ih =>
    cases e <;> simp [ih]
    case bench_call i d' =>
      by_cases h : i = j
      · subst h; simp
      · simp [h]; intro h'; exact absurd h'.symm h

theorem mem_rets (log : List Event) (j : Nat) (ops : F64) :
    ops ∈ rets j log ↔ Event.bench_ret j ops ∈ log := by
  induction log with
  | nil => simp
  | cons e l ih =>
    cases e <;> simp [ih]
    case bench_ret i d' =>
      by_cases h : i = j
      · subst h; simp
      · simp [h]; intro h'; exact absurd h'.symm h

theorem mem_readySets (log : List Event) : () ∈ readySets log ↔ Event.ready_set ∈ log := by
  induction log with
  | nil => simp
  | cons e l ih => cases e <;> simp [ih]

theorem mem_t0s (log : List Event) (t : Nat) : t ∈ t0s log ↔ Event.read_t0 t ∈ log := by
  induction log with
  | nil => simp
  | cons e l ih => cases e <;> simp [ih]

theorem mem_t1s (log : List Event) (t : Nat) : t ∈ t1s log ↔ Event.read_t1 t ∈ log := by
  induction log with
  | nil => simp
  | cons e l ih => cases e <;> simp [ih]

theorem sorted_before (hist rest : List Event) (e x : Event)
    (hs : (hist ++ e :: rest).Pairwise fun a b => a.phase ≤ b.phase)
    (hx : x ∈ hist ++ e :: rest) (hlt : x.phase < e.phase) : x ∈ hist := by
  rw [List.pairwise_append] at hs
  obtain ⟨_, h2, _⟩ := hs
  rw [List.pairwise_cons] at h2
  simp only [List.mem_append, List.mem_cons] at hx
  rcases hx with hx | hx | hx
  · exact hx
  · subst hx; omega
  · have := h2.1 x hx; omega

theorem sorted_after (hist rest : List Event) (e x : Event)
    (hs : (hist ++ e :: rest).Pairwise fun a b => a.phase ≤ b.phase)
    (hx : x ∈ hist ++ e :: rest) (hlt : e.phase < x.phase) : x ∈ rest := by
  rw [List.pairwise_append] at hs
  obtain ⟨_, _, h3⟩ := hs
  simp only [List.mem_append, List.mem_cons] at hx
  rcases hx with hx | hx | hx
  · have := h3 x hx e (by simp); omega
  · subst hx; omega
  · exact hx

/-- In a reachable state whose log holds a `ready_set`, every setup has been logged. -/
theorem setups_of_ready (c : Call) (s : State) (h : Inv c s) (hr : Event.ready_set ∈ s.log)
    (i : Nat) (hi : i < c.n) : Event.setup i c.params (c.bench.setup c.params i) ∈ s.log := by
  have hf := h.flag
  have hready : s.ready = true := by
    by_contra hne
    simp only [Bool.not_eq_true] at hne
    rw [hne] at hf
    have := (mem_readySets s.log).2 hr
    rw [hf] at this; simp at this
  have hst : s.pc.started = true := by rw [← h.ready]; exact hready
  have hN : s.pc.submitted c.n = c.n := by
    revert hst; cases s.pc <;> simp
  have := h.setups
  rw [hN] at this
  rw [← mem_setups, this]
  simp only [List.mem_map, List.mem_range]
  exact ⟨i, hi, rfl⟩

theorem ready_of_call (c : Call) (s : State) (h : Inv c s) (i : Nat) (d : Handle)
    (hc : Event.bench_call i d ∈ s.log) : Event.ready_set ∈ s.log := by
  have h1 := h.calls i
  have h2 := (mem_calls s.log i d).2 hc
  have hst : (s.block i).started = true := by
    by_contra hne
    simp only [Bool.not_eq_true] at hne
    rw [hne] at h1; simp at h1
    rw [h1] at h2; simp at h2
  have hb := h.blocks i
  have hps : s.pc.started = true := by
    cases hbi : s.block i <;> rw [hbi] at hb hst <;> simp at hb hst
    · rw [hb.2.2]; rfl
    · rw [hb.2.2]; rfl
    · exact hb.2
  have hf := h.flag
  rw [h.ready, hps] at hf
  rw [← mem_readySets, hf]; simp

theorem rets_of_teardown (c : Call) (s : State) (h : Inv c s) (d : Handle)
    (ht : Event.teardown d ∈ s.log) (i : Nat) (hi : i < c.n) :
    Event.bench_ret i (c.ops i) ∈ s.log := by
  have h1 := h.teardowns
  have h2 := (mem_teardowns s.log d).2 ht
  have hj : s.pc.joined = true := by
    rw [h1] at h2
    revert h2; cases s.pc <;> simp
  have hb := h.joined hj i hi
  have hr := h.rets i
  rw [hb] at hr
  simp at hr
  rw [← mem_rets, hr]; simp


theorem stepWorker_pc (c : Call) (i : Nat) (s : State) : (stepWorker c i s).pc = s.pc := by
  unfold stepWorker
  repeat' split
  all_goals rfl

theorem exec_aborted (c : Call) (sched : List Thread) :
    ∀ s, s.pc = .aborted → (exec c sched s).pc = .aborted := by
  induction sched with
  | nil => intro s h; exact h
  | cons t ts ih =>
    intro s h
    show (exec c ts (step c s t)).pc = .aborted
    apply ih
    cases t
    · obtain ⟨pc, total_ops, ready, task_data, sh, sl, block, t0, t1, elapsed, log, result⟩ := s
      simp only at h
      subst h
      simp [step, stepMain]
    · simp [step, stepWorker_pc, h]

theorem exec_entry (c : Call) (sched : List Thread) :
    ∀ s, s.pc = .entry → Thread.main ∉ sched → (exec c sched s).pc = .entry := by
  induction sched with
  | nil => intro s h _; exact h
  | cons t ts ih =>
    intro s h hm
    simp only [List.mem_cons, not_or] at hm
    show (exec c ts (step c s t)).pc = .entry
    apply ih _ _ hm.2
    cases t
    · exact absurd rfl hm.1
    · simp [step, stepWorker_pc, h]

theorem exec_entry_zero (c : Call) (hn : c.n = 0) (sched : List Thread) :
    ∀ s, s.pc = .entry → Thread.main ∈ sched → (exec c sched s).pc = .aborted := by
  induction sched with
  | nil => intro s _ hm; simp at hm
  | cons t ts ih =>
    intro s h hm
    cases t
    · show (exec c ts (step c s .main)).pc = .aborted
      apply exec_aborted
      obtain ⟨pc, total_ops, ready, task_data, sh, sl, block, t0, t1, elapsed, log, result⟩ := s
      simp only at h
      subst h
      simp [step, stepMain, hn]
    · simp only [List.mem_cons] at hm
      rcases hm with hm | hm
      · cases hm
      · show (exec c ts (step c s (.worker _))).pc = .aborted
        apply ih _ _ hm
        simp [step, stepWorker_pc, h]

theorem pc_of_zero (c : Call) (hn : c.n = 0) (s : State) (h : Inv c s) :
    s.pc = .entry ∨ s.pc = .aborted := by
  by_contra hne
  simp only [not_or] at hne
  have := h.pos hne.1 hne.2
  omega

/-- What the log holds when `run_benchmark` has returned. -/
theorem at_return (c : Call) (s : State) (h : Inv c s) (hpc : s.pc = .returned) :
    setups s.log = (List.range c.n).map (fun i => (i, c.params, c.bench.setup c.params i)) ∧
    submits s.log = (List.range c.n).map
      (fun i => (i, decide (i < c.n_threads_highp), c.bench.setup c.params i)) ∧
    teardowns s.log = (List.range c.n).map (fun i => c.bench.setup c.params i) ∧
    (∀ j, calls j s.log = if j < c.n then [c.bench.setup c.params j] else []) ∧
    (∀ j, rets j s.log = if j < c.n then [c.ops j] else []) ∧
    readySets s.log = [()] ∧ t0s s.log = [s.t0] ∧ t1s s.log = [s.t1] ∧
    s.result = some { elapsed := elapsedOf s.t0 s.t1, total_ops := s.total_ops } := by
  have h1 := h.setups
  have h2 := h.submits
  have h3 := h.teardowns
  have h4 := h.calls
  have h5 := h.rets
  have h6 := h.flag
  have h7 := h.clock0
  have h8 := h.clock1
  have h9 := h.result
  have h10 := h.ready
  have hj := h.joined
  have hb := h.blocks
  rw [hpc] at h1 h2 h3 h7 h8 h10 hj hb
  simp only [hpc] at h9
  simp at h1 h2 h3 h7 h8 h9 h10 hj
  rw [h10] at h6
  refine ⟨h1, h2, h3, ?_, ?_, by simpa using h6, h7, h8, h9⟩
  · intro j
    by_cases hjn : j < c.n
    · rw [h4 j, hj j hjn]; simp [hjn]
    · rw [h4 j]
      have := hb j
      cases hbj : s.block j <;> rw [hbj] at this <;> simp at this <;> simp [hjn] <;> omega
  · intro j
    by_cases hjn : j < c.n
    · rw [h5 j, hj j hjn]; simp [hjn]
    · rw [h5 j]
      have := hb j
      cases hbj : s.block j <;> rw [hbj] at this <;> simp at this <;> simp [hjn] <;> omega


theorem mem_callPairs (log : List Event) (j : Nat) (d : Handle) :
    (j, d) ∈ callPairs log ↔ d ∈ calls j log := by
  induction log with
  | nil => simp [callPairs]
  | cons e l ih =>
    simp only [callPairs] at ih ⊢
    cases e <;> simp [List.filterMap_cons, ih]
    case bench_call i d' =>
      by_cases h : i = j
      · subst h; simp
      · simp [h]
        intro h'; exact absurd h'.symm h

theorem nodup_callPairs (log : List Event) (h : ∀ j, (calls j log).length ≤ 1) :
    (callPairs log).Nodup := by
  induction log with
  | nil => simp [callPairs]
  | cons e l ih =>
    have hl : ∀ j, (calls j l).length ≤ 1 := by
      intro j
      have := h j
      simp only [calls_cons, List.length_append] at this
      omega
    have hcons : callPairs (e :: l) =
        (match e with | .bench_call i d => [(i, d)] | _ => []) ++ callPairs l := by
      cases e <;> simp [callPairs]
    rw [hcons]
    cases e <;> simp [ih hl]
    case bench_call i d =>
      intro hmem
      rw [mem_callPairs] at hmem
      have := h i
      simp only [calls_cons, List.length_append, if_true, List.length_singleton] at this
      have hpos : 0 < (calls i l).length := List.length_pos_of_mem hmem
      omega

theorem callPairs_at_return (c : Call) (s : State) (h : Inv c s) (hpc : s.pc = .returned) :
    (callPairs s.log).Perm ((List.range c.n).map fun i => (i, c.bench.setup c.params i)) := by
  have hcalls := (at_return c s h hpc).2.2.2.1
  have hinj : Function.Injective (fun i => (i, c.bench.setup c.params i)) := by
    intro a b hab; exact congrArg Prod.fst hab
  rw [List.perm_ext_iff_of_nodup]
  · rintro ⟨j, d⟩
    rw [mem_callPairs, hcalls j]
    simp only [List.mem_map, List.mem_range, Prod.mk.injEq]
    constructor
    · intro hm
      by_cases hj : j < c.n
      · simp only [hj, if_true, List.mem_singleton] at hm
        exact ⟨j, hj, rfl, hm.symm⟩
      · simp [hj] at hm
    · rintro ⟨x, hx, rfl, rfl⟩
      simp [hx]
  · apply nodup_callPairs
    intro j
    rw [hcalls j]
    split <;> simp
  · exact (List.nodup_range _).map hinj


theorem run_can_return (bench : benchmark_t) (params : Params) (nh nl : Nat) (clock : Nat → Nat)
    (hn : 0 < size_add nh nl) (sched : List Thread) :
    ∃ ext, (run_benchmark bench params nh nl clock (sched ++ ext)).pc = .returned := by
  have h := inv_run bench params nh nl clock sched
  obtain ⟨ext, hext⟩ := can_return ⟨bench, params, nh, nl, clock⟩ hn _ h
  refine ⟨ext, ?_⟩
  unfold run_benchmark at *
  rw [exec_append]
  exact hext


theorem countP_lt_range (a b : Nat) :
    (List.range b).countP (fun i => decide (i < a)) = min a b := by
  induction b with
  | zero => simp
  | succ b ih =>
    rw [List.range_succ, List.countP_append, ih]
    by_cases h : b < a
    · simp [List.countP_cons, h]; omega
    · simp [List.countP_cons, h]; omega

theorem countP_ge_range (a b : Nat) :
    (List.range b).countP (fun i => !decide (i < a)) = b - a := by
  induction b with
  | zero => simp
  | succ b ih =>
    rw [List.range_succ, List.countP_append, ih]
    by_cases h : b < a
    · simp [List.countP_cons, h]; omega
    · simp [List.countP_cons, h]; omega


theorem get_append_cons_length (a : List Event) (x : Event) (r : List Event) :
    (a ++ x :: r)[a.length]? = some x := by
  rw [List.getElem?_append_right (Nat.le_refl _), Nat.sub_self]
  exact List.getElem?_cons_zero


/-! ## Exact sums of integer-valued doubles -/

theorem log2Aux_eq (fuel : Nat) : ∀ n, n ≤ fuel → log2Aux fuel n = Nat.log2 n := by
  induction fuel with
  | zero =>
    intro n hn
    have : n = 0 := by omega
    subst this
    simp [log2Aux]
  | succ f ih =>
    intro n hn
    rw [log2Aux, Nat.log2]
    by_cases h2 : n < 2
    · have : ¬ n ≥ 2 := by omega
      simp [h2, this]
    · have : n ≥ 2 := by omega
      simp only [h2, if_false, this, if_true]
      rw [ih (n / 2) (by omega)]

theorem ilog2_eq (n : Nat) : ilog2 n = Nat.log2 n := log2Aux_eq n n (Nat.le_refl n)

theorem ilog2_spec (n L : Nat) (h1 : 2 ^ L ≤ n) (h2 : n < 2 ^ (L + 1)) : ilog2 n = L := by
  have hn : n ≠ 0 := by
    intro h; subst h; simp at h1
  rw [ilog2_eq]
  have a := (Nat.le_log2 hn (k := L)).2 h1
  have b := (Nat.log2_lt hn (k := L + 1)).2 h2
  omega

theorem ilog2_bounds (n : Nat) (hn : 0 < n) : 2 ^ ilog2 n ≤ n ∧ n < 2 ^ (ilog2 n + 1) := by
  rw [ilog2_eq]
  exact ⟨Nat.log2_self_le (by omega), Nat.lt_log2_self⟩

theorem ilog2_mul_pow (n k : Nat) (hn : 0 < n) : ilog2 (n * 2 ^ k) = ilog2 n + k := by
  obtain ⟨h1, h2⟩ := ilog2_bounds n hn
  apply ilog2_spec
  · rw [pow_add]; exact Nat.mul_le_mul_right _ h1
  · have : 2 ^ (ilog2 n + k + 1) = 2 ^ (ilog2 n + 1) * 2 ^ k := by ring
    rw [this]
    exact Nat.mul_lt_mul_of_pos_right h2 (by positivity)

theorem canon_exp (M : Nat) (E : Int) (hM : 0 < M) (hc : F64.Canon M E) :
    max (E + (ilog2 M : Int) - 52) (-1074) = E := by
  rcases hc with ⟨h1, h2, h3, h4⟩ | ⟨h1, h2⟩
  · have : ilog2 M = 52 := ilog2_spec M 52 h1 h2
    rw [this]; omega
  · have hb := (ilog2_bounds M hM).1
    have : ilog2 M < 52 := by
      by_contra hge
      have : 2 ^ 52 ≤ 2 ^ ilog2 M := Nat.pow_le_pow_right (by norm_num) (by omega)
      omega
    omega

theorem canon_lt (M : Nat) (E : Int) (hc : F64.Canon M E) : M < 2 ^ 53 ∧ E ≤ 971 := by
  rcases hc with ⟨h1, h2, h3, h4⟩ | ⟨h1, h2⟩
  · exact ⟨h2, h4⟩
  · constructor
    · have : (2:Nat) ^ 52 < 2 ^ 53 := by norm_num
      omega
    · omega

/-- Rounding is the identity on a canonical datum given with its significand
shifted left. -/
theorem round_exact_shl (s : Bool) (M : Nat) (E : Int) (k : Nat) (hM : 0 < M)
    (hc : F64.Canon M E) : F64.round s (M * 2 ^ k) (E - k) = F64.fin s M E := by
  have hpos : 0 < M * 2 ^ k := by positivity
  have hlog := ilog2_mul_pow M k hM
  have he := canon_exp M E hM hc
  obtain ⟨hlt, hE⟩ := canon_lt M E hc
  have he' : max (E - (k : Int) + ((ilog2 (M * 2 ^ k) : Nat) : Int) - 52) (-1074) = E := by
    rw [hlog]; push_cast
    have : E - (k : Int) + ((ilog2 M : Int) + (k : Int)) - 52 = E + (ilog2 M : Int) - 52 := by ring
    rw [this]; exact he
  unfold F64.round
  simp only [he']
  rw [if_neg (by omega)]
  have hm : (if E ≤ E - (k : Int) then M * 2 ^ k * 2 ^ (E - (k : Int) - E).toNat
      else
        if M * 2 ^ k % 2 ^ (E - (E - (k : Int))).toNat * 2 < 2 ^ (E - (E - (k : Int))).toNat then
          M * 2 ^ k / 2 ^ (E - (E - (k : Int))).toNat
        else if 2 ^ (E - (E - (k : Int))).toNat < M * 2 ^ k % 2 ^ (E - (E - (k : Int))).toNat * 2 then
          M * 2 ^ k / 2 ^ (E - (E - (k : Int))).toNat + 1
        else if M * 2 ^ k / 2 ^ (E - (E - (k : Int))).toNat % 2 = 0 then
          M * 2 ^ k / 2 ^ (E - (E - (k : Int))).toNat
        else M * 2 ^ k / 2 ^ (E - (E - (k : Int))).toNat + 1) = M := by
    have hk : (E - (E - (k : Int))).toNat = k := by
      have : E - (E - (k : Int)) = k := by ring
      rw [this]; simp
    by_cases hk0 : k = 0
    · subst hk0; simp
    · rw [if_neg (by omega), hk]
      have hmod : M * 2 ^ k % 2 ^ k = 0 := Nat.mul_mod_left _ _
      have hdiv : M * 2 ^ k / 2 ^ k = M := Nat.mul_div_cancel _ (by positivity)
      rw [hmod, hdiv]
      simp
  rw [hm]
  rw [if_neg (by omega), if_neg (by omega)]

/-- Rounding is exact when shifting the significand left gives a canonical
datum. -/
theorem round_exact_shr (s : Bool) (n : Nat) (e : Int) (k : Nat) (hn : 0 < n)
    (hc : F64.Canon (n * 2 ^ k) (e - k)) : F64.round s n e = F64.fin s (n * 2 ^ k) (e - k) := by
  have hpos : 0 < n * 2 ^ k := by positivity
  have hlog := ilog2_mul_pow n k hn
  have he := canon_exp _ _ hpos hc
  obtain ⟨hlt, hE⟩ := canon_lt _ _ hc
  have he' : max (e + ((ilog2 n : Nat) : Int) - 52) (-1074) = e - k := by
    rw [hlog] at he; push_cast at he
    have : e - (k : Int) + ((ilog2 n : Int) + (k : Int)) - 52 = e + (ilog2 n : Int) - 52 := by ring
    rw [this] at he; exact he
  have hk : (e - (e - (k : Int))).toNat = k := by
    have : e - (e - (k : Int)) = k := by ring
    rw [this]; simp
  unfold F64.round
  simp only [he']
  rw [if_neg (by omega)]
  have hle : e - (k : Int) ≤ e := by omega
  simp only [if_pos hle, hk]
  rw [if_neg (by omega), if_neg (by omega)]

theorem ofNat_pos (x : Nat) (hx : 0 < x) (hlt : x < 2 ^ 53) :
    F64.ofNat x = F64.fin false (x * 2 ^ (52 - ilog2 x)) ((ilog2 x : Int) - 52) ∧
    F64.Canon (x * 2 ^ (52 - ilog2 x)) ((ilog2 x : Int) - 52) ∧ ilog2 x ≤ 52 := by
  obtain ⟨h1, h2⟩ := ilog2_bounds x hx
  have hL : ilog2 x ≤ 52 := by
    by_contra hge
    have : 2 ^ 53 ≤ 2 ^ ilog2 x := Nat.pow_le_pow_right (by norm_num) (by omega)
    omega
  have hc : F64.Canon (x * 2 ^ (52 - ilog2 x)) ((ilog2 x : Int) - 52) := by
    left
    have e1 : 2 ^ 52 = 2 ^ ilog2 x * 2 ^ (52 - ilog2 x) := by
      rw [← pow_add]; congr 1; omega
    have e2 : 2 ^ 53 = 2 ^ (ilog2 x + 1) * 2 ^ (52 - ilog2 x) := by
      rw [← pow_add]; congr 1; omega
    refine ⟨?_, ?_, by omega, by omega⟩
    · rw [e1]; exact Nat.mul_le_mul_right _ h1
    · rw [e2]; exact Nat.mul_lt_mul_of_pos_right h2 (by positivity)
  refine ⟨?_, hc, hL⟩
  have hcast : ((ilog2 x : Int) - 52) = (0 : Int) - ((52 - ilog2 x : Nat) : Int) := by
    omega
  unfold F64.ofNat
  rw [hcast] at hc ⊢
  exact round_exact_shr false x 0 (52 - ilog2 x) hx hc

theorem ofNat_zero : F64.ofNat 0 = F64.zero false := by decide

theorem ofNat_two_pow_53 : F64.ofNat (2 ^ 53) = F64.fin false (2 ^ 52) 1 := by decide

theorem ofNat_canon (y : Nat) (h : y ≤ 2 ^ 53) :
    ∃ m e, F64.ofNat y = F64.fin false m e ∧ F64.Canon m e := by
  by_cases h0 : y = 0
  · subst h0
    exact ⟨0, -1074, ofNat_zero, Or.inr ⟨by norm_num, rfl⟩⟩
  · by_cases h1 : y = 2 ^ 53
    · subst h1
      exact ⟨2 ^ 52, 1, ofNat_two_pow_53, Or.inl ⟨le_refl _, by norm_num, by norm_num, by norm_num⟩⟩
    · obtain ⟨ha, hb, _⟩ := ofNat_pos y (by omega) (by omega)
      exact ⟨_, _, ha, hb⟩

theorem round_ofNat_shift (N K : Nat) (h0 : 0 < N) (h : N ≤ 2 ^ 53) :
    F64.round false (N * 2 ^ K) (-(K : Int)) = F64.ofNat N := by
  by_cases h1 : N = 2 ^ 53
  · subst h1
    rw [ofNat_two_pow_53]
    have e1 : 2 ^ 53 * 2 ^ K = 2 ^ 52 * 2 ^ (K + 1) := by ring
    have e2 : (-(K : Int)) = 1 - ((K + 1 : Nat) : Int) := by push_cast; ring
    rw [e1, e2]
    exact round_exact_shl false (2 ^ 52) 1 (K + 1) (by norm_num)
      (Or.inl ⟨le_refl _, by norm_num, by norm_num, by norm_num⟩)
  · obtain ⟨ha, hb, hL⟩ := ofNat_pos N h0 (by omega)
    rw [ha]
    by_cases hK : 52 - ilog2 N ≤ K
    · have e1 : N * 2 ^ K = N * 2 ^ (52 - ilog2 N) * 2 ^ (K - (52 - ilog2 N)) := by
        rw [mul_assoc, ← pow_add]; congr 2; omega
      have e2 : (-(K : Int)) = ((ilog2 N : Int) - 52) - ((K - (52 - ilog2 N) : Nat) : Int) := by
        omega
      rw [e1, e2]
      exact round_exact_shl false _ _ _ (by positivity) hb
    · have e1 : N * 2 ^ (52 - ilog2 N) = N * 2 ^ K * 2 ^ (52 - ilog2 N - K) := by
        rw [mul_assoc, ← pow_add]; congr 2; omega
      have e2 : ((ilog2 N : Int) - 52) = (-(K : Int)) - ((52 - ilog2 N - K : Nat) : Int) := by
        omega
      rw [e1, e2] at hb ⊢
      exact round_exact_shr false _ _ _ (by positivity) hb

theorem canon_ge (m : Nat) (e : Int) (hc : F64.Canon m e) : -1074 ≤ e := by
  rcases hc with ⟨_, _, h3, _⟩ | ⟨_, h2⟩ <;> omega

theorem add_zero_left (m : Nat) (e : Int) (hc : F64.Canon m e) :
    F64.add (F64.zero false) (F64.fin false m e) = F64.fin false m e := by
  have hge := canon_ge m e hc
  have hmin : min (-1074 : Int) e = -1074 := min_eq_left hge
  simp only [F64.zero, F64.add, hmin, F64.signed]
  by_cases hm : m = 0
  · subst hm
    rcases hc with ⟨h1, _⟩ | ⟨_, h2⟩
    · simp at h1
    · subst h2; simp [F64.zero]
  · have hsum : ((0 * 2 ^ ((-1074 : Int) - -1074).toNat : Nat) : Int) +
        ((m * 2 ^ (e - -1074).toNat : Nat) : Int) = ((m * 2 ^ (e + 1074).toNat : Nat) : Int) := by
      simp
    simp only [Bool.false_eq_true, if_false, hsum, Bool.and_self]
    have hpos : 0 < m * 2 ^ (e + 1074).toNat := by positivity
    rw [if_neg (by exact_mod_cast hpos.ne')]
    have hneg : ¬ (((m * 2 ^ (e + 1074).toNat : Nat) : Int) < 0) := by
      have := Int.natCast_nonneg (m * 2 ^ (e + 1074).toNat); omega
    simp only [hneg, decide_False, Int.natAbs_ofNat]
    have e2 : (-1074 : Int) = e - (((e + 1074).toNat : Nat) : Int) := by
      rw [Int.toNat_of_nonneg (by omega)]; ring
    conv_lhs => rw [e2]
    exact round_exact_shl false m e _ (by omega) hc

theorem add_zero_right (m : Nat) (e : Int) (hc : F64.Canon m e) :
    F64.add (F64.fin false m e) (F64.zero false) = F64.fin false m e := by
  have hge := canon_ge m e hc
  have hmin : min e (-1074 : Int) = -1074 := min_eq_right hge
  simp only [F64.zero, F64.add, hmin, F64.signed]
  by_cases hm : m = 0
  · subst hm
    rcases hc with ⟨h1, _⟩ | ⟨_, h2⟩
    · simp at h1
    · subst h2; simp [F64.zero]
  · have hsum : ((m * 2 ^ (e - -1074).toNat : Nat) : Int) +
        ((0 * 2 ^ ((-1074 : Int) - -1074).toNat : Nat) : Int) = ((m * 2 ^ (e + 1074).toNat : Nat) : Int) := by
      simp
    simp only [Bool.false_eq_true, if_false, hsum, Bool.and_self]
    have hpos : 0 < m * 2 ^ (e + 1074).toNat := by positivity
    rw [if_neg (by exact_mod_cast hpos.ne')]
    have hneg : ¬ (((m * 2 ^ (e + 1074).toNat : Nat) : Int) < 0) := by
      have := Int.natCast_nonneg (m * 2 ^ (e + 1074).toNat); omega
    simp only [hneg, decide_False, Int.natAbs_ofNat]
    have e2 : (-1074 : Int) = e - (((e + 1074).toNat : Nat) : Int) := by
      rw [Int.toNat_of_nonneg (by omega)]; ring
    conv_lhs => rw [e2]
    exact round_exact_shl false m e _ (by omega) hc

/-- Addition of integer-valued doubles is exact up to `2^53`. -/
theorem add_ofNat (x y : Nat) (h : x + y ≤ 2 ^ 53) :
    F64.add (F64.ofNat x) (F64.ofNat y) = F64.ofNat (x + y) := by
  by_cases hx : x = 0
  · subst hx
    obtain ⟨m, e, hy, hc⟩ := ofNat_canon y (by omega)
    rw [ofNat_zero, Nat.zero_add, hy]
    exact add_zero_left m e hc
  by_cases hy : y = 0
  · subst hy
    obtain ⟨m, e, hx', hc⟩ := ofNat_canon x (by omega)
    rw [ofNat_zero, Nat.add_zero, hx']
    exact add_zero_right m e hc
  obtain ⟨hxe, hxc, hLx⟩ := ofNat_pos x (by omega) (by omega)
  obtain ⟨hye, hyc, hLy⟩ := ofNat_pos y (by omega) (by omega)
  rw [hxe, hye]
  set Lx := ilog2 x with hLxd
  set Ly := ilog2 y with hLyd
  have hmin : min ((Lx : Int) - 52) ((Ly : Int) - 52) = -((52 - min Lx Ly : Nat) : Int) := by
    omega
  have hax : ((Lx : Int) - 52 - -((52 - min Lx Ly : Nat) : Int)).toNat = Lx - min Lx Ly := by
    omega
  have hay : ((Ly : Int) - 52 - -((52 - min Lx Ly : Nat) : Int)).toNat = Ly - min Lx Ly := by
    omega
  have ea : x * 2 ^ (52 - Lx) * 2 ^ (Lx - min Lx Ly) = x * 2 ^ (52 - min Lx Ly) := by
    rw [mul_assoc, ← pow_add]; congr 2; omega
  have eb : y * 2 ^ (52 - Ly) * 2 ^ (Ly - min Lx Ly) = y * 2 ^ (52 - min Lx Ly) := by
    rw [mul_assoc, ← pow_add]; congr 2; omega
  simp only [F64.add, hmin, hax, hay, ea, eb, F64.signed, Bool.false_eq_true, if_false]
  have hsum : ((x * 2 ^ (52 - min Lx Ly) : Nat) : Int) + ((y * 2 ^ (52 - min Lx Ly) : Nat) : Int) =
      (((x + y) * 2 ^ (52 - min Lx Ly) : Nat) : Int) := by
    push_cast; ring
  rw [hsum]
  have hpos : 0 < (x + y) * 2 ^ (52 - min Lx Ly) := by
    have : 0 < x + y := by omega
    positivity
  rw [if_neg (by exact_mod_cast hpos.ne')]
  have hneg : ¬ ((((x + y) * 2 ^ (52 - min Lx Ly) : Nat) : Int) < 0) := by
    have := Int.natCast_nonneg ((x + y) * 2 ^ (52 - min Lx Ly)); omega
  simp only [hneg, decide_False, Int.natAbs_ofNat]
  exact round_ofNat_shift (x + y) _ (by omega) h

theorem foldl_add_ofNat (l : List Nat) : ∀ a, a + l.sum ≤ 2 ^ 53 →
    (l.map F64.ofNat).foldl F64.add (F64.ofNat a) = F64.ofNat (a + l.sum) := by
  induction l with
  | nil => intro a _; simp
  | cons x l ih =>
    intro a h
    simp only [List.sum_cons] at h
    simp only [List.map_cons, List.foldl_cons, List.sum_cons]
    rw [add_ofNat a x (by omega), ih (a + x) (by omega)]
    congr 1; omega

/-- The left-to-right `double` sum of integer-valued addends is their exact
sum as long as that sum is at most `2^53`. -/
theorem fsum_ofNat (l : List Nat) (h : l.sum ≤ 2 ^ 53) :
    fsum (l.map F64.ofNat) = F64.ofNat l.sum := by
  have := foldl_add_ofNat l 0 (by omega)
  rw [ofNat_zero] at this
  simpa [fsum] using this


/-- When the call has returned, `total_ops` is the left-to-right `double` sum,
from `0.0`, of the workers' operation counts in the order of their atomic
additions, and that order is a permutation of the workers. -/
theorem total_at_return (c : Call) (s : State) (h : Inv c s) (hpc : s.pc = .returned) :
    ∃ order : List Nat, order.Perm (List.range c.n) ∧
      adds s.log = order.map (fun i => (i, c.ops i)) ∧
      s.total_ops = fsum (order.map c.ops) := by
  have hmem := h.adds_mem
  have hnd := h.adds_nodup
  have htot := h.total
  have hj := h.joined
  have hb := h.blocks
  rw [hpc] at hj hb
  simp only [Pc.joined, forall_true_left] at hj
  have hadds : adds s.log = ((adds s.log).map Prod.fst).map (fun i => (i, c.ops i)) := by
    rw [List.map_map]
    conv_lhs => rw [← List.map_id (adds s.log)]
    apply List.map_congr_left
    rintro ⟨j, ops⟩ hp
    have := ((hmem j ops).1 hp).2
    simp [this]
  refine ⟨(adds s.log).map Prod.fst, ?_, hadds, ?_⟩
  · rw [List.perm_ext_iff_of_nodup hnd (List.nodup_range _)]
    intro j
    simp only [List.mem_map, List.mem_range, Prod.exists, exists_and_right, exists_eq_right]
    constructor
    · rintro ⟨ops, hp⟩
      have hf := ((hmem j ops).1 hp).1
      have := hb j
      rw [hf] at this
      exact (ok_finished _ _ _ |>.1 this).1
    · intro hjn
      exact ⟨c.ops j, (hmem j _).2 ⟨hj j hjn, rfl⟩⟩
  · rw [htot]
    congr 1
    conv_lhs => rw [hadds]
    simp [List.map_map, Function.comp_def]


/-! ## Every order of the workers is the order of some run -/


theorem adds_stepMain (c : Call) (s : State) : adds (stepMain c s).log = adds s.log := by
  unfold stepMain
  split <;> (try split) <;> simp

theorem exec_replicate_succ (c : Call) (k : Nat) (s : State) :
    exec c (List.replicate (k + 1) Thread.main) s =
      exec c (List.replicate k Thread.main) (stepMain c s) := by
  simp [exec, List.replicate_succ, step]

theorem adds_exec_main (c : Call) (k : Nat) :
    ∀ s, adds (exec c (List.replicate k Thread.main) s).log = adds s.log := by
  induction k with
  | zero => intro s; simp [exec]
  | succ k ih => intro s; rw [exec_replicate_succ, ih, adds_stepMain]

theorem setup_loop_exit (c : Call) (k : Nat) :
    ∀ (i : Nat) (s : State), i + k = c.n → s.pc = .setup_loop i →
      (exec c (List.replicate (k + 1) Thread.main) s).pc = .resume_highp := by
  induction k with
  | zero =>
    intro i s hik hpc
    obtain ⟨pc, total_ops, ready, task_data, sh, sl, block, t0, t1, elapsed, log, result⟩ := s
    simp only at hpc
    subst hpc
    have : ¬ i < c.n := by omega
    simp [exec, step, stepMain, this]
  | succ k ih =>
    intro i s hik hpc
    rw [exec_replicate_succ]
    apply ih (i + 1) _ (by omega)
    obtain ⟨pc, total_ops, ready, task_data, sh, sl, block, t0, t1, elapsed, log, result⟩ := s
    simp only at hpc
    subst hpc
    have : i < c.n := by omega
    simp [stepMain, this]

theorem teardown_loop_exit (c : Call) (k : Nat) :
    ∀ (i : Nat) (s : State), i + k = c.n → s.pc = .teardown_loop i →
      (exec c (List.replicate (k + 1) Thread.main) s).pc = .returned := by
  induction k with
  | zero =>
    intro i s hik hpc
    obtain ⟨pc, total_ops, ready, task_data, sh, sl, block, t0, t1, elapsed, log, result⟩ := s
    simp only at hpc
    subst hpc
    have : ¬ i < c.n := by omega
    simp [exec, step, stepMain, this]
  | succ k ih =>
    intro i s hik hpc
    rw [exec_replicate_succ]
    apply ih (i + 1) _ (by omega)
    obtain ⟨pc, total_ops, ready, task_data, sh, sl, block, t0, t1, elapsed, log, result⟩ := s
    simp only at hpc
    subst hpc
    have : i < c.n := by omega
    simp [stepMain, this]

/-- The calling thread alone reaches the wait of line 52 in `n + 7` steps. -/
theorem main_reaches_wait (c : Call) (hn : 0 < c.n) :
    (exec c (List.replicate (c.n + 7) Thread.main) State.init).pc = .wait := by
  have e : c.n + 7 = 2 + ((c.n + 1) + 4) := by omega
  rw [e, List.replicate_add, exec_append, List.replicate_add, exec_append]
  have h1 : (exec c (List.replicate 2 Thread.main) State.init).pc = .setup_loop 0 := by
    simp [exec, step, stepMain, State.init, hn]
  have h2 := setup_loop_exit c c.n 0 _ (by omega) h1
  generalize exec c (List.replicate (c.n + 1) Thread.main)
    (exec c (List.replicate 2 Thread.main) State.init) = s at h2
  obtain ⟨pc, total_ops, ready, task_data, sh, sl, block, t0, t1, elapsed, log, result⟩ := s
  simp only at h2
  subst h2
  simp [exec, step, stepMain]

/-- Once every block has finished, the calling thread alone goes from the wait
to the return in `n + 4` steps. -/
theorem main_returns (c : Call) (s : State) (hpc : s.pc = .wait)
    (hall : ∀ j, j < c.n → s.block j = .finished) :
    (exec c (List.replicate (c.n + 4) Thread.main) s).pc = .returned := by
  have e : c.n + 4 = 3 + (c.n + 1) := by omega
  rw [e, List.replicate_add, exec_append]
  apply teardown_loop_exit c c.n 0 _ (by omega)
  obtain ⟨pc, total_ops, ready, task_data, sh, sl, block, t0, t1, elapsed, log, result⟩ := s
  simp only at hpc hall
  subst hpc
  simp only [exec, List.replicate, List.foldl, step, stepMain]
  rw [if_pos hall]


/-- Three steps of worker `i` while the calling thread waits run a block that
has not yet added its count to completion: its addition is the one addition
made. -/
theorem worker_completes (c : Call) (i : Nat) (s : State) (hinv : Inv c s) (hpc : s.pc = .wait)
    (hi : i < c.n) (hnot : i ∉ (adds s.log).map Prod.fst) :
    (exec c [Thread.worker i, Thread.worker i, Thread.worker i] s).pc = .wait ∧
    (adds (exec c [Thread.worker i, Thread.worker i, Thread.worker i] s).log).map Prod.fst =
      (adds s.log).map Prod.fst ++ [i] := by
  have hb := hinv.blocks i
  have hr := hinv.ready
  have hh := hinv.susp_h
  have hl := hinv.susp_l
  have hm := hinv.adds_mem i (c.ops i)
  obtain ⟨pc, total_ops, ready, task_data, sh, sl, block, t0, t1, elapsed, log, result⟩ := s
  simp only at hpc hb hr hh hl hm hnot
  subst hpc
  simp at hr hh hl
  subst hr hh hl
  cases hblk : block i with
  | absent =>
    rw [hblk] at hb
    simp at hb
    omega
  | queued h d =>
    simp [exec, step, stepWorker, hblk]
  | running d =>
    simp [exec, step, stepWorker, hblk]
  | returned ops =>
    simp [exec, step, stepWorker, hblk]
  | finished =>
    exfalso
    apply hnot
    rw [List.mem_map]
    exact ⟨(i, c.ops i), hm.2 ⟨hblk, trivial⟩, rfl⟩


theorem workers_complete (c : Call) (order : List Nat) :
    ∀ s, Inv c s → s.pc = .wait → order.Nodup →
      (∀ i, i ∈ order → i < c.n ∧ i ∉ (adds s.log).map Prod.fst) →
      (exec c (order.flatMap fun i => [Thread.worker i, Thread.worker i, Thread.worker i]) s).pc
          = .wait ∧
      (adds (exec c (order.flatMap fun i =>
          [Thread.worker i, Thread.worker i, Thread.worker i]) s).log).map Prod.fst =
        (adds s.log).map Prod.fst ++ order := by
  induction order with
  | nil => intro s _ hpc _ _; simp [exec, hpc]
  | cons i r ih =>
    intro s hinv hpc hnd hmem
    rw [List.flatMap_cons, exec_append]
    have hw := worker_completes c i s hinv hpc (hmem i (by simp)).1 (hmem i (by simp)).2
    have hinv1 := inv_exec c [Thread.worker i, Thread.worker i, Thread.worker i] s hinv
    rw [List.nodup_cons] at hnd
    have h := ih _ hinv1 hw.1 hnd.2 (by
      intro j hj
      refine ⟨(hmem j (by simp [hj])).1, ?_⟩
      rw [hw.2, List.mem_append]
      rintro (h | h)
      · exact (hmem j (by simp [hj])).2 h
      · simp at h; subst h; exact hnd.1 hj)
    refine ⟨h.1, ?_⟩
    rw [h.2, hw.2]
    simp

/-- Every order of the workers is the order of the additions of some run: the
schedule `orderedSchedule n order` returns, and its additions to `total_ops`
are made by the workers in the order `order`. -/
theorem ordered_run (c : Call) (order : List Nat) (hperm : order.Perm (List.range c.n))
    (hn : 0 < c.n) :
    (exec c (orderedSchedule c.n order) State.init).pc = .returned ∧
    (adds (exec c (orderedSchedule c.n order) State.init).log).map Prod.fst = order := by
  unfold orderedSchedule
  rw [exec_append, exec_append]
  have h1 := main_reaches_wait c hn
  have a1 := adds_exec_main c (c.n + 7) State.init
  have i1 := inv_exec c (List.replicate (c.n + 7) Thread.main) State.init (inv_init c)
  generalize exec c (List.replicate (c.n + 7) Thread.main) State.init = s1 at h1 a1 i1
  have a1' : adds s1.log = [] := by rw [a1]; simp [State.init]
  have hnd : order.Nodup := hperm.nodup_iff.2 (List.nodup_range _)
  have h2 := workers_complete c order s1 i1 h1 hnd (by
    intro i hi
    refine ⟨List.mem_range.1 (hperm.mem_iff.1 hi), ?_⟩
    simp [a1'])
  have i2 := inv_exec c
    (order.flatMap fun i => [Thread.worker i, Thread.worker i, Thread.worker i]) s1 i1
  generalize exec c
    (order.flatMap fun i => [Thread.worker i, Thread.worker i, Thread.worker i]) s1 = s2 at h2 i2
  rw [a1'] at h2
  simp only [List.map_nil, List.nil_append] at h2
  refine ⟨main_returns c s2 h2.1 ?_, ?_⟩
  · intro j hj
    have hj' : j ∈ (adds s2.log).map Prod.fst := by
      rw [h2.2]; exact hperm.mem_iff.2 (List.mem_range.2 hj)
    rw [List.mem_map] at hj'
    obtain ⟨⟨j', ops⟩, hm, rfl⟩ := hj'
    exact ((i2.adds_mem _ _).1 hm).1
  · rw [adds_exec_main, h2.2]

/-! ## Correct rounding of `F64.round`, `F64.ofNat` and `F64.div` -/

theorem grid_le (u v : ℚ) (m j : ℤ) (hu : 0 < u) (h : |(m : ℚ) * u - v| ≤ u / 2) :
    |(m : ℚ) * u - v| ≤ |(j : ℚ) * u - v| := by
  by_cases hj : j = m
  · subst hj; exact le_refl _
  · have h1 : (1 : ℤ) ≤ |j - m| := Int.one_le_abs (sub_ne_zero.2 hj)
    have h2 : (1 : ℚ) ≤ |(j : ℚ) - m| := by exact_mod_cast h1
    have h3 : u ≤ |(j : ℚ) * u - m * u| := by
      have : (j : ℚ) * u - m * u = ((j : ℚ) - m) * u := by ring
      rw [this, abs_mul, abs_of_pos hu]
      nlinarith
    have h4 : |(j : ℚ) * u - m * u| ≤ |(j : ℚ) * u - v| + |(m : ℚ) * u - v| := by
      have : (j : ℚ) * u - m * u = ((j : ℚ) * u - v) - ((m : ℚ) * u - v) := by ring
      rw [this]; exact abs_sub _ _
    linarith

theorem grid_lt (u v : ℚ) (m j : ℤ) (hu : 0 < u) (h : |(m : ℚ) * u - v| < u / 2)
    (hj : j ≠ m) : |(m : ℚ) * u - v| < |(j : ℚ) * u - v| := by
  have h1 : (1 : ℤ) ≤ |j - m| := Int.one_le_abs (sub_ne_zero.2 hj)
  have h2 : (1 : ℚ) ≤ |(j : ℚ) - m| := by exact_mod_cast h1
  have h3 : u ≤ |(j : ℚ) * u - m * u| := by
    have : (j : ℚ) * u - m * u = ((j : ℚ) - m) * u := by ring
    rw [this, abs_mul, abs_of_pos hu]
    nlinarith
  have h4 : |(j : ℚ) * u - m * u| ≤ |(j : ℚ) * u - v| + |(m : ℚ) * u - v| := by
    have : (j : ℚ) * u - m * u = ((j : ℚ) * u - v) - ((m : ℚ) * u - v) := by ring
    rw [this]; exact abs_sub _ _
  linarith

/-- Every finite datum lies at or below `2^52 * 2^E`, at or above
`2^53 * 2^E`, or on the grid of the multiples of `2^E`. -/
theorem canon_grid (s : Bool) (m : Nat) (e E : Int) (hc : F64.Canon m e) (hE : -1074 ≤ E) :
    (F64.fin s m e).toRat ≤ 2 ^ 52 * (2 : ℚ) ^ E ∨
    2 ^ 53 * (2 : ℚ) ^ E ≤ (F64.fin s m e).toRat ∨
    ∃ j : ℤ, (F64.fin s m e).toRat = (j : ℚ) * (2 : ℚ) ^ E := by
  have hu : (0 : ℚ) < (2 : ℚ) ^ E := by positivity
  have hp : (0 : ℚ) < (2 : ℚ) ^ e := by positivity
  cases s with
  | true =>
    left
    simp only [F64.toRat, if_true]
    have : (0 : ℚ) ≤ (m : ℚ) * (2 : ℚ) ^ e := by positivity
    have : (0 : ℚ) ≤ 2 ^ 52 * (2 : ℚ) ^ E := by positivity
    linarith
  | false =>
    simp only [F64.toRat, Bool.false_eq_true, if_false, one_mul]
    have hmono : ∀ a b : ℤ, a ≤ b → (2 : ℚ) ^ a ≤ (2 : ℚ) ^ b := fun a b hab =>
      zpow_le_zpow_right₀ (by norm_num) hab
    have hsucc : ∀ a : ℤ, (2 : ℚ) ^ (a + 1) = 2 * (2 : ℚ) ^ a := fun a => by
      rw [zpow_add_one₀ (by norm_num)]; ring
    rcases hc with ⟨h1, h2, h3, h4⟩ | ⟨h1, h2⟩
    · have h1' : (2 : ℚ) ^ 52 ≤ (m : ℚ) := by exact_mod_cast h1
      have h2' : (m : ℚ) < (2 : ℚ) ^ 53 := by exact_mod_cast h2
      rcases lt_trichotomy e E with h | h | h
      · left
        have := hmono (e + 1) E (by omega)
        rw [hsucc] at this
        nlinarith
      · right; right
        subst h
        exact ⟨m, by push_cast; ring⟩
      · right; left
        have := hmono (E + 1) e (by omega)
        rw [hsucc] at this
        nlinarith
    · left
      subst h2
      have h1' : (m : ℚ) < (2 : ℚ) ^ 52 := by exact_mod_cast h1
      have := hmono (-1074) E hE
      have hq : (0 : ℚ) < (2 : ℚ) ^ (-1074 : ℤ) := by positivity
      nlinarith


/-- A significand `2^52 ≤ m ≤ 2^53` at exponent `E` within half a unit in the
last place of `v`, even when exactly half a unit away, is the rounding of `v`
to nearest, ties to even. -/
theorem nearest_of_grid (E : Int) (m : Nat) (v : ℚ) (hE : -1074 ≤ E) (hE2 : E ≤ 970)
    (hm1 : 2 ^ 52 ≤ m) (hm2 : m ≤ 2 ^ 53)
    (hv1 : 2 ^ 52 * (2 : ℚ) ^ E ≤ v) (hv2 : v ≤ 2 ^ 53 * (2 : ℚ) ^ E)
    (hd : |(m : ℚ) * (2 : ℚ) ^ E - v| ≤ (2 : ℚ) ^ E / 2)
    (htie : |(m : ℚ) * (2 : ℚ) ^ E - v| = (2 : ℚ) ^ E / 2 → m % 2 = 0) :
    F64.Nearest v (if m = 2 ^ 53 then F64.fin false (2 ^ 52) (E + 1) else F64.fin false m E) := by
  have hu : (0 : ℚ) < (2 : ℚ) ^ E := by positivity
  have hsucc : (2 : ℚ) ^ (E + 1) = 2 * (2 : ℚ) ^ E := by
    rw [zpow_add_one₀ (by norm_num)]; ring
  -- the value of the result is `m * 2^E`, and its significand is even on a tie
  have key : ∀ (M : Nat) (E' : Int), F64.Canon M E' →
      (F64.fin false M E').toRat = (m : ℚ) * (2 : ℚ) ^ E →
      (|(m : ℚ) * (2 : ℚ) ^ E - v| = (2 : ℚ) ^ E / 2 → M % 2 = 0) →
      F64.Nearest v (F64.fin false M E') := by
    intro M E' hc hval hev
    refine ⟨false, M, E', rfl, hc, ?_⟩
    intro s' m' e' hc'
    rw [hval]
    have c52 : (((2 ^ 52 : ℤ) : ℤ) : ℚ) = (2 : ℚ) ^ 52 := by push_cast; rfl
    have c53 : (((2 ^ 53 : ℤ) : ℤ) : ℚ) = (2 : ℚ) ^ 53 := by push_cast; rfl
    have cm : (((m : ℤ) : ℤ) : ℚ) = (m : ℚ) := by push_cast; rfl
    have hgm := grid_le _ v (m : ℤ) (2 ^ 52 : ℤ) hu (by rw [cm]; exact hd)
    have hgM := grid_le _ v (m : ℤ) (2 ^ 53 : ℤ) hu (by rw [cm]; exact hd)
    rw [cm, c52] at hgm
    rw [cm, c53] at hgM
    have hlo : |(2 : ℚ) ^ 52 * (2 : ℚ) ^ E - v| = v - 2 ^ 52 * (2 : ℚ) ^ E := by
      rw [abs_sub_comm]; exact abs_of_nonneg (by linarith)
    have hhi : |(2 : ℚ) ^ 53 * (2 : ℚ) ^ E - v| = 2 ^ 53 * (2 : ℚ) ^ E - v :=
      abs_of_nonneg (by linarith)
    have hm1' : (2 : ℚ) ^ 52 ≤ (m : ℚ) := by exact_mod_cast hm1
    have hm2' : (m : ℚ) ≤ (2 : ℚ) ^ 53 := by exact_mod_cast hm2
    rcases canon_grid s' m' e' E hc' hE with hY | hY | ⟨j, hY⟩
    · -- below the binade
      have hYv : |(F64.fin s' m' e').toRat - v| = v - (F64.fin s' m' e').toRat := by
        rw [abs_sub_comm]; exact abs_of_nonneg (by linarith)
      refine ⟨by rw [hYv]; linarith, ?_⟩
      intro hne heq
      apply hev
      by_contra hnt
      have hlt : |(m : ℚ) * (2 : ℚ) ^ E - v| < (2 : ℚ) ^ E / 2 := lt_of_le_of_ne hd hnt
      by_cases hmm : m = 2 ^ 52
      · have hX : (m : ℚ) * (2 : ℚ) ^ E = 2 ^ 52 * (2 : ℚ) ^ E := by rw [hmm]; push_cast; ring
        rw [hX] at heq hne
        rw [hYv, hlo] at heq
        exact hne (by linarith)
      · have := grid_lt _ v (m : ℤ) (2 ^ 52 : ℤ) hu (by rw [cm]; exact hlt)
          (by intro h; apply hmm; exact_mod_cast h.symm)
        rw [cm, c52] at this
        rw [hYv] at heq
        linarith
    · -- above the binade
      have hYv : |(F64.fin s' m' e').toRat - v| = (F64.fin s' m' e').toRat - v :=
        abs_of_nonneg (by linarith)
      refine ⟨by rw [hYv]; linarith, ?_⟩
      intro hne heq
      apply hev
      by_contra hnt
      have hlt : |(m : ℚ) * (2 : ℚ) ^ E - v| < (2 : ℚ) ^ E / 2 := lt_of_le_of_ne hd hnt
      by_cases hmm : m = 2 ^ 53
      · have hX : (m : ℚ) * (2 : ℚ) ^ E = 2 ^ 53 * (2 : ℚ) ^ E := by rw [hmm]; push_cast; ring
        rw [hX] at heq hne
        rw [hYv, hhi] at heq
        exact hne (by linarith)
      · have := grid_lt _ v (m : ℤ) (2 ^ 53 : ℤ) hu (by rw [cm]; exact hlt)
          (by intro h; apply hmm; exact_mod_cast h.symm)
        rw [cm, c53] at this
        rw [hYv] at heq
        linarith
    · -- on the grid
      rw [hY]
      have hg := grid_le _ v (m : ℤ) j hu (by rw [cm]; exact hd)
      rw [cm] at hg
      refine ⟨hg, ?_⟩
      intro hne heq
      apply hev
      by_contra hnt
      have hlt : |(m : ℚ) * (2 : ℚ) ^ E - v| < (2 : ℚ) ^ E / 2 := lt_of_le_of_ne hd hnt
      have := grid_lt _ v (m : ℤ) j hu (by rw [cm]; exact hlt)
        (by intro h; apply hne; rw [h, cm])
      rw [cm] at this
      linarith
  by_cases hmm : m = 2 ^ 53
  · rw [if_pos hmm]
    apply key
    · exact Or.inl ⟨le_refl _, by norm_num, by omega, by omega⟩
    · simp only [F64.toRat, Bool.false_eq_true, if_false, one_mul]
      rw [hsucc, hmm]; push_cast; ring
    · intro _; norm_num
  · rw [if_neg hmm]
    apply key
    · exact Or.inl ⟨hm1, by omega, hE, by omega⟩
    · simp only [F64.toRat, Bool.false_eq_true, if_false, one_mul]
    · exact htie


/-- The choice between the quotient `q` and `q + 1` made by `F64.round` from
the remainder `r` of a division by `P` is within half of `P` of the exact
value, and even on a tie.  The exact value is `P * q + r`, or (sticky case)
lies strictly within one of it when `r` is odd and `4` divides `P`. -/
theorem round_pick (P q r m : Nat) (t : ℚ)
    (hm : m = if r * 2 < P then q else if P < r * 2 then q + 1
      else if q % 2 = 0 then q else q + 1)
    (hr : r < P)
    (ht : t = (P : ℚ) * q + r ∨
      (P % 4 = 0 ∧ r % 2 = 1 ∧ (P : ℚ) * q + r - 1 < t ∧ t < (P : ℚ) * q + r + 1)) :
    (q : ℚ) * P ≤ t ∧ t ≤ ((q : ℚ) + 1) * P ∧ |(m : ℚ) * P - t| ≤ (P : ℚ) / 2 ∧
      (|(m : ℚ) * P - t| = (P : ℚ) / 2 → m % 2 = 0) ∧ q ≤ m ∧ m ≤ q + 1 := by
  have hr' : (r : ℚ) < P := by exact_mod_cast hr
  have hr0 : (0 : ℚ) ≤ r := by positivity
  rcases ht with ht | ⟨hP4, hodd, ht1, ht2⟩
  · subst ht
    refine ⟨by linarith, by linarith, ?_⟩
    by_cases h1 : r * 2 < P
    · rw [if_pos h1] at hm; subst hm
      have h1' : (r : ℚ) * 2 < P := by exact_mod_cast h1
      have hval : |(m : ℚ) * P - ((P : ℚ) * m + r)| = r := by
        have : (m : ℚ) * P - ((P : ℚ) * m + r) = -r := by ring
        rw [this, abs_neg, abs_of_nonneg hr0]
      rw [hval]
      refine ⟨by linarith, ?_, le_refl _, by omega⟩
      intro h; linarith
    · rw [if_neg h1] at hm
      by_cases h2 : P < r * 2
      · rw [if_pos h2] at hm; subst hm
        have h2' : (P : ℚ) < r * 2 := by exact_mod_cast h2
        have hval : |((q + 1 : Nat) : ℚ) * P - ((P : ℚ) * q + r)| = P - r := by
          have : ((q + 1 : Nat) : ℚ) * P - ((P : ℚ) * q + r) = P - r := by push_cast; ring
          rw [this, abs_of_nonneg (by linarith)]
        rw [hval]
        refine ⟨by linarith, ?_, by omega, le_refl _⟩
        intro h; linarith
      · rw [if_neg h2] at hm
        have h3 : r * 2 = P := by omega
        have h3' : (r : ℚ) * 2 = P := by exact_mod_cast h3
        by_cases h4 : q % 2 = 0
        · rw [if_pos h4] at hm; subst hm
          have hval : |(m : ℚ) * P - ((P : ℚ) * m + r)| = r := by
            have : (m : ℚ) * P - ((P : ℚ) * m + r) = -r := by ring
            rw [this, abs_neg, abs_of_nonneg hr0]
          rw [hval]
          exact ⟨by linarith, fun _ => h4, le_refl _, by omega⟩
        · rw [if_neg h4] at hm; subst hm
          have hval : |((q + 1 : Nat) : ℚ) * P - ((P : ℚ) * q + r)| = P - r := by
            have : ((q + 1 : Nat) : ℚ) * P - ((P : ℚ) * q + r) = P - r := by push_cast; ring
            rw [this, abs_of_nonneg (by linarith)]
          rw [hval]
          exact ⟨by linarith, fun _ => by omega, by omega, le_refl _⟩
  · have hr1 : (1 : ℚ) ≤ r := by
      have : 1 ≤ r := by omega
      exact_mod_cast this
    have hr2 : (r : ℚ) + 1 ≤ P := by
      have : r + 1 ≤ P := by omega
      exact_mod_cast this
    refine ⟨by linarith, by linarith, ?_⟩
    by_cases h1 : r * 2 < P
    · rw [if_pos h1] at hm; subst hm
      have h1' : ((r : ℚ) + 1) * 2 ≤ P := by
        have : (r + 1) * 2 ≤ P := by omega
        exact_mod_cast this
      have hlt : |(m : ℚ) * P - t| < (P : ℚ) / 2 := by
        rw [abs_lt]; constructor <;> linarith
      exact ⟨le_of_lt hlt, fun h => absurd h (ne_of_lt hlt), le_refl _, by omega⟩
    · rw [if_neg h1] at hm
      have h2 : P < r * 2 := by omega
      rw [if_pos h2] at hm; subst hm
      have h2' : (P : ℚ) ≤ ((r : ℚ) - 1) * 2 := by
        have : P + 2 ≤ r * 2 := by omega
        have : ((P : ℚ) + 2) ≤ r * 2 := by exact_mod_cast this
        linarith
      have hlt : |((q + 1 : Nat) : ℚ) * P - t| < (P : ℚ) / 2 := by
        rw [abs_lt]; push_cast; constructor <;> linarith
      exact ⟨le_of_lt hlt, fun h => absurd h (ne_of_lt hlt), by omega, le_refl _⟩


/-- The shape of the result of `F64.round` on the normal range: a significand
`2^52 ≤ m ≤ 2^53` at the exponent `E = e + ilog2 n - 52`, within half a unit in
the last place of `t * 2^e` and even on a tie, where `t` is the integer `n`
itself or, when `n` is odd with more than two bits beyond the 53 kept (the
sticky form), any value strictly within one of `n`. -/
theorem round_form (n : Nat) (e : Int) (t : ℚ) (hn : 0 < n)
    (hlo : -1074 ≤ e + (ilog2 n : Int) - 52) (hhi : e + (ilog2 n : Int) - 52 ≤ 970)
    (ht : t = (n : ℚ) ∨ (54 ≤ ilog2 n ∧ n % 2 = 1 ∧ (n : ℚ) - 1 < t ∧ t < (n : ℚ) + 1)) :
    ∃ m : Nat,
      F64.round false n e =
        (if m = 2 ^ 53 then F64.fin false (2 ^ 52) (e + (ilog2 n : Int) - 52 + 1)
          else F64.fin false m (e + (ilog2 n : Int) - 52)) ∧
      2 ^ 52 ≤ m ∧ m ≤ 2 ^ 53 ∧
      2 ^ 52 * (2 : ℚ) ^ (e + (ilog2 n : Int) - 52) ≤ t * (2 : ℚ) ^ e ∧
      t * (2 : ℚ) ^ e ≤ 2 ^ 53 * (2 : ℚ) ^ (e + (ilog2 n : Int) - 52) ∧
      |(m : ℚ) * (2 : ℚ) ^ (e + (ilog2 n : Int) - 52) - t * (2 : ℚ) ^ e| ≤
        (2 : ℚ) ^ (e + (ilog2 n : Int) - 52) / 2 ∧
      (|(m : ℚ) * (2 : ℚ) ^ (e + (ilog2 n : Int) - 52) - t * (2 : ℚ) ^ e| =
        (2 : ℚ) ^ (e + (ilog2 n : Int) - 52) / 2 → m % 2 = 0) := by
  obtain ⟨hL1, hL2⟩ := ilog2_bounds n hn
  have he' : max (e + (ilog2 n : Int) - 52) (-1074) = e + (ilog2 n : Int) - 52 :=
    max_eq_left hlo
  have hpe : (0 : ℚ) < (2 : ℚ) ^ e := by positivity
  by_cases hLk : ilog2 n ≤ 52
  · have htv : t = (n : ℚ) := by
      rcases ht with h | h
      · exact h
      · omega
    subst htv
    have e1 : 2 ^ 52 = 2 ^ ilog2 n * 2 ^ (52 - ilog2 n) := by
      rw [← pow_add]; congr 1; omega
    have e2 : 2 ^ 53 = 2 ^ (ilog2 n + 1) * 2 ^ (52 - ilog2 n) := by
      rw [← pow_add]; congr 1; omega
    have hm1 : 2 ^ 52 ≤ n * 2 ^ (52 - ilog2 n) := by
      rw [e1]; exact Nat.mul_le_mul_right _ hL1
    have hm2 : n * 2 ^ (52 - ilog2 n) < 2 ^ 53 := by
      rw [e2]; exact Nat.mul_lt_mul_of_pos_right hL2 (by positivity)
    have hE : e - ((52 - ilog2 n : Nat) : Int) = e + (ilog2 n : Int) - 52 := by omega
    have hc : F64.Canon (n * 2 ^ (52 - ilog2 n)) (e - ((52 - ilog2 n : Nat) : Int)) :=
      Or.inl ⟨hm1, hm2, by omega, by omega⟩
    rw [round_exact_shr false n e (52 - ilog2 n) hn hc]
    have hval : ((n * 2 ^ (52 - ilog2 n) : Nat) : ℚ) *
        (2 : ℚ) ^ (e - ((52 - ilog2 n : Nat) : Int)) = (n : ℚ) * (2 : ℚ) ^ e := by
      rw [zpow_sub₀ (by norm_num), zpow_natCast]
      push_cast
      field_simp
      ring
    have hu : (0 : ℚ) < (2 : ℚ) ^ (e - ((52 - ilog2 n : Nat) : Int)) := by positivity
    have hm1' : (2 : ℚ) ^ 52 ≤ ((n * 2 ^ (52 - ilog2 n) : Nat) : ℚ) := by exact_mod_cast hm1
    have hm2' : ((n * 2 ^ (52 - ilog2 n) : Nat) : ℚ) ≤ (2 : ℚ) ^ 53 := by
      exact_mod_cast le_of_lt hm2
    rw [hE] at hval hu
    refine ⟨n * 2 ^ (52 - ilog2 n), ?_, hm1, le_of_lt hm2, ?_, ?_, ?_, ?_⟩
    · rw [if_neg (by omega), hE]
    · rw [← hval]; exact mul_le_mul_of_nonneg_right hm1' (le_of_lt hu)
    · rw [← hval]; exact mul_le_mul_of_nonneg_right hm2' (le_of_lt hu)
    · rw [hval]; simp; positivity
    · rw [hval]; simp; intro h; exact absurd h (ne_of_lt (by positivity))
  · obtain ⟨k, hk⟩ : ∃ k, ilog2 n = 52 + (k + 1) := ⟨ilog2 n - 53, by omega⟩
    have hPpos : 0 < 2 ^ (k + 1) := by positivity
    have hdm : 2 ^ (k + 1) * (n / 2 ^ (k + 1)) + n % 2 ^ (k + 1) = n := Nat.div_add_mod n _
    have hr : n % 2 ^ (k + 1) < 2 ^ (k + 1) := Nat.mod_lt _ hPpos
    have hq1 : 2 ^ 52 ≤ n / 2 ^ (k + 1) := by
      rw [Nat.le_div_iff_mul_le hPpos, ← pow_add]
      rw [hk] at hL1; exact hL1
    have hq2 : n / 2 ^ (k + 1) < 2 ^ 53 := by
      rw [Nat.div_lt_iff_lt_mul hPpos, ← pow_add]
      rw [hk] at hL2
      have : 52 + (k + 1) + 1 = 53 + (k + 1) := by ring
      rw [this] at hL2; exact hL2
    have hto : (e + (ilog2 n : Int) - 52 - e).toNat = k + 1 := by
      rw [hk]; push_cast; omega
    have hround : F64.round false n e =
        (if (if n % 2 ^ (k + 1) * 2 < 2 ^ (k + 1) then n / 2 ^ (k + 1)
              else if 2 ^ (k + 1) < n % 2 ^ (k + 1) * 2 then n / 2 ^ (k + 1) + 1
              else if n / 2 ^ (k + 1) % 2 = 0 then n / 2 ^ (k + 1)
              else n / 2 ^ (k + 1) + 1) = 2 ^ 53
          then F64.fin false (2 ^ 52) (e + (ilog2 n : Int) - 52 + 1)
          else F64.fin false
            (if n % 2 ^ (k + 1) * 2 < 2 ^ (k + 1) then n / 2 ^ (k + 1)
              else if 2 ^ (k + 1) < n % 2 ^ (k + 1) * 2 then n / 2 ^ (k + 1) + 1
              else if n / 2 ^ (k + 1) % 2 = 0 then n / 2 ^ (k + 1)
              else n / 2 ^ (k + 1) + 1) (e + (ilog2 n : Int) - 52)) := by
      unfold F64.round
      simp only [he']
      rw [if_neg (by omega)]
      have hnle : ¬ (e + (ilog2 n : Int) - 52 ≤ e) := by omega
      simp only [if_neg hnle, hto]
      have h971 : ¬ (971 < e + (ilog2 n : Int) - 52 + 1) := by omega
      have h971' : ¬ (971 < e + (ilog2 n : Int) - 52) := by omega
      simp only [if_neg h971, if_neg h971']
    rw [hround]
    have hcast : (n : ℚ) = ((2 ^ (k + 1) : Nat) : ℚ) * ((n / 2 ^ (k + 1) : Nat) : ℚ) +
        ((n % 2 ^ (k + 1) : Nat) : ℚ) := by exact_mod_cast hdm.symm
    have hpick := round_pick (2 ^ (k + 1)) (n / 2 ^ (k + 1)) (n % 2 ^ (k + 1)) _ t rfl hr (by
      rcases ht with h | ⟨h54, hodd, h1, h2⟩
      · left; rw [h]; exact hcast
      · right
        have hk1 : 1 ≤ k := by omega
        obtain ⟨k', rfl⟩ : ∃ k', k = k' + 1 := ⟨k - 1, by omega⟩
        have h4 : 2 ^ (k' + 1 + 1) = 4 * 2 ^ k' := by ring
        refine ⟨by rw [h4]; omega, ?_, by rw [← hcast]; exact h1, by rw [← hcast]; exact h2⟩
        rw [h4] at hdm ⊢
        have : 4 * 2 ^ k' * (n / (4 * 2 ^ k')) = 2 * (2 * 2 ^ k' * (n / (4 * 2 ^ k'))) := by ring
        have hmod : n % (4 * 2 ^ k') % 2 = n % 2 := by
          apply Nat.mod_mod_of_dvd
          exact ⟨2 * 2 ^ k', by ring⟩
        omega)
    obtain ⟨p1, p2, p3, p4, p5, p6⟩ := hpick
    have hu : (2 : ℚ) ^ (e + (ilog2 n : Int) - 52) = ((2 ^ (k + 1) : Nat) : ℚ) * (2 : ℚ) ^ e := by
      have : e + (ilog2 n : Int) - 52 = ((k + 1 : Nat) : Int) + e := by rw [hk]; push_cast; ring
      rw [this, zpow_add₀ (by norm_num), zpow_natCast]
      push_cast; ring
    have hPq : (0 : ℚ) < ((2 ^ (k + 1) : Nat) : ℚ) := by exact_mod_cast hPpos
    have hq1' : (2 : ℚ) ^ 52 ≤ ((n / 2 ^ (k + 1) : Nat) : ℚ) := by exact_mod_cast hq1
    have hq2' : ((n / 2 ^ (k + 1) : Nat) : ℚ) + 1 ≤ (2 : ℚ) ^ 53 := by
      have : n / 2 ^ (k + 1) + 1 ≤ 2 ^ 53 := hq2
      exact_mod_cast this
    refine ⟨_, rfl, by omega, by omega, ?_, ?_, ?_, ?_⟩
    · rw [hu]
      have : (2 : ℚ) ^ 52 * ((2 ^ (k + 1) : Nat) : ℚ) ≤ t := by nlinarith
      nlinarith
    · rw [hu]
      have : t ≤ (2 : ℚ) ^ 53 * ((2 ^ (k + 1) : Nat) : ℚ) := by nlinarith
      nlinarith
    · rw [hu]
      have : ∀ M : ℚ, M * (((2 ^ (k + 1) : Nat) : ℚ) * (2 : ℚ) ^ e) - t * (2 : ℚ) ^ e =
          (M * ((2 ^ (k + 1) : Nat) : ℚ) - t) * (2 : ℚ) ^ e := fun M => by ring
      rw [this, abs_mul, abs_of_pos hpe]
      have : ((2 ^ (k + 1) : Nat) : ℚ) * (2 : ℚ) ^ e / 2 =
          ((2 ^ (k + 1) : Nat) : ℚ) / 2 * (2 : ℚ) ^ e := by ring
      rw [this]
      exact mul_le_mul_of_nonneg_right p3 (le_of_lt hpe)
    · rw [hu]
      have : ∀ M : ℚ, M * (((2 ^ (k + 1) : Nat) : ℚ) * (2 : ℚ) ^ e) - t * (2 : ℚ) ^ e =
          (M * ((2 ^ (k + 1) : Nat) : ℚ) - t) * (2 : ℚ) ^ e := fun M => by ring
      rw [this, abs_mul, abs_of_pos hpe]
      have : ((2 ^ (k + 1) : Nat) : ℚ) * (2 : ℚ) ^ e / 2 =
          ((2 ^ (k + 1) : Nat) : ℚ) / 2 * (2 : ℚ) ^ e := by ring
      rw [this]
      intro h
      exact p4 (mul_right_cancel₀ (ne_of_gt hpe) h)



/-- Correctness of `F64.round` on the normal range: the result is the
rounding to nearest, ties to even, of `t * 2^e`, for `t` as in `round_form`. -/
theorem round_nearest (n : Nat) (e : Int) (t : ℚ) (hn : 0 < n)
    (hlo : -1074 ≤ e + (ilog2 n : Int) - 52) (hhi : e + (ilog2 n : Int) - 52 ≤ 970)
    (ht : t = (n : ℚ) ∨ (54 ≤ ilog2 n ∧ n % 2 = 1 ∧ (n : ℚ) - 1 < t ∧ t < (n : ℚ) + 1)) :
    F64.Nearest (t * (2 : ℚ) ^ e) (F64.round false n e) := by
  obtain ⟨m, h1, h2, h3, h4, h5, h6, h7⟩ := round_form n e t hn hlo hhi ht
  rw [h1]
  exact nearest_of_grid _ m _ hlo hhi h2 h3 h4 h5 h6 h7

/-- The result of `F64.round` on the normal range is a normal datum whose
exponent is `e + ilog2 n - 52` or one more. -/
theorem round_shape (n : Nat) (e : Int) (hn : 0 < n)
    (hlo : -1074 ≤ e + (ilog2 n : Int) - 52) (hhi : e + (ilog2 n : Int) - 52 ≤ 970) :
    ∃ M E, F64.round false n e = F64.fin false M E ∧ 2 ^ 52 ≤ M ∧ M < 2 ^ 53 ∧
      e + (ilog2 n : Int) - 52 ≤ E ∧ E ≤ e + (ilog2 n : Int) - 52 + 1 := by
  obtain ⟨m, h1, h2, h3, -⟩ := round_form n e n hn hlo hhi (Or.inl rfl)
  by_cases hm : m = 2 ^ 53
  · rw [if_pos hm] at h1
    exact ⟨_, _, h1, le_refl _, by norm_num, by omega, by omega⟩
  · rw [if_neg hm] at h1
    exact ⟨_, _, h1, h2, by omega, by omega, by omega⟩

/-- The conversion `(double)d` of a `uint64_t` is the rounding of `d` to
nearest, ties to even. -/
theorem ofNat_nearest (d : Nat) (hd : d < 2 ^ 64) : F64.Nearest (d : ℚ) (F64.ofNat d) := by
  by_cases h0 : d = 0
  · subst h0
    rw [ofNat_zero]
    refine ⟨false, 0, -1074, rfl, Or.inr ⟨by norm_num, rfl⟩, ?_⟩
    intro s' m' e' _
    simp only [F64.toRat, Nat.cast_zero, mul_zero, zero_mul, sub_zero, abs_zero]
    refine ⟨abs_nonneg _, ?_⟩
    intro hne heq
    exact absurd (abs_eq_zero.1 heq) hne
  · have hpos : 0 < d := Nat.pos_of_ne_zero h0
    have hL : ilog2 d ≤ 63 := by
      by_contra hge
      have : 2 ^ 64 ≤ 2 ^ ilog2 d := Nat.pow_le_pow_right (by norm_num) (by omega)
      have := (ilog2_bounds d hpos).1
      omega
    have := round_nearest d 0 d hpos (by omega) (by omega) (Or.inl rfl)
    simpa [F64.ofNat] using this

/-- The conversion `(double)d` of a positive `uint64_t` is a normal datum with
an exponent between `-52` and `12`. -/
theorem ofNat_shape (d : Nat) (hpos : 0 < d) (hd : d < 2 ^ 64) :
    ∃ M E, F64.ofNat d = F64.fin false M E ∧ 2 ^ 52 ≤ M ∧ M < 2 ^ 53 ∧ -52 ≤ E ∧ E ≤ 12 := by
  have hL : ilog2 d ≤ 63 := by
    by_contra hge
    have : 2 ^ 64 ≤ 2 ^ ilog2 d := Nat.pow_le_pow_right (by norm_num) (by omega)
    have := (ilog2_bounds d hpos).1
    omega
  obtain ⟨M, E, h1, h2, h3, h4, h5⟩ := round_shape d 0 hpos (by omega) (by omega)
  exact ⟨M, E, h1, h2, h3, by omega, by omega⟩


theorem ilog2_ge (n a : Nat) (h : 2 ^ a ≤ n) : a ≤ ilog2 n := by
  have hn : 0 < n := lt_of_lt_of_le (by positivity) h
  have := (ilog2_bounds n hn).2
  by_contra hlt
  have : 2 ^ (ilog2 n + 1) ≤ 2 ^ a := Nat.pow_le_pow_right (by norm_num) (by omega)
  omega

theorem ilog2_lt (n b : Nat) (hn : 0 < n) (h : n < 2 ^ b) : ilog2 n < b := by
  have := (ilog2_bounds n hn).1
  by_contra hge
  have : 2 ^ b ≤ 2 ^ ilog2 n := Nat.pow_le_pow_right (by norm_num) (by omega)
  omega

/-- Zero is the rounding of zero. -/
theorem nearest_zero : F64.Nearest 0 (F64.zero false) := by
  refine ⟨false, 0, -1074, rfl, Or.inr ⟨by norm_num, rfl⟩, ?_⟩
  intro s' m' e' _
  simp only [F64.toRat, Nat.cast_zero, mul_zero, zero_mul, sub_zero, abs_zero]
  refine ⟨abs_nonneg _, ?_⟩
  intro hne heq
  exact absurd (abs_eq_zero.1 heq) hne

/-- The shape of `F64.div` on positive normal data whose exponents differ by
at most 800: the quotient `q` of the two values is `t * 2^(e1 - e2 - 109)` and
the result is `F64.round` of an integer `N` that is `t` itself or, when the
division of the significands leaves a remainder, the odd integer strictly
within one of `t`. -/
theorem div_form (m1 m2 : Nat) (e1 e2 : Int) (h1 : 2 ^ 52 ≤ m1) (h1' : m1 < 2 ^ 53)
    (h2 : 2 ^ 52 ≤ m2) (h2' : m2 < 2 ^ 53) (hlo : -800 ≤ e1 - e2) (hhi : e1 - e2 ≤ 800) :
    ∃ (N : Nat) (t : ℚ),
      F64.div (F64.fin false m1 e1) (F64.fin false m2 e2) =
        F64.round false N (e1 - e2 - 109) ∧
      (F64.fin false m1 e1).toRat / (F64.fin false m2 e2).toRat =
        t * (2 : ℚ) ^ (e1 - e2 - 109) ∧
      0 < N ∧ -1074 ≤ e1 - e2 - 109 + (ilog2 N : Int) - 52 ∧
      e1 - e2 - 109 + (ilog2 N : Int) - 52 ≤ 970 ∧
      (t = (N : ℚ) ∨ (54 ≤ ilog2 N ∧ N % 2 = 1 ∧ (N : ℚ) - 1 < t ∧ t < (N : ℚ) + 1)) := by
  have hm2 : 0 < m2 := lt_of_lt_of_le (by norm_num) h2
  have hdm : m2 * (m1 * 2 ^ 108 / m2) + m1 * 2 ^ 108 % m2 = m1 * 2 ^ 108 := Nat.div_add_mod _ _
  have hR : m1 * 2 ^ 108 % m2 < m2 := Nat.mod_lt _ hm2
  have hQ1 : 2 ^ 107 ≤ m1 * 2 ^ 108 / m2 := by
    rw [Nat.le_div_iff_mul_le hm2]
    calc 2 ^ 107 * m2 ≤ 2 ^ 107 * 2 ^ 53 := Nat.mul_le_mul_left _ (le_of_lt h2')
      _ = 2 ^ 52 * 2 ^ 108 := by norm_num
      _ ≤ m1 * 2 ^ 108 := Nat.mul_le_mul_right _ h1
  have hQ2 : m1 * 2 ^ 108 / m2 < 2 ^ 109 := by
    rw [Nat.div_lt_iff_lt_mul hm2]
    calc m1 * 2 ^ 108 < 2 ^ 53 * 2 ^ 108 := Nat.mul_lt_mul_of_pos_right h1' (by positivity)
      _ = 2 ^ 109 * 2 ^ 52 := by norm_num
      _ ≤ 2 ^ 109 * m2 := Nat.mul_le_mul_left _ h2
  have hdiv : F64.div (F64.fin false m1 e1) (F64.fin false m2 e2) =
      F64.round false (2 * (m1 * 2 ^ 108 / m2) + (if m1 * 2 ^ 108 % m2 = 0 then 0 else 1))
        (e1 - e2 - 109) := by
    simp only [F64.div]
    rw [if_neg (by omega)]
    simp
  generalize hN : 2 * (m1 * 2 ^ 108 / m2) + (if m1 * 2 ^ 108 % m2 = 0 then 0 else 1) = N at hdiv
  have hNlo : 2 ^ 108 ≤ N := by
    rw [← hN]
    have : 2 ^ 108 = 2 * 2 ^ 107 := by norm_num
    omega
  have hNhi : N < 2 ^ 111 := by
    rw [← hN]
    have : 2 ^ 111 = 4 * 2 ^ 109 := by norm_num
    split <;> omega
  have hNpos : 0 < N := lt_of_lt_of_le (by positivity) hNlo
  have hL1 := ilog2_ge N 108 hNlo
  have hL2 := ilog2_lt N 111 hNpos hNhi
  have hm2q : (0 : ℚ) < (m2 : ℚ) := by exact_mod_cast hm2
  have hcast : (m2 : ℚ) * ((m1 * 2 ^ 108 / m2 : Nat) : ℚ) + ((m1 * 2 ^ 108 % m2 : Nat) : ℚ) =
      (m1 : ℚ) * 2 ^ 108 := by exact_mod_cast hdm
  have hval : (F64.fin false m1 e1).toRat / (F64.fin false m2 e2).toRat =
      (2 * ((m1 : ℚ) * 2 ^ 108) / m2) * (2 : ℚ) ^ (e1 - e2 - 109) := by
    simp only [F64.toRat, Bool.false_eq_true, if_false, one_mul]
    rw [zpow_sub₀ (by norm_num), zpow_sub₀ (by norm_num)]
    have : (2 : ℚ) ^ (109 : ℤ) = 2 * 2 ^ 108 := by norm_num
    rw [this]
    field_simp
    ring
  refine ⟨N, 2 * ((m1 : ℚ) * 2 ^ 108) / m2, hdiv, hval, hNpos, by omega, by omega, ?_⟩
  generalize (m1 : ℚ) * 2 ^ 108 = X at hcast
  generalize m1 * 2 ^ 108 / m2 = Q at hN hcast
  generalize hRdef : m1 * 2 ^ 108 % m2 = R at hN hcast hR
  by_cases hz : R = 0
  · left
    rw [if_pos hz] at hN
    subst hz
    rw [← hN, ← hcast]
    push_cast
    field_simp
    ring
  · right
    rw [if_neg hz] at hN
    have hRpos : (0 : ℚ) < (R : ℚ) := by exact_mod_cast Nat.pos_of_ne_zero hz
    have hRlt : (R : ℚ) < (m2 : ℚ) := by exact_mod_cast hR
    refine ⟨by omega, by omega, ?_, ?_⟩
    · rw [← hN, ← hcast, lt_div_iff₀ hm2q]
      push_cast
      nlinarith
    · rw [← hN, ← hcast, div_lt_iff₀ hm2q]
      push_cast
      nlinarith

/-- Correctness of `F64.div` on positive normal data whose exponents differ by
at most 800: the result is the rounding to nearest, ties to even, of the
quotient of the two values, and it is not negative. -/
theorem div_nearest (m1 m2 : Nat) (e1 e2 : Int) (h1 : 2 ^ 52 ≤ m1) (h1' : m1 < 2 ^ 53)
    (h2 : 2 ^ 52 ≤ m2) (h2' : m2 < 2 ^ 53) (hlo : -800 ≤ e1 - e2) (hhi : e1 - e2 ≤ 800) :
    F64.Nearest ((F64.fin false m1 e1).toRat / (F64.fin false m2 e2).toRat)
      (F64.div (F64.fin false m1 e1) (F64.fin false m2 e2)) ∧
    ∃ m e, F64.div (F64.fin false m1 e1) (F64.fin false m2 e2) = F64.fin false m e := by
  obtain ⟨N, t, hdiv, hval, hN, ha, hb, ht⟩ := div_form m1 m2 e1 e2 h1 h1' h2 h2' hlo hhi
  rw [hdiv, hval]
  refine ⟨round_nearest N _ t hN ha hb ht, ?_⟩
  obtain ⟨M, E, hs, -⟩ := round_shape N (e1 - e2 - 109) hN ha hb
  exact ⟨M, E, hs⟩

/-- The result of `F64.round` on the normal range is within the relative
error `2^-53` of the value rounded. -/
theorem round_rel (n : Nat) (e : Int) (t : ℚ) (hn : 0 < n)
    (hlo : -1074 ≤ e + (ilog2 n : Int) - 52) (hhi : e + (ilog2 n : Int) - 52 ≤ 970)
    (ht : t = (n : ℚ) ∨ (54 ≤ ilog2 n ∧ n % 2 = 1 ∧ (n : ℚ) - 1 < t ∧ t < (n : ℚ) + 1)) :
    |(F64.round false n e).toRat - t * (2 : ℚ) ^ e| ≤ t * (2 : ℚ) ^ e / 2 ^ 53 := by
  obtain ⟨m, h1, h2, h3, h4, h5, h6, -⟩ := round_form n e t hn hlo hhi ht
  have hval : (F64.round false n e).toRat = (m : ℚ) * (2 : ℚ) ^ (e + (ilog2 n : Int) - 52) := by
    rw [h1]
    by_cases hm : m = 2 ^ 53
    · rw [if_pos hm]
      simp only [F64.toRat, Bool.false_eq_true, if_false, one_mul]
      rw [zpow_add_one₀ (by norm_num), hm]
      push_cast
      ring
    · rw [if_neg hm]
      simp only [F64.toRat, Bool.false_eq_true, if_false, one_mul]
  rw [hval]
  refine le_trans h6 ?_
  have hu : (0 : ℚ) < (2 : ℚ) ^ (e + (ilog2 n : Int) - 52) := by positivity
  linarith

/-- The result of `F64.div` on positive normal data whose exponents differ by
at most 800 is within the relative error `2^-53` of the quotient. -/
theorem div_rel (m1 m2 : Nat) (e1 e2 : Int) (h1 : 2 ^ 52 ≤ m1) (h1' : m1 < 2 ^ 53)
    (h2 : 2 ^ 52 ≤ m2) (h2' : m2 < 2 ^ 53) (hlo : -800 ≤ e1 - e2) (hhi : e1 - e2 ≤ 800) :
    |(F64.div (F64.fin false m1 e1) (F64.fin false m2 e2)).toRat -
        (F64.fin false m1 e1).toRat / (F64.fin false m2 e2).toRat| ≤
      (F64.fin false m1 e1).toRat / (F64.fin false m2 e2).toRat / 2 ^ 53 := by
  obtain ⟨N, t, hdiv, hval, hN, ha, hb, ht⟩ := div_form m1 m2 e1 e2 h1 h1' h2 h2' hlo hhi
  rw [hdiv, hval]
  exact round_rel N _ t hN ha hb ht

/-- The conversion `(double)d` of a `uint64_t` is within the relative error
`2^-53` of `d`. -/
theorem ofNat_rel (d : Nat) (hd : d < 2 ^ 64) :
    |(F64.ofNat d).toRat - (d : ℚ)| ≤ (d : ℚ) / 2 ^ 53 := by
  by_cases h0 : d = 0
  · subst h0
    rw [ofNat_zero]
    simp [F64.toRat, F64.zero]
  · have hpos : 0 < d := Nat.pos_of_ne_zero h0
    have hL : ilog2 d ≤ 63 := by
      by_contra hge
      have : 2 ^ 64 ≤ 2 ^ ilog2 d := Nat.pow_le_pow_right (by norm_num) (by omega)
      have := (ilog2_bounds d hpos).1
      omega
    have := round_rel d 0 d hpos (by omega) (by omega) (Or.inl rfl)
    simpa [F64.ofNat] using this

theorem ofNat_billion :
    F64.ofNat 1000000000 = F64.fin false 8388608000000000 (-23) := by decide

theorem toRat_billion : (F64.fin false 8388608000000000 (-23)).toRat = 1000000000 := by
  simp only [F64.toRat, Bool.false_eq_true, if_false, one_mul]
  norm_num [zpow_neg]

/-- The conversion `(double)x` is exact up to `2^53`. -/
theorem ofNat_toRat (x : Nat) (h : x ≤ 2 ^ 53) : (F64.ofNat x).toRat = (x : ℚ) := by
  by_cases h0 : x = 0
  · subst h0; rw [ofNat_zero]; simp [F64.toRat, F64.zero]
  · by_cases h1 : x = 2 ^ 53
    · subst h1; rw [ofNat_two_pow_53]
      simp only [F64.toRat, Bool.false_eq_true, if_false, one_mul]
      norm_num
    · obtain ⟨ha, -, hL⟩ := ofNat_pos x (by omega) (by omega)
      rw [ha]
      simp only [F64.toRat, Bool.false_eq_true, if_false, one_mul]
      have : ((ilog2 x : Int) - 52) = -((52 - ilog2 x : Nat) : Int) := by omega
      rw [this, zpow_neg, zpow_natCast]
      push_cast
      field_simp

/-- The value computed at line 55: `(double)(t1 - t0)` is the rounding of the
`uint64_t` difference `d` of the two readings, and `elapsed` is the rounding
of the quotient of that `double` by `10^9`; it is never negative. -/
theorem elapsedOf_nearest (t0 t1 : Nat) (h0 : t0 < 2 ^ 64) (h1 : t1 < 2 ^ 64) :
    F64.Nearest (((t1 + 2 ^ 64 - t0) % 2 ^ 64 : Nat) : ℚ)
      (F64.ofNat ((t1 + 2 ^ 64 - t0) % 2 ^ 64)) ∧
    F64.Nearest ((F64.ofNat ((t1 + 2 ^ 64 - t0) % 2 ^ 64)).toRat / 1000000000)
      (elapsedOf t0 t1) ∧
    ∃ m e, elapsedOf t0 t1 = F64.fin false m e := by
  have hsub : u64_sub t1 t0 = (t1 + 2 ^ 64 - t0) % 2 ^ 64 := by
    unfold u64_sub
    rw [Nat.mod_eq_of_lt h1, Nat.mod_eq_of_lt h0]
  have hd : (t1 + 2 ^ 64 - t0) % 2 ^ 64 < 2 ^ 64 := Nat.mod_lt _ (by positivity)
  unfold elapsedOf
  rw [hsub]
  generalize (t1 + 2 ^ 64 - t0) % 2 ^ 64 = d at hd
  refine ⟨ofNat_nearest d hd, ?_⟩
  rw [ofNat_billion]
  by_cases hz : d = 0
  · subst hz
    have : F64.div (F64.ofNat 0) (F64.fin false 8388608000000000 (-23)) = F64.zero false := by
      decide
    rw [this]
    refine ⟨?_, 0, -1074, rfl⟩
    have : (F64.ofNat 0).toRat / 1000000000 = 0 := by
      rw [ofNat_zero]; simp [F64.toRat, F64.zero]
    rw [this]
    exact nearest_zero
  · obtain ⟨M, E, hD, hM1, hM2, hE1, hE2⟩ := ofNat_shape d (Nat.pos_of_ne_zero hz) hd
    rw [hD]
    have := div_nearest M 8388608000000000 E (-23) hM1 hM2 (by norm_num) (by norm_num)
      (by omega) (by omega)
    rw [toRat_billion] at this
    exact this

/-- The value computed at line 55 against exact arithmetic: with `d` the
`uint64_t` difference of the two readings, `elapsed` is within the relative
error `3 * 2^-53` of `d / 10^9`, and within `2^-53` when `d ≤ 2^53`. -/
theorem elapsedOf_rel (t0 t1 : Nat) (h0 : t0 < 2 ^ 64) (h1 : t1 < 2 ^ 64) :
    |(elapsedOf t0 t1).toRat - (((t1 + 2 ^ 64 - t0) % 2 ^ 64 : Nat) : ℚ) / 1000000000| ≤
      3 * ((((t1 + 2 ^ 64 - t0) % 2 ^ 64 : Nat) : ℚ) / 1000000000) / 2 ^ 53 ∧
    ((t1 + 2 ^ 64 - t0) % 2 ^ 64 ≤ 2 ^ 53 →
      |(elapsedOf t0 t1).toRat - (((t1 + 2 ^ 64 - t0) % 2 ^ 64 : Nat) : ℚ) / 1000000000| ≤
        (((t1 + 2 ^ 64 - t0) % 2 ^ 64 : Nat) : ℚ) / 1000000000 / 2 ^ 53) := by
  have hsub : u64_sub t1 t0 = (t1 + 2 ^ 64 - t0) % 2 ^ 64 := by
    unfold u64_sub
    rw [Nat.mod_eq_of_lt h1, Nat.mod_eq_of_lt h0]
  have hd : (t1 + 2 ^ 64 - t0) % 2 ^ 64 < 2 ^ 64 := Nat.mod_lt _ (by positivity)
  unfold elapsedOf
  rw [hsub]
  generalize (t1 + 2 ^ 64 - t0) % 2 ^ 64 = d at hd
  rw [ofNat_billion]
  by_cases hz : d = 0
  · subst hz
    have : F64.div (F64.ofNat 0) (F64.fin false 8388608000000000 (-23)) = F64.zero false := by
      decide
    rw [this]
    simp [F64.toRat, F64.zero]
  · have hrel := ofNat_rel d hd
    have hex := ofNat_toRat d
    obtain ⟨M, E, hD, hM1, hM2, hE1, hE2⟩ := ofNat_shape d (Nat.pos_of_ne_zero hz) hd
    have hdr := div_rel M 8388608000000000 E (-23) hM1 hM2 (by norm_num) (by norm_num)
      (by omega) (by omega)
    rw [toRat_billion] at hdr
    rw [hD] at hrel hex ⊢
    have hdpos : (0 : ℚ) < (d : ℚ) := by exact_mod_cast Nat.pos_of_ne_zero hz
    generalize (F64.div (F64.fin false M E) (F64.fin false 8388608000000000 (-23))).toRat = x
      at hdr ⊢
    generalize (F64.fin false M E).toRat = D at hrel hex hdr
    rw [abs_le] at hrel hdr
    constructor
    · rw [abs_le]
      constructor <;> nlinarith [hrel.1, hrel.2, hdr.1, hdr.2]
    · intro h53
      have := hex h53
      subst this
      rw [abs_le]
      exact hdr
/-! ## The claims -/

/-- C1, as the code has it: for every `n_threads_highp`, `n_threads_lowp` with
`N = n_threads_highp + n_threads_lowp ≥ 1` (as `size_t`) and every benchmark
whose `bench` returns the same constant `k` for every worker, the call can
always run to its return, and it returns as `total_ops` the left-to-right
`double` sum `0.0 + k + ... + k` of `N` terms, whatever the split and the
schedule.  When `k` is a non-negative integer with `k * N ≤ 2^53` the sum is
exact: `total_ops` is `k * N`. -/
theorem run_benchmark_constant_total (bench : benchmark_t) (params : Params)
    (n_threads_highp n_threads_lowp : Nat) (clock : Nat → Nat) (sched : List Thread) (k : F64)
    (hk : ∀ i d, bench.bench i d = k)
    (hN : 0 < size_add n_threads_highp n_threads_lowp) :
    (∃ ext, (run_benchmark bench params n_threads_highp n_threads_lowp clock (sched ++ ext)).pc =
      .returned) ∧
    ((run_benchmark bench params n_threads_highp n_threads_lowp clock sched).pc = .returned →
      ∃ r, (run_benchmark bench params n_threads_highp n_threads_lowp clock sched).result = some r ∧
        r.total_ops = fsum (List.replicate (size_add n_threads_highp n_threads_lowp) k) ∧
        ∀ a, k = F64.ofNat a → a * size_add n_threads_highp n_threads_lowp ≤ 2 ^ 53 →
          r.total_ops = F64.ofNat (a * size_add n_threads_highp n_threads_lowp)) := by
  refine ⟨run_can_return bench params _ _ clock hN sched, ?_⟩
  intro hpc
  have h := inv_run bench params n_threads_highp n_threads_lowp clock sched
  obtain ⟨order, hperm, -, htot⟩ := total_at_return _ _ h hpc
  have hres := (at_return _ _ h hpc).2.2.2.2.2.2.2.2
  have hlen : order.length = size_add n_threads_highp n_threads_lowp := by
    rw [hperm.length_eq]; simp [Call.n]
  have hops : order.map (⟨bench, params, n_threads_highp, n_threads_lowp, clock⟩ : Call).ops =
      List.replicate (size_add n_threads_highp n_threads_lowp) k := by
    rw [List.eq_replicate_iff]
    refine ⟨by simp [hlen], ?_⟩
    intro x hx
    simp only [List.mem_map] at hx
    obtain ⟨i, -, rfl⟩ := hx
    exact hk _ _
  rw [hops] at htot
  refine ⟨_, hres, htot, ?_⟩
  intro a ha hle
  show (run_benchmark bench params n_threads_highp n_threads_lowp clock sched).total_ops = _
  rw [htot, ha]
  have : List.replicate (size_add n_threads_highp n_threads_lowp) (F64.ofNat a) =
      (List.replicate (size_add n_threads_highp n_threads_lowp) a).map F64.ofNat := by simp
  rw [this, fsum_ofNat _ (by simp; rw [Nat.mul_comm]; exact hle)]
  simp [Nat.mul_comm]

/-- C1, witness: the concrete scenario of the specification (`setup -> 0`,
`bench -> 1.0`, four high-priority threads and no low-priority one) gives
`total_ops == 4.0`. -/
theorem run_benchmark_constant_total_witness :
    ((∀ i d, noop_bench.bench i d = F64.ofNat 1) ∧ 0 < size_add 4 0) ∧
    ∃ r, (run_benchmark noop_bench 0 4 0 frozen_clock (fairSchedule 4)).result = some r ∧
      r.total_ops = F64.ofNat 4 := by
  refine ⟨⟨fun _ _ => rfl, by decide⟩, ?_⟩
  obtain ⟨r, h1, -, h3⟩ := (run_benchmark_constant_total noop_bench 0 4 0 frozen_clock
    (fairSchedule 4) (F64.ofNat 1) (fun _ _ => rfl) (by decide)).2 (by decide)
  exact ⟨r, h1, h3 1 rfl (by decide)⟩

/-- C1, counterexample to the claim as stated: six workers whose `bench`
returns `0.1` (the `double` nearest to one tenth).  The call returns
`total_ops = 0.6` (`5404319552844595 * 2^-53`), which is neither the `double`
product `0.1 * 6 = 0.6000000000000001` nor the exact product of `k` by `6`. -/
theorem run_benchmark_constant_total_counterexample :
    (∀ i d, tenth_bench.bench i d = tenth) ∧
    tenth = F64.div (F64.ofNat 1) (F64.ofNat 10) ∧
    0 < size_add 6 0 ∧
    (run_benchmark tenth_bench 0 6 0 frozen_clock (fairSchedule 6)).result =
      some ⟨F64.zero false, F64.fin false 5404319552844595 (-53)⟩ ∧
    F64.mul tenth (F64.ofNat 6) = F64.fin false 5404319552844596 (-53) ∧
    F64.eq (F64.fin false 5404319552844595 (-53)) (F64.mul tenth (F64.ofNat 6)) = false ∧
    (F64.fin false 5404319552844595 (-53)).toRat ≠ tenth.toRat * 6 := by
  refine ⟨fun _ _ => rfl, by decide, by decide, by decide, by decide, by decide, ?_⟩
  simp only [F64.toRat, tenth]
  norm_num

/-- C2: on every call with `N = n_threads_highp + n_threads_lowp ≥ 1` workers
(the sum taken as `size_t`), the call can always run to its return, and when
it has returned `setup` has been called exactly `N` times, once for each worker
and each time with the caller's `params`; each worker has called `bench`
exactly once, on the handle its `setup` returned, and nobody else has called
it, so that the calls of `bench` are, up to their order, one per handle set
up; and `teardown` has been called exactly `N` times, once on each handle
`setup` returned: the multiset of handles torn down is the multiset of handles
set up. -/
theorem run_benchmark_setup_bench_teardown_once (bench : benchmark_t) (params : Params)
    (n_threads_highp n_threads_lowp : Nat) (clock : Nat → Nat) (sched : List Thread)
    (hN : 0 < size_add n_threads_highp n_threads_lowp) :
    (∃ ext, (run_benchmark bench params n_threads_highp n_threads_lowp clock (sched ++ ext)).pc =
      .returned) ∧
    ((run_benchmark bench params n_threads_highp n_threads_lowp clock sched).pc = .returned →
      setups (run_benchmark bench params n_threads_highp n_threads_lowp clock sched).log =
        (List.range (size_add n_threads_highp n_threads_lowp)).map
          (fun i => (i, params, bench.setup params i)) ∧
      (∀ j, calls j (run_benchmark bench params n_threads_highp n_threads_lowp clock sched).log =
        if j < size_add n_threads_highp n_threads_lowp then [bench.setup params j] else []) ∧
      ((callPairs (run_benchmark bench params n_threads_highp n_threads_lowp clock sched).log).map
          Prod.snd).Perm
        ((setups (run_benchmark bench params n_threads_highp n_threads_lowp clock sched).log).map
          fun x => x.2.2) ∧
      teardowns (run_benchmark bench params n_threads_highp n_threads_lowp clock sched).log =
        (List.range (size_add n_threads_highp n_threads_lowp)).map (fun i => bench.setup params i) ∧
      (teardowns (run_benchmark bench params n_threads_highp n_threads_lowp clock sched).log :
          Multiset Handle) =
        ((setups (run_benchmark bench params n_threads_highp n_threads_lowp clock sched).log).map
          fun x => x.2.2)) := by
  refine ⟨run_can_return bench params _ _ clock hN sched, ?_⟩
  intro hpc
  have h := inv_run bench params n_threads_highp n_threads_lowp clock sched
  obtain ⟨h1, -, h3, h4, -⟩ := at_return _ _ h hpc
  have h5 := callPairs_at_return _ _ h hpc
  refine ⟨h1, h4, ?_, h3, ?_⟩
  · rw [h1]
    have := h5.map Prod.snd
    simpa [List.map_map, Function.comp] using this
  · rw [h1, h3, List.map_map]
    rfl

/-- C2, witness: one high-priority and one low-priority thread. -/
theorem run_benchmark_setup_bench_teardown_once_witness :
    0 < size_add 1 1 ∧
    teardowns (run_benchmark demo_bench 5 1 1 frozen_clock (fairSchedule 2)).log = [7, 8] :=
  ⟨by decide,
    ((run_benchmark_setup_bench_teardown_once demo_bench 5 1 1 frozen_clock (fairSchedule 2)
      (by decide)).2 (by decide)).2.2.2.1.trans (by decide)⟩

/-- C3: in every execution, at the moment the start flag is set every worker's
`setup` has returned; at the moment a worker calls `bench` the start flag has
been set; and at the moment `teardown` is called (for the first time or later)
every worker's call of `bench` has returned.  A call with at least one worker
can always run to its return, and a returned call has set the flag, called
`bench` for every worker and torn every handle down. -/
theorem run_benchmark_phase_order (bench : benchmark_t) (params : Params)
    (n_threads_highp n_threads_lowp : Nat) (clock : Nat → Nat) (sched : List Thread) :
    (∀ hist e rest,
      (run_benchmark bench params n_threads_highp n_threads_lowp clock sched).log =
        hist ++ e :: rest →
      (e = .ready_set → ∀ i, i < size_add n_threads_highp n_threads_lowp →
        Event.setup i params (bench.setup params i) ∈ hist) ∧
      (∀ i d, e = .bench_call i d → Event.ready_set ∈ hist) ∧
      (∀ d, e = .teardown d → ∀ i, i < size_add n_threads_highp n_threads_lowp →
        Event.bench_ret i (bench.bench i (bench.setup params i)) ∈ hist)) ∧
    (0 < size_add n_threads_highp n_threads_lowp → ∃ ext,
      (run_benchmark bench params n_threads_highp n_threads_lowp clock (sched ++ ext)).pc =
        .returned) ∧
    ((run_benchmark bench params n_threads_highp n_threads_lowp clock sched).pc = .returned →
      Event.ready_set ∈ (run_benchmark bench params n_threads_highp n_threads_lowp clock sched).log ∧
      ∀ i, i < size_add n_threads_highp n_threads_lowp →
        Event.bench_call i (bench.setup params i) ∈
          (run_benchmark bench params n_threads_highp n_threads_lowp clock sched).log ∧
        Event.teardown (bench.setup params i) ∈
          (run_benchmark bench params n_threads_highp n_threads_lowp clock sched).log) := by
  have h := inv_run bench params n_threads_highp n_threads_lowp clock sched
  refine ⟨?_, fun hN => run_can_return bench params _ _ clock hN sched, ?_⟩
  · intro hist e rest hlog
    have hs := h.sorted
    rw [hlog] at hs
    refine ⟨?_, ?_, ?_⟩
    · intro he i hi
      subst he
      have hm := setups_of_ready _ _ h (by rw [hlog]; simp) i hi
      rw [hlog] at hm
      exact sorted_before _ _ _ _ hs hm (by simp)
    · intro i d he
      subst he
      have hm := ready_of_call _ _ h i d (by rw [hlog]; simp)
      rw [hlog] at hm
      exact sorted_before _ _ _ _ hs hm (by simp)
    · intro d he i hi
      subst he
      have hm := rets_of_teardown _ _ h d (by rw [hlog]; simp) i hi
      rw [hlog] at hm
      exact sorted_before _ _ _ _ hs hm (by simp)
  · intro hpc
    obtain ⟨-, -, h3, h4, -, h6, -⟩ := at_return _ _ h hpc
    refine ⟨?_, ?_⟩
    · rw [← mem_readySets, h6]; simp
    · intro i hi
      refine ⟨?_, ?_⟩
      · rw [← mem_calls, h4 i]
        have : i < (⟨bench, params, n_threads_highp, n_threads_lowp, clock⟩ : Call).n := hi
        simp [this]
      · rw [← mem_teardowns, h3]
        simp only [List.mem_map, List.mem_range]
        exact ⟨i, hi, rfl⟩

/-- C4, as the code has it: `run_benchmark` never inspects what `setup`
returns.  Also when the `setup` of a worker fails (returns a null handle), a
call that has returned has called `bench` once for every worker, the failed
one included and on its null handle, and `teardown` once on every handle, the
null one included; no handle set up is left without its teardown. -/
theorem run_benchmark_ignores_setup_failure (bench : benchmark_t) (params : Params)
    (n_threads_highp n_threads_lowp : Nat) (clock : Nat → Nat) (sched : List Thread) (i : Nat)
    (hi : i < size_add n_threads_highp n_threads_lowp)
    (hfail : setup_failed (bench.setup params i) = true) :
    (∃ ext, (run_benchmark bench params n_threads_highp n_threads_lowp clock (sched ++ ext)).pc =
      .returned) ∧
    ((run_benchmark bench params n_threads_highp n_threads_lowp clock sched).pc = .returned →
      (∀ j, j < size_add n_threads_highp n_threads_lowp →
        calls j (run_benchmark bench params n_threads_highp n_threads_lowp clock sched).log =
          [bench.setup params j]) ∧
      Event.bench_call i 0 ∈
        (run_benchmark bench params n_threads_highp n_threads_lowp clock sched).log ∧
      Event.teardown 0 ∈
        (run_benchmark bench params n_threads_highp n_threads_lowp clock sched).log ∧
      teardowns (run_benchmark bench params n_threads_highp n_threads_lowp clock sched).log =
        (setups (run_benchmark bench params n_threads_highp n_threads_lowp clock sched).log).map
          (fun x => x.2.2) ∧
      (setups (run_benchmark bench params n_threads_highp n_threads_lowp clock sched).log).length -
        (teardowns (run_benchmark bench params n_threads_highp n_threads_lowp clock sched).log).length
          = 0) := by
  refine ⟨run_can_return bench params _ _ clock (by omega) sched, ?_⟩
  intro hpc
  have h := inv_run bench params n_threads_highp n_threads_lowp clock sched
  obtain ⟨h1, -, h3, h4, -⟩ := at_return _ _ h hpc
  have h0 : bench.setup params i = 0 := by simpa [setup_failed] using hfail
  have hn : (⟨bench, params, n_threads_highp, n_threads_lowp, clock⟩ : Call).n =
      size_add n_threads_highp n_threads_lowp := rfl
  refine ⟨?_, ?_, ?_, ?_, ?_⟩
  · intro j hj
    rw [h4 j, hn]; simp [hj]
  · rw [← mem_calls, h4 i, hn]; simp [hi, h0]
  · rw [← mem_teardowns, h3]
    simp only [List.mem_map, List.mem_range]
    exact ⟨i, hi, h0⟩
  · rw [h1, h3, List.map_map]; rfl
  · rw [h1, h3]; simp

/-- C4, witness: two workers, the `setup` of the second fails. -/
theorem run_benchmark_ignores_setup_failure_witness :
    (1 < size_add 1 1 ∧ setup_failed (failing_bench.setup 0 1) = true) ∧
    Event.bench_call 1 0 ∈ (run_benchmark failing_bench 0 1 1 frozen_clock (fairSchedule 2)).log :=
  ⟨by decide,
    ((run_benchmark_ignores_setup_failure failing_bench 0 1 1 frozen_clock (fairSchedule 2) 1
      (by decide) (by decide)).2 (by decide)).2.1⟩

/-- C4, counterexample to the claim as stated: two workers, the `setup` of the
second returns a null handle.  The call returns having called `bench` for both
workers, for the second on the null handle, and `teardown` on both handles,
the null one included. -/
theorem run_benchmark_setup_failure_counterexample :
    setup_failed (failing_bench.setup 0 1) = true ∧
    (run_benchmark failing_bench 0 1 1 frozen_clock (fairSchedule 2)).pc = .returned ∧
    calls 0 (run_benchmark failing_bench 0 1 1 frozen_clock (fairSchedule 2)).log = [7] ∧
    calls 1 (run_benchmark failing_bench 0 1 1 frozen_clock (fairSchedule 2)).log = [0] ∧
    teardowns (run_benchmark failing_bench 0 1 1 frozen_clock (fairSchedule 2)).log = [7, 0] := by
  decide

/-- C5: a call with `n_threads_highp = 0` and `n_threads_lowp = 0` fails at the
assertion of line 18 before any work starts.  Under every schedule the log
stays empty (no queue or group is created, no block is submitted, `setup`,
`bench` and `teardown` are never called), no block exists, no result is
returned, and the first step of the calling thread is the failed assertion. -/
theorem run_benchmark_zero_threads (bench : benchmark_t) (params : Params) (clock : Nat → Nat)
    (sched : List Thread) :
    (run_benchmark bench params 0 0 clock sched).log = [] ∧
    (run_benchmark bench params 0 0 clock sched).result = none ∧
    (∀ j, (run_benchmark bench params 0 0 clock sched).block j = .absent) ∧
    (Thread.main ∈ sched → (run_benchmark bench params 0 0 clock sched).pc = .aborted) ∧
    (Thread.main ∉ sched → (run_benchmark bench params 0 0 clock sched).pc = .entry) := by
  have h := inv_run bench params 0 0 clock sched
  have hn : (⟨bench, params, 0, 0, clock⟩ : Call).n = 0 := by
    simp [Call.n, size_add]
  have hpc := pc_of_zero _ hn _ h
  refine ⟨?_, ?_, ?_, ?_, ?_⟩
  · apply h.nolog
    rcases hpc with hpc | hpc <;> rw [hpc] <;> rfl
  · rw [h.result]
    rcases hpc with hpc | hpc <;> simp [hpc]
  · intro j
    have hb := h.blocks j
    have hsub : (run_benchmark bench params 0 0 clock sched).pc.submitted
        (⟨bench, params, 0, 0, clock⟩ : Call).n = 0 := by
      rcases hpc with hpc | hpc <;> rw [hpc] <;> rfl
    cases hbj : (run_benchmark bench params 0 0 clock sched).block j <;>
      rw [hbj] at hb <;> simp only [ok_queued, ok_running, ok_returned, ok_finished] at hb <;>
      omega
  · intro hm
    exact exec_entry_zero _ hn sched _ rfl hm
  · intro hm
    exact exec_entry _ sched _ rfl hm

/-- C6, as the code has it: when the sum `n_threads_highp + n_threads_lowp`
does not wrap (`1 ≤ n_threads_highp + n_threads_lowp < 2^64`), a call that has
returned has submitted exactly `N = n_threads_highp + n_threads_lowp` blocks,
the block of worker `i` to the high-priority queue if and only if
`i < n_threads_highp`; hence exactly `n_threads_highp` blocks went to the
high-priority queue and exactly `n_threads_lowp` to the low-priority one. -/
theorem run_benchmark_priority_split (bench : benchmark_t) (params : Params)
    (n_threads_highp n_threads_lowp : Nat) (clock : Nat → Nat) (sched : List Thread)
    (hpos : 0 < n_threads_highp + n_threads_lowp)
    (hlt : n_threads_highp + n_threads_lowp < 2 ^ 64) :
    (∃ ext, (run_benchmark bench params n_threads_highp n_threads_lowp clock (sched ++ ext)).pc =
      .returned) ∧
    ((run_benchmark bench params n_threads_highp n_threads_lowp clock sched).pc = .returned →
      submits (run_benchmark bench params n_threads_highp n_threads_lowp clock sched).log =
        (List.range (n_threads_highp + n_threads_lowp)).map
          (fun i => (i, decide (i < n_threads_highp), bench.setup params i)) ∧
      (submits (run_benchmark bench params n_threads_highp n_threads_lowp clock sched).log).length =
        n_threads_highp + n_threads_lowp ∧
      (submits (run_benchmark bench params n_threads_highp n_threads_lowp clock sched).log).countP
        (fun x => x.2.1) = n_threads_highp ∧
      (submits (run_benchmark bench params n_threads_highp n_threads_lowp clock sched).log).countP
        (fun x => !x.2.1) = n_threads_lowp) := by
  have hN : size_add n_threads_highp n_threads_lowp = n_threads_highp + n_threads_lowp := by
    simp only [size_add, SIZE_BITS]; exact Nat.mod_eq_of_lt hlt
  refine ⟨run_can_return bench params _ _ clock (by rw [hN]; exact hpos) sched, ?_⟩
  intro hpc
  have h := inv_run bench params n_threads_highp n_threads_lowp clock sched
  obtain ⟨-, h2, -⟩ := at_return _ _ h hpc
  have hn : (⟨bench, params, n_threads_highp, n_threads_lowp, clock⟩ : Call).n =
      n_threads_highp + n_threads_lowp := hN
  rw [hn] at h2
  refine ⟨h2, ?_, ?_, ?_⟩
  · rw [h2]; simp
  · rw [h2, List.countP_map]
    have := countP_lt_range n_threads_highp (n_threads_highp + n_threads_lowp)
    simp only [Function.comp_def]
    rw [this]; omega
  · rw [h2, List.countP_map]
    have := countP_ge_range n_threads_highp (n_threads_highp + n_threads_lowp)
    simp only [Function.comp_def]
    rw [this]; omega

/-- C6, witness: two high-priority and one low-priority thread. -/
theorem run_benchmark_priority_split_witness :
    (0 < 2 + 1 ∧ 2 + 1 < 2 ^ 64) ∧
    submits (run_benchmark demo_bench 0 2 1 frozen_clock (fairSchedule 3)).log =
      [(0, true, 7), (1, true, 8), (2, false, 9)] :=
  ⟨by decide,
    ((run_benchmark_priority_split demo_bench 0 2 1 frozen_clock (fairSchedule 3)
      (by decide) (by decide)).2 (by decide)).1.trans (by decide)⟩

/-- C6, counterexample to the claim as stated: with `n_threads_highp = 2^64 - 1`
and `n_threads_lowp = 2` the `size_t` sum is `1`, the assertion passes, and the
returned call has submitted one block, to the high-priority queue: neither
`2^64 - 1` blocks to the high-priority queue nor `2` to the low-priority one. -/
theorem run_benchmark_priority_split_counterexample :
    0 < size_add (2 ^ 64 - 1) 2 ∧
    (run_benchmark demo_bench 0 (2 ^ 64 - 1) 2 frozen_clock (fairSchedule 1)).pc = .returned ∧
    submits (run_benchmark demo_bench 0 (2 ^ 64 - 1) 2 frozen_clock (fairSchedule 1)).log =
      [(0, true, 7)] ∧
    ¬ ((submits (run_benchmark demo_bench 0 (2 ^ 64 - 1) 2 frozen_clock (fairSchedule 1)).log).countP
        (fun x => x.2.1) = 2 ^ 64 - 1) ∧
    ¬ ((submits (run_benchmark demo_bench 0 (2 ^ 64 - 1) 2 frozen_clock (fairSchedule 1)).log).countP
        (fun x => !x.2.1) = 2) := by
  decide

/-- C7: when the call has returned, its log has the form
`a ++ read_t0 t0 :: b ++ read_t1 t1 :: d` where `t0` and `t1` are the values of
the clock at the two readings, every `setup` lies in `a` and the setting of the
start flag in `b` (so `t0` is read after all setups and before the flag is
set), every return of `bench` lies in `b` and every `teardown` in `d` (so `t1`
is read after all runs and before the first teardown), and `b` holds no call
of `setup` or `teardown`.  The returned `elapsed` is `(double)(t1 - t0) / 1e9`:
a non-negative `double`, the rounding to nearest (ties to even) of `D / 10^9`,
where `D` is the rounding to nearest of the `uint64_t` difference
`(t1 + 2^64 - t0) mod 2^64`, which is `t1 - t0` when `t0 ≤ t1`; when moreover
`t1 - t0 ≤ 2^53` the conversion is exact and `elapsed` is the `double` nearest
to `(t1 - t0) / 10^9`.  In exact arithmetic: the value of `elapsed` differs
from the quotient of the difference by `10^9` by at most `3 * 2^-53` of that
quotient, and by at most `2^-53` of it when `t0 ≤ t1` and `t1 - t0 ≤ 2^53`. -/
theorem run_benchmark_elapsed_window (bench : benchmark_t) (params : Params)
    (n_threads_highp n_threads_lowp : Nat) (clock : Nat → Nat) (sched : List Thread) :
    (0 < size_add n_threads_highp n_threads_lowp → ∃ ext,
      (run_benchmark bench params n_threads_highp n_threads_lowp clock (sched ++ ext)).pc =
        .returned) ∧
    ((run_benchmark bench params n_threads_highp n_threads_lowp clock sched).pc = .returned →
      ∃ a b d t0 t1 r,
        (run_benchmark bench params n_threads_highp n_threads_lowp clock sched).log =
          a ++ Event.read_t0 t0 :: b ++ Event.read_t1 t1 :: d ∧
        t0 = clock a.length % 2 ^ 64 ∧
        t1 = clock (a.length + 1 + b.length) % 2 ^ 64 ∧
        (run_benchmark bench params n_threads_highp n_threads_lowp clock sched).result = some r ∧
        r.elapsed = F64.div (F64.ofNat (u64_sub t1 t0)) (F64.ofNat 1000000000) ∧
        (∃ D : F64, F64.Nearest (((t1 + 2 ^ 64 - t0) % 2 ^ 64 : Nat) : ℚ) D ∧
          F64.Nearest (D.toRat / 1000000000) r.elapsed) ∧
        (∃ m e, r.elapsed = F64.fin false m e) ∧
        (t0 ≤ t1 → ∃ D : F64, F64.Nearest ((t1 : ℚ) - (t0 : ℚ)) D ∧
          F64.Nearest (D.toRat / 1000000000) r.elapsed) ∧
        (t0 ≤ t1 → t1 - t0 ≤ 2 ^ 53 →
          F64.Nearest (((t1 : ℚ) - (t0 : ℚ)) / 1000000000) r.elapsed) ∧
        |r.elapsed.toRat - (((t1 + 2 ^ 64 - t0) % 2 ^ 64 : Nat) : ℚ) / 1000000000| ≤
          3 * ((((t1 + 2 ^ 64 - t0) % 2 ^ 64 : Nat) : ℚ) / 1000000000) / 2 ^ 53 ∧
        (t0 ≤ t1 → t1 - t0 ≤ 2 ^ 53 →
          |r.elapsed.toRat - ((t1 : ℚ) - (t0 : ℚ)) / 1000000000| ≤
            ((t1 : ℚ) - (t0 : ℚ)) / 1000000000 / 2 ^ 53) ∧
        (∀ i, i < size_add n_threads_highp n_threads_lowp →
          Event.setup i params (bench.setup params i) ∈ a) ∧
        Event.ready_set ∈ b ∧
        (∀ i, i < size_add n_threads_highp n_threads_lowp →
          Event.bench_ret i (bench.bench i (bench.setup params i)) ∈ b) ∧
        (∀ i, i < size_add n_threads_highp n_threads_lowp →
          Event.teardown (bench.setup params i) ∈ d) ∧
        (∀ e, e ∈ b → (∀ i p x, e ≠ Event.setup i p x) ∧ (∀ x, e ≠ Event.teardown x)) ∧
        (∀ e, e ∈ a → (∀ x, e ≠ Event.teardown x) ∧ e ≠ Event.ready_set) ∧
        (∀ e, e ∈ d → (∀ i p x, e ≠ Event.setup i p x) ∧ (∀ i x, e ≠ Event.bench_ret i x))) := by
  have h := inv_run bench params n_threads_highp n_threads_lowp clock sched
  refine ⟨fun hN => run_can_return bench params _ _ clock hN sched, ?_⟩
  intro hpc
  obtain ⟨h1, -, h3, -, h5, h6, h7, h8, h9⟩ := at_return _ _ h hpc
  have hs := h.sorted
  have hck := h.clocks
  generalize hlog : (run_benchmark bench params n_threads_highp n_threads_lowp clock sched).log
    = log at *
  generalize (run_benchmark bench params n_threads_highp n_threads_lowp clock sched).t0 = t0 at *
  generalize (run_benchmark bench params n_threads_highp n_threads_lowp clock sched).t1 = t1 at *
  have hm0 : Event.read_t0 t0 ∈ log := by rw [← mem_t0s, h7]; simp
  have hm1 : Event.read_t1 t1 ∈ log := by rw [← mem_t1s, h8]; simp
  obtain ⟨a, rest, hsplit⟩ := List.append_of_mem hm0
  subst hsplit
  have hm1' : Event.read_t1 t1 ∈ rest := sorted_after _ _ _ _ hs hm1 (by simp)
  obtain ⟨b, d, hsplit⟩ := List.append_of_mem hm1'
  subst hsplit
  have hs2 : (b ++ Event.read_t1 t1 :: d).Pairwise fun x y => x.phase ≤ y.phase := by
    rw [List.pairwise_append] at hs
    exact (List.pairwise_cons.1 hs.2.1).2
  have hsetup : ∀ i, i < size_add n_threads_highp n_threads_lowp →
      Event.setup i params (bench.setup params i) ∈ a ++ Event.read_t0 t0 :: (b ++ Event.read_t1 t1 :: d) := by
    intro i hi
    rw [← mem_setups, h1]
    simp only [List.mem_map, List.mem_range]
    exact ⟨i, hi, rfl⟩
  have hflag : Event.ready_set ∈ a ++ Event.read_t0 t0 :: (b ++ Event.read_t1 t1 :: d) := by
    rw [← mem_readySets, h6]; simp
  have hret : ∀ i, i < size_add n_threads_highp n_threads_lowp →
      Event.bench_ret i (bench.bench i (bench.setup params i)) ∈
        a ++ Event.read_t0 t0 :: (b ++ Event.read_t1 t1 :: d) := by
    intro i hi
    rw [← mem_rets, h5 i]
    have : i < (⟨bench, params, n_threads_highp, n_threads_lowp, clock⟩ : Call).n := hi
    simp [this, Call.ops]
  have htd : ∀ i, i < size_add n_threads_highp n_threads_lowp →
      Event.teardown (bench.setup params i) ∈
        a ++ Event.read_t0 t0 :: (b ++ Event.read_t1 t1 :: d) := by
    intro i hi
    rw [← mem_teardowns, h3]
    simp only [List.mem_map, List.mem_range]
    exact ⟨i, hi, rfl⟩
  have ht0 : t0 = clock a.length % 2 ^ 64 := by
    apply hck a.length t0
    left
    exact get_append_cons_length _ _ _
  have ht1 : t1 = clock (a.length + 1 + b.length) % 2 ^ 64 := by
    apply hck (a.length + 1 + b.length) t1
    right
    rw [List.getElem?_append_right (by omega)]
    have : a.length + 1 + b.length - a.length = b.length + 1 := by omega
    rw [this, List.getElem?_cons_succ]
    exact get_append_cons_length _ _ _
  have hlt0 : t0 < 2 ^ 64 := by rw [ht0]; exact Nat.mod_lt _ (by positivity)
  have hlt1 : t1 < 2 ^ 64 := by rw [ht1]; exact Nat.mod_lt _ (by positivity)
  obtain ⟨hn1, hn2, hn3⟩ := elapsedOf_nearest t0 t1 hlt0 hlt1
  have hmono : t0 ≤ t1 → (t1 + 2 ^ 64 - t0) % 2 ^ 64 = t1 - t0 := by
    intro hle
    have : t1 + 2 ^ 64 - t0 = (t1 - t0) + 2 ^ 64 := by omega
    rw [this, Nat.add_mod_right, Nat.mod_eq_of_lt (by omega)]
  have hcastsub : t0 ≤ t1 → ((t1 - t0 : Nat) : ℚ) = (t1 : ℚ) - (t0 : ℚ) := fun hle =>
    Nat.cast_sub hle
  obtain ⟨hr1, hr2⟩ := elapsedOf_rel t0 t1 hlt0 hlt1
  refine ⟨a, b, d, t0, t1, _, by simp, ht0, ht1, h9, rfl, ⟨_, hn1, hn2⟩, hn3, ?_, ?_, hr1, ?_,
    ?_, ?_, ?_, ?_, ?_, ?_, ?_⟩
  · intro hle
    rw [hmono hle, hcastsub hle] at hn1
    rw [hmono hle] at hn2
    exact ⟨_, hn1, hn2⟩
  · intro hle h53
    rw [hmono hle, ofNat_toRat _ h53, hcastsub hle] at hn2
    exact hn2
  · intro hle h53
    rw [hmono hle, hcastsub hle] at hr2
    exact hr2 h53
  · intro i hi
    exact sorted_before _ _ _ _ hs (hsetup i hi) (by simp)
  · have := sorted_after _ _ _ _ hs hflag (by simp)
    exact sorted_before _ _ _ _ hs2 this (by simp)
  · intro i hi
    have := sorted_after _ _ _ _ hs (hret i hi) (by simp)
    exact sorted_before _ _ _ _ hs2 this (by simp)
  · intro i hi
    have := sorted_after _ _ _ _ hs (htd i hi) (by simp)
    exact sorted_after _ _ _ _ hs2 this (by simp)
  · intro e he
    have hlo : (Event.read_t0 t0).phase ≤ e.phase := by
      rw [List.pairwise_append] at hs
      exact (List.pairwise_cons.1 hs.2.1).1 e (by simp [he])
    have hhi : e.phase ≤ (Event.read_t1 t1).phase := by
      rw [List.pairwise_append] at hs2
      exact hs2.2.2 e he _ (by simp)
    simp only [phase_read_t0, phase_read_t1] at hlo hhi
    refine ⟨?_, ?_⟩
    · intro i p x hx; subst hx; simp at hlo
    · intro x hx; subst hx; simp at hhi
  · intro e he
    have hhi : e.phase ≤ (Event.read_t0 t0).phase := by
      rw [List.pairwise_append] at hs
      exact hs.2.2 e he _ (by simp)
    simp only [phase_read_t0] at hhi
    refine ⟨?_, ?_⟩
    · intro x hx; subst hx; simp at hhi
    · intro hx; subst hx; simp at hhi
  · intro e he
    have hlo : (Event.read_t1 t1).phase ≤ e.phase := by
      rw [List.pairwise_append] at hs2
      exact (List.pairwise_cons.1 hs2.2.1).1 e he
    simp only [phase_read_t1] at hlo
    refine ⟨?_, ?_⟩
    · intro i p x hx; subst hx; simp at hlo
    · intro i x hx; subst hx; simp at hlo

/-- C8, as the code has it: for `N = n_threads_highp + n_threads_lowp ≥ 1`
(as `size_t`) and every benchmark, the call can always run to its return, and
a returned call has as `total_ops` the left-to-right `double` sum, from `0.0`,
of the per-worker counts in the order in which the workers performed their
atomic additions, a permutation of the workers.  Every order of the workers
occurs: the schedule `orderedSchedule N order` returns with the additions made
in the order `order`.  When every per-worker count is a non-negative integer
and the sum of all `N` counts is at most `2^53`, the sum is exact, so for every
order `total_ops` is the same value, the arithmetic sum of the `N` counts. -/
theorem run_benchmark_total_exact_sum (bench : benchmark_t) (params : Params)
    (n_threads_highp n_threads_lowp : Nat) (clock : Nat → Nat) (sched : List Thread)
    (hN : 0 < size_add n_threads_highp n_threads_lowp) :
    (∃ ext, (run_benchmark bench params n_threads_highp n_threads_lowp clock (sched ++ ext)).pc =
      .returned) ∧
    ((run_benchmark bench params n_threads_highp n_threads_lowp clock sched).pc = .returned →
      ∃ r order, (run_benchmark bench params n_threads_highp n_threads_lowp clock sched).result =
          some r ∧
        order.Perm (List.range (size_add n_threads_highp n_threads_lowp)) ∧
        (adds (run_benchmark bench params n_threads_highp n_threads_lowp clock sched).log).map
          Prod.fst = order ∧
        r.total_ops = fsum (order.map fun i => bench.bench i (bench.setup params i)) ∧
        ∀ count : Nat → Nat,
          (∀ i, i < size_add n_threads_highp n_threads_lowp →
            bench.bench i (bench.setup params i) = F64.ofNat (count i)) →
          ((List.range (size_add n_threads_highp n_threads_lowp)).map count).sum ≤ 2 ^ 53 →
          r.total_ops = F64.ofNat
            ((List.range (size_add n_threads_highp n_threads_lowp)).map count).sum) ∧
    (∀ order, order.Perm (List.range (size_add n_threads_highp n_threads_lowp)) →
      (run_benchmark bench params n_threads_highp n_threads_lowp clock
        (orderedSchedule (size_add n_threads_highp n_threads_lowp) order)).pc = .returned ∧
      (adds (run_benchmark bench params n_threads_highp n_threads_lowp clock
        (orderedSchedule (size_add n_threads_highp n_threads_lowp) order)).log).map
          Prod.fst = order) := by
  refine ⟨run_can_return bench params _ _ clock hN sched, ?_,
    fun order hperm => ordered_run ⟨bench, params, n_threads_highp, n_threads_lowp, clock⟩
      order hperm hN⟩
  intro hpc
  have h := inv_run bench params n_threads_highp n_threads_lowp clock sched
  obtain ⟨order, hperm, hadds, htot⟩ := total_at_return _ _ h hpc
  have hres := (at_return _ _ h hpc).2.2.2.2.2.2.2.2
  refine ⟨_, order, hres, hperm, ?_, htot, ?_⟩
  · rw [hadds, List.map_map]
    simp [Function.comp_def]
  · intro count hcount hsum
    show (run_benchmark bench params n_threads_highp n_threads_lowp clock sched).total_ops = _
    rw [htot]
    have hmap : order.map (⟨bench, params, n_threads_highp, n_threads_lowp, clock⟩ : Call).ops =
        (order.map count).map F64.ofNat := by
      rw [List.map_map]
      apply List.map_congr_left
      intro i hi
      have : i < size_add n_threads_highp n_threads_lowp := by
        have := hperm.mem_iff.1 hi
        simpa [Call.n] using this
      exact hcount i this
    have hs : (order.map count).sum =
        ((List.range (size_add n_threads_highp n_threads_lowp)).map count).sum :=
      (hperm.map count).sum_eq
    rw [hmap, fsum_ofNat _ (by rw [hs]; exact hsum), hs]

/-- C8, witness: three workers with the counts `2^53`, `1`, `1` that add in
the order `1, 2, 0`: `total_ops` is the `double` sum `((0.0 + 1) + 1) + 2^53`,
which is `2^53 + 2`. -/
theorem run_benchmark_total_exact_sum_witness :
    0 < size_add 2 1 ∧
    ∃ r, (run_benchmark big_bench 0 2 1 frozen_clock (orderedSchedule 3 [1, 2, 0])).result =
        some r ∧
      r.total_ops = fsum [F64.ofNat 1, F64.ofNat 1, F64.ofNat (2 ^ 53)] ∧
      r.total_ops = F64.ofNat (2 ^ 53 + 2) := by
  refine ⟨by decide, ?_⟩
  obtain ⟨r, order, h1, -, h3, h4, -⟩ := (run_benchmark_total_exact_sum big_bench 0 2 1
    frozen_clock (orderedSchedule 3 [1, 2, 0]) (by decide)).2.1 (by decide)
  have hadds : (adds (run_benchmark big_bench 0 2 1 frozen_clock
      (orderedSchedule 3 [1, 2, 0])).log).map Prod.fst = [1, 2, 0] := by decide
  rw [hadds] at h3
  subst h3
  refine ⟨r, h1, ?_, ?_⟩
  · rw [h4]; decide
  · rw [h4]; decide

/-- C8, counterexample to the claim as stated: three workers with the counts
`2^53`, `1`, `1`.  When the workers add in the order `0, 1, 2` the call returns
`total_ops = 2^53`; when they add in the order `1, 2, 0` it returns
`2^53 + 2`, the arithmetic sum.  The two results differ. -/
theorem run_benchmark_total_order_counterexample :
    big_bench.bench 0 (big_bench.setup 0 0) = F64.ofNat (2 ^ 53) ∧
    big_bench.bench 1 (big_bench.setup 0 1) = F64.ofNat 1 ∧
    big_bench.bench 2 (big_bench.setup 0 2) = F64.ofNat 1 ∧
    (run_benchmark big_bench 0 2 1 frozen_clock (orderedSchedule 3 [0, 1, 2])).result =
      some ⟨F64.zero false, F64.ofNat (2 ^ 53)⟩ ∧
    (run_benchmark big_bench 0 2 1 frozen_clock (orderedSchedule 3 [1, 2, 0])).result =
      some ⟨F64.zero false, F64.ofNat (2 ^ 53 + 1 + 1)⟩ ∧
    F64.ofNat (2 ^ 53) ≠ F64.ofNat (2 ^ 53 + 1 + 1) := by
  decide

/-- C9: `sysctl_get_int(name)` is `0` when `sysctlbyname` fails (returns `-1`)
and otherwise the integer the query left in the buffer.  Hence a failed query
and a successful query reporting `0` give the same result, the result is `1`
only when the query succeeded and reported `1`, and `supports_hw_feature` is
the test of that result against `1`. -/
theorem sysctl_get_int_failure_is_zero (sysctlbyname : sysctlbyname_t) (name : String) :
    ((sysctlbyname name 0).rc = -1 → sysctl_get_int sysctlbyname name = 0) ∧
    ((sysctlbyname name 0).rc ≠ -1 →
      sysctl_get_int sysctlbyname name = (sysctlbyname name 0).ret) ∧
    (∀ (sysctlbyname' : sysctlbyname_t) (name' : String),
      (sysctlbyname name 0).rc = -1 → (sysctlbyname' name' 0).rc ≠ -1 →
      (sysctlbyname' name' 0).ret = 0 →
      sysctl_get_int sysctlbyname name = sysctl_get_int sysctlbyname' name') ∧
    (sysctl_get_int sysctlbyname name = 1 ↔
      ((sysctlbyname name 0).rc ≠ -1 ∧ (sysctlbyname name 0).ret = 1)) ∧
    supports_hw_feature sysctlbyname name = decide (sysctl_get_int sysctlbyname name = 1) := by
  refine ⟨?_, ?_, ?_, ?_, ?_⟩
  · intro h; simp [sysctl_get_int, h]
  · intro h; simp [sysctl_get_int, h]
  · intro s' n' h1 h2 h3; simp [sysctl_get_int, h1, h2, h3]
  · by_cases h : (sysctlbyname name 0).rc = -1 <;> simp [sysctl_get_int, h]
  · by_cases h : (sysctlbyname name 0).rc = -1 <;> simp [sysctl_get_int, supports_hw_feature, h]

/-- C10: the thread-count check and the worker count are computed on the
wrapped `size_t` sum, `w = SIZE_BITS = 64` being the width of `size_t`.  The
first step of the calling thread passes the assertion exactly when
`(n_threads_highp + n_threads_lowp) mod 2^w` is not zero; the call is aborted
exactly when that value is zero (and the calling thread has taken a step);
otherwise the call can always run to its return, and a returned call has set
up exactly `(n_threads_highp + n_threads_lowp) mod 2^w` workers.  The request
`n_threads_highp = 2^w - 1`, `n_threads_lowp = 1`, whose true total is `2^w`,
is rejected like a request for zero threads. -/
theorem run_benchmark_wrapped_count (bench : benchmark_t) (params : Params)
    (n_threads_highp n_threads_lowp : Nat) (clock : Nat → Nat) :
    ((run_benchmark bench params n_threads_highp n_threads_lowp clock [Thread.main]).pc =
      if (n_threads_highp + n_threads_lowp) % 2 ^ SIZE_BITS = 0 then .aborted else .create) ∧
    (∀ sched, (run_benchmark bench params n_threads_highp n_threads_lowp clock sched).pc = .aborted ↔
      ((n_threads_highp + n_threads_lowp) % 2 ^ SIZE_BITS = 0 ∧ Thread.main ∈ sched)) ∧
    ((n_threads_highp + n_threads_lowp) % 2 ^ SIZE_BITS ≠ 0 → ∀ sched, ∃ ext,
      (run_benchmark bench params n_threads_highp n_threads_lowp clock (sched ++ ext)).pc =
        .returned) ∧
    (∀ sched, (run_benchmark bench params n_threads_highp n_threads_lowp clock sched).pc =
        .returned →
      (setups (run_benchmark bench params n_threads_highp n_threads_lowp clock sched).log).length =
        (n_threads_highp + n_threads_lowp) % 2 ^ SIZE_BITS) ∧
    (∀ sched, (run_benchmark bench params (2 ^ SIZE_BITS - 1) 1 clock sched).log = [] ∧
      (run_benchmark bench params (2 ^ SIZE_BITS - 1) 1 clock sched).result = none ∧
      (Thread.main ∈ sched →
        (run_benchmark bench params (2 ^ SIZE_BITS - 1) 1 clock sched).pc = .aborted)) := by
  have hN : (⟨bench, params, n_threads_highp, n_threads_lowp, clock⟩ : Call).n =
      (n_threads_highp + n_threads_lowp) % 2 ^ SIZE_BITS := rfl
  refine ⟨?_, ?_, ?_, ?_, ?_⟩
  · show (stepMain ⟨bench, params, n_threads_highp, n_threads_lowp, clock⟩ State.init).pc = _
    simp only [stepMain, State.init, hN]
    by_cases h0 : (n_threads_highp + n_threads_lowp) % 2 ^ SIZE_BITS = 0
    · simp [h0]
    · have : 0 < (n_threads_highp + n_threads_lowp) % 2 ^ SIZE_BITS := by omega
      simp [h0, this]
  · intro sched
    have h := inv_run bench params n_threads_highp n_threads_lowp clock sched
    constructor
    · intro hpc
      refine ⟨by rw [← hN]; exact h.aborted hpc, ?_⟩
      by_contra hm
      have := exec_entry ⟨bench, params, n_threads_highp, n_threads_lowp, clock⟩ sched
        State.init rfl hm
      unfold run_benchmark at hpc
      rw [this] at hpc
      cases hpc
    · rintro ⟨h0, hm⟩
      exact exec_entry_zero _ (by rw [hN]; exact h0) sched _ rfl hm
  · intro hne sched
    have h := inv_run bench params n_threads_highp n_threads_lowp clock sched
    obtain ⟨ext, hext⟩ := can_return _ (by rw [hN]; omega) _ h
    refine ⟨ext, ?_⟩
    unfold run_benchmark at *
    rw [exec_append]
    exact hext
  · intro sched hpc
    have h := inv_run bench params n_threads_highp n_threads_lowp clock sched
    rw [(at_return _ _ h hpc).1]
    simp [hN]
  · intro sched
    have h := inv_run bench params (2 ^ SIZE_BITS - 1) 1 clock sched
    have hn : (⟨bench, params, 2 ^ SIZE_BITS - 1, 1, clock⟩ : Call).n = 0 := by
      simp [Call.n, size_add, SIZE_BITS]
    have hpc := pc_of_zero _ hn _ h
    refine ⟨?_, ?_, ?_⟩
    · apply h.nolog
      rcases hpc with hpc | hpc <;> rw [hpc] <;> rfl
    · rw [h.result]
      rcases hpc with hpc | hpc <;> rw [if_neg (by rw [hpc]; simp)]
    · intro hm
      exact exec_entry_zero _ hn sched _ rfl hm

end SME
